import Mathlib

/-!
Verification of `miheev::Tree` (src/miheev.egor/S4/tree.hpp), an AVL-style
ordered map.

Three embeddings of the class are given.

* `miheev.Tree` is the ownership tree: every `Tree` object owns the objects
  behind `left_` and `right_`, so the objects reachable from a root form a
  finite tree.  This embedding keeps `pair_`, `height_`, `left_` and `right_`
  and is used for everything that does not read `parrent_`.
* `miheev.OTree` is the ownership tree with the address of every object.  It
  is used where a statement is about one object, followed through rotations.
* `miheev.Ptr` is the pointer graph: objects live in a store indexed by
  addresses, and `parrent_` is an address.  It is used for the iterators, for
  the parent links and for the data members of the empty object.

Keys and values are integers; `Comparator` is `std::less< Key >`.
-/

namespace miheev

/-- Keys of the map (`Key`, compared with `std::less`). -/
abbrev Key := Int

/-- Values of the map (`Value`). -/
abbrev Value := Int

/-- A `Tree` object together with everything it owns.

`node l k v h r` is an object with `isEmpty_ == false`, `pair_ == {k, v}`,
`height_ == h`, `left_` owning `l` and `right_` owning `r`.
`null` stands, in the position of a child, for the null pointer, and, as the
receiver of a member function, for the empty object (`isEmpty_ == true`,
`pair_ == nullptr`, no children).  The `height_` field of the empty object is
never read by the code and is not represented.  The field `parrent_` is not
part of this embedding, so the calls of `updateParrentsLocally()`, which write
nothing else, do not appear in it. -/
inductive Tree where
  | null : Tree
  | node (left : Tree) (key : Key) (value : Value) (height : Nat) (right : Tree) : Tree
  deriving DecidableEq, Repr

namespace Tree

/-- Whether a child pointer is null: `!left_`. -/
def isNull : Tree → Bool
  | null => true
  | node _ _ _ _ _ => false

/-- The constructor `Tree(const Key&, const Value&)`: height 1, no children. -/
def mk (key : Key) (value : Value) : Tree :=
  node null key value 1 null

/-- The expression `ptr ? ptr->getHeight() : 0`, the stored height behind a child pointer. -/
def getHeight : Tree → Nat
  | null => 0
  | node _ _ _ h _ => h

/-- The member `getDiff()`: stored height of the right child minus that of the left. -/
def getDiff : Tree → Int
  | null => 0
  | node l _ _ _ r => (getHeight r : Int) - (getHeight l : Int)

/-- The member `updateHeight()`: `height_ = max(leftHeight, rightHeight) + 1`. -/
def updateHeight : Tree → Tree
  | null => null
  | node l k v _ r => node l k v (max (getHeight l) (getHeight r) + 1) r

/-- The member `replacePair(substitution)`: the object's pair is replaced. -/
def replacePair (p : Key × Value) : Tree → Tree
  | null => null
  | node l _ _ h r => node l p.1 p.2 h r

/-- The member `rotateRR()`: the pairs of `this` and `left_` are exchanged, the old left
object becomes the right child and the four subtrees are re-hung; the heights
of the two objects are recomputed, the lower one first.  The function is only
called with `left_` non-null; on other shapes (where the code dereferences a
null pointer) the tree is returned as it is. -/
def rotateRR : Tree → Tree
  | node (node ll lk lv lh lr) k v h r =>
      updateHeight (node ll lk lv h (updateHeight (node lr k v lh r)))
  | t => t

/-- The member `rotateLL()`: mirror image of `rotateRR`, called with `right_` non-null. -/
def rotateLL : Tree → Tree
  | node l k v h (node rl rk rv rh rr) =>
      updateHeight (node (updateHeight (node l k v rh rl)) rk rv h rr)
  | t => t

/-- The member `rebalanceSelf()`: both subtrees are rebalanced first, then the object
itself is rotated when its difference is exactly `-2` or `2`. -/
def rebalanceSelf : Tree → Tree
  | null => null
  | node l k v h r =>
      let l1 := rebalanceSelf l
      let r1 := rebalanceSelf r
      let diff := getDiff (node l1 k v h r1)
      if diff = -2 then
        if getDiff l1 = 1 then rotateRR (node (rotateLL l1) k v h r1)
        else rotateRR (node l1 k v h r1)
      else if diff = 2 then
        if getDiff r1 = -1 then rotateLL (node l1 k v h (rotateRR r1))
        else rotateLL (node l1 k v h r1)
      else node l1 k v h r1

/-- The member `rawInsert(key, value)`.  On the empty object the new pair becomes the
object itself; otherwise the key goes to the left when `key < pair_->first`
and to the right in every other case, a null child being replaced by a new
object; then `updateHeight(); rebalanceSelf();`. -/
def rawInsert (key : Key) (value : Value) : Tree → Tree
  | null => mk key value
  | node l k v h r =>
      if key < k then
        rebalanceSelf (updateHeight (node (rawInsert key value l) k v h r))
      else
        rebalanceSelf (updateHeight (node l k v h (rawInsert key value r)))

/-- The member `insert(key, value)`: `rawInsert(key, value); updateHeight();`. -/
def insert (key : Key) (value : Value) (t : Tree) : Tree :=
  updateHeight (rawInsert key value t)

/-- The member `getMaxNode()`: the last object on the right spine. -/
def getMaxNode : Tree → Tree
  | null => null
  | node l k v h null => node l k v h null
  | node _ _ _ _ (node rl rk rv rh rr) => getMaxNode (node rl rk rv rh rr)

/-- The pair of an object, `*pair_`. -/
def pair? : Tree → Option (Key × Value)
  | null => none
  | node _ k v _ _ => some (k, v)

/-- The member `rawDeleteSelf()`, with the recursive call `rawDelete(temp.pair_->first)`
on the same object passed as `rec`. -/
def rawDeleteSelf (rec : Key → Tree → Option Tree) : Tree → Option Tree
  | null => some null
  | node null _ _ _ null => some null
  | node null _ _ _ (node rl rk rv rh rr) => some (node rl rk rv rh rr)
  | node (node ll lk lv lh lr) _ _ _ null => some (node ll lk lv lh lr)
  | node (node ll lk lv lh lr) k v h (node rl rk rv rh rr) =>
      match pair? (getMaxNode (node ll lk lv lh lr)) with
      | none => none
      | some p =>
          (rec p.1 (node (node ll lk lv lh lr) k v h (node rl rk rv rh rr))).map
            (replacePair p)

/-- The member `rawDelete(key)`.  The recursion is not structural (the two-children case
of `rawDeleteSelf` calls `rawDelete` on the same object), so the depth of the
call stack is bounded by `fuel`; `none` means the bound was reached. -/
def rawDelete : Nat → Key → Tree → Option Tree
  | 0, _, _ => none
  | _ + 1, _, null => some null
  | fuel + 1, key, node l k v h r =>
      let body : Option Tree :=
        if key = k then rawDeleteSelf (rawDelete fuel) (node l k v h r)
        else if key < k ∧ l.isNull = false then
          (rawDelete fuel key l).map (fun l1 => node l1 k v h r)
        else if ¬ key < k ∧ r.isNull = false then
          (rawDelete fuel key r).map (fun r1 => node l k v h r1)
        else some (node l k v h r)
      body.map (fun t => rebalanceSelf (updateHeight t))

/-- The member `erase(key)`: `rawDelete(key); updateHeight();`. -/
def erase (fuel : Nat) (key : Key) (t : Tree) : Option Tree :=
  (rawDelete fuel key t).map updateHeight

/-- In-order sequence of the pairs of a tree. -/
def toList : Tree → List (Key × Value)
  | null => []
  | node l k v _ r => toList l ++ (k, v) :: toList r

/-- Outcome of a member function that can fail: `outOfRange` is a thrown
`std::out_of_range`, `nullDeref` the dereference of a null pointer. -/
inductive Fault where
  | outOfRange : Fault
  | nullDeref : Fault
  deriving DecidableEq, Repr

/-- The member `findNextNode(key)`: `right_` when `pair_->first < key`, else `left_`. -/
def findNextNode (key : Key) : Tree → Tree
  | null => null
  | node l k _ _ r => if k < key then r else l

/-- The member `contains(key)`: `false` on the empty object, `true` on an equal key,
otherwise the search goes on in `findNextNode(key)` when that is not null. -/
def contains : Tree → Key → Bool
  | null, _ => false
  | node l k _ _ r, key =>
      if key = k then true
      else if k < key then contains r key
      else contains l key

/-- The member `at(key)`: the value of an equal key, otherwise the search goes on to the
right when `pair_->first < key` and to the left in every other case; a null
child there throws `std::out_of_range`.  The empty object has `pair_ == nullptr`,
which `at` dereferences. -/
def at_ : Tree → Key → Except Fault Value
  | null, _ => .error .nullDeref
  | node l k v _ r, key =>
      if key = k then .ok v
      else if k < key then
        (match r with
          | null => .error .outOfRange
          | node rl rk rv rh rr => at_ (node rl rk rv rh rr) key)
      else
        (match l with
          | null => .error .outOfRange
          | node ll lk lv lh lr => at_ (node ll lk lv lh lr) key)

/-- The member `size()`: `leftSize + rightSize + 1`, a null child counting `0`; the
receiver itself always counts, also when it is the empty object. -/
def size : Tree → Nat
  | null => 1
  | node l _ _ _ r =>
      (match l with
        | null => 0
        | node ll lk lv lh lr => size (node ll lk lv lh lr)) +
      (match r with
        | null => 0
        | node rl rk rv rh rr => size (node rl rk rv rh rr)) + 1

/-- The member `empty()`: the flag `isEmpty_`. -/
def empty : Tree → Bool
  | null => true
  | node _ _ _ _ _ => false

/-- The member `find(key)`: throws on the empty object, stops at an object with an
equal key, otherwise goes on in `findNextNode(key)` and throws when that is
null.  The iterator returned is built from the pointer to the object found;
that object stands for it here. -/
def find : Tree → Key → Except Fault Tree
  | null, _ => .error .outOfRange
  | node l k v h r, key =>
      if key = k then .ok (node l k v h r)
      else if k < key then
        (match r with
          | null => .error .outOfRange
          | node rl rk rv rh rr => find (node rl rk rv rh rr) key)
      else
        (match l with
          | null => .error .outOfRange
          | node ll lk lv lh lr => find (node ll lk lv lh lr) key)

/-- The member `clear()`: the object becomes the empty object. -/
def clear (_ : Tree) : Tree := null

/-- The mutable `operator[](key)`: `find(key)->second`, and when `find` throws
`std::out_of_range`, `insert(key, Value())` followed by `find(key)->second`
(`Value()` is `0` for integers).  The result is the value referred to and the
map after the call. -/
def index (key : Key) (t : Tree) : Except Fault (Value × Tree) :=
  match find t key with
  | .ok n =>
      (match pair? n with
        | some p => .ok (p.2, t)
        | none => .error .nullDeref)
  | .error .outOfRange =>
      (match find (insert key 0 t) key with
        | .ok n =>
            (match pair? n with
              | some p => .ok (p.2, insert key 0 t)
              | none => .error .nullDeref)
        | .error e => .error e)
  | .error e => .error e

end Tree

/-- What is written to the output stream: an inserted key or value
(`out << pair_->first`) or the character `' '`. -/
inductive Out where
  | item (n : Int) : Out
  | space : Out
  deriving DecidableEq, Repr

namespace Tree

/-- The member `printKeys(out)`: nothing on the empty object, otherwise the left subtree,
the key followed by `' '`, the right subtree. -/
def printKeys : Tree → List Out
  | null => []
  | node l k _ _ r => printKeys l ++ [Out.item k, Out.space] ++ printKeys r

/-- The member `printValues(out)`: as `printKeys`, with `pair_->second`. -/
def printValues : Tree → List Out
  | null => []
  | node l _ v _ r => printValues l ++ [Out.item v, Out.space] ++ printValues r

/-- Keys of a tree in in-order. -/
def keys (t : Tree) : List Key :=
  (toList t).map Prod.fst

/-- Number of objects on the longest path from the object down to a leaf;
`0` for an absent child. -/
def depth : Tree → Nat
  | null => 0
  | node l _ _ _ r => max (depth l) (depth r) + 1

/-- BST order: at every node the left subtree holds only smaller keys and the
right subtree only greater keys. -/
def BSTOrder : Tree → Prop
  | null => True
  | node l k _ _ r =>
      (∀ p ∈ toList l, p.1 < k) ∧ (∀ p ∈ toList r, k < p.1) ∧ BSTOrder l ∧ BSTOrder r

/-- Decision procedure for `BSTOrder`. -/
def decBSTOrder : (t : Tree) → Decidable (BSTOrder t)
  | null => isTrue trivial
  | node l k _ _ r =>
      have := decBSTOrder l
      have := decBSTOrder r
      (inferInstance : Decidable
        ((∀ p ∈ toList l, p.1 < k) ∧ (∀ p ∈ toList r, k < p.1) ∧ BSTOrder l ∧ BSTOrder r))

instance : DecidablePred BSTOrder := decBSTOrder

/-- Balance with respect to a height function `ht`: at every node the heights
of the two children differ by at most one. -/
def Balanced (ht : Tree → Nat) : Tree → Prop
  | null => True
  | node l _ _ _ r =>
      ht l ≤ ht r + 1 ∧ ht r ≤ ht l + 1 ∧ Balanced ht l ∧ Balanced ht r

/-- Stored heights are right: `height_ == 1 + max(height(left), height(right))`
at every node. -/
def HeightsOk : Tree → Prop
  | null => True
  | node l _ _ h r =>
      h = max (getHeight l) (getHeight r) + 1 ∧ HeightsOk l ∧ HeightsOk r

/-- The AVL invariant on the stored heights: heights right and balanced. -/
def AVL (t : Tree) : Prop :=
  HeightsOk t ∧ Balanced getHeight t

/-- Calls of `insert(pair)` for every pair of a list, in order, starting from a tree. -/
def insertAll (t : Tree) (kvs : List (Key × Value)) : Tree :=
  kvs.foldl (fun acc p => insert p.1 p.2 acc) t

end Tree

/-- A mutating call of the public interface. -/
inductive Op where
  | insert (key : Key) (value : Value) : Op
  | erase (key : Key) : Op
  deriving DecidableEq, Repr

/-- One call on a map; `none` when `erase` does not return within `fuel`. -/
def Op.apply (fuel : Nat) : Op → Tree → Option Tree
  | .insert key value, t => some (Tree.insert key value t)
  | .erase key, t => Tree.erase fuel key t

/-- A sequence of calls, from left to right. -/
def runOps (fuel : Nat) : List Op → Tree → Option Tree
  | [], t => some t
  | op :: ops, t =>
      match op.apply fuel t with
      | none => none
      | some t1 => runOps fuel ops t1

namespace Tree

/-- The pairs of a tree, read in in-order, are sorted strictly by key. -/
def Ordered (t : Tree) : Prop :=
  (toList t).Pairwise (fun a b => a.1 < b.1)

end Tree

/-- The text written for a sequence of numbers: each one followed by `' '`. -/
def render : List Int → List Out
  | [] => []
  | n :: ns => Out.item n :: Out.space :: render ns

/-- Comparison of two pairs by their keys. -/
def keyLE (a b : Key × Value) : Prop := a.1 ≤ b.1

instance : DecidableRel keyLE := fun a b => inferInstanceAs (Decidable (a.1 ≤ b.1))

/-- Equality of outcomes is decidable. -/
instance decEqExcept {ε α : Type} [DecidableEq ε] [DecidableEq α] :
    DecidableEq (Except ε α) :=
  fun a b =>
    match a, b with
    | .ok x, .ok y =>
        if h : x = y then isTrue (by rw [h]) else isFalse (by intro e; cases e; exact h rfl)
    | .error x, .error y =>
        if h : x = y then isTrue (by rw [h]) else isFalse (by intro e; cases e; exact h rfl)
    | .ok _, .error _ => isFalse (by intro e; cases e)
    | .error _, .ok _ => isFalse (by intro e; cases e)

namespace Ptr

/-- Address of a `Tree` object. -/
abbrev Addr := Nat

/-- Why a call did not return normally: a thrown `std::out_of_range`, an access
through a null or dangling pointer, or the bound on the depth of recursion and
on the number of loop rounds being reached. -/
inductive Stop where
  | outOfRange : Stop
  | badAccess : Stop
  | noFuel : Stop
  deriving DecidableEq, Repr

/-- The data members of a `Tree` object. -/
structure Obj where
  pair : Option (Key × Value)
  height : Nat
  isEmpty : Bool
  left : Option Addr
  right : Option Addr
  parrent : Option Addr
  deriving DecidableEq, Repr

/-- The objects alive at each address; `none` where no object is alive. -/
abbrev Store := List (Option Obj)

/-- A computation on the store. -/
abbrev M (α : Type) := StateT Store (Except Stop) α

/-- Read the object behind a pointer. -/
def load (a : Addr) : M Obj := fun s =>
  match s.get? a with
  | some (some o) => .ok (o, s)
  | _ => .error .badAccess

/-- Overwrite the object behind a pointer. -/
def save (a : Addr) (o : Obj) : M Unit := fun s =>
  match s.get? a with
  | some (some _) => .ok ((), s.set a (some o))
  | _ => .error .badAccess

/-- Storage for a new object, at an address not in use. -/
def alloc (o : Obj) : M Addr := fun s => .ok (s.length, s ++ [some o])

/-- Release the storage of an object. -/
def free (a : Addr) : M Unit := fun s =>
  match s.get? a with
  | some (some _) => .ok ((), s.set a none)
  | _ => .error .badAccess

/-- The constructor `Tree()`: the empty object. -/
def emptyObj : Obj :=
  { pair := none, height := 0, isEmpty := true, left := none, right := none, parrent := none }

/-- The constructor `Tree(key, value)`. -/
def newObj (key : Key) (value : Value) : Obj :=
  { pair := some (key, value), height := 1, isEmpty := false,
    left := none, right := none, parrent := none }

/-- The expression `pair_->first`. -/
def keyOf (o : Obj) : M Key :=
  match o.pair with
  | some p => pure p.1
  | none => throw .badAccess

/-- The expression `ptr ? ptr->getHeight() : 0`. -/
def heightAt (p : Option Addr) : M Nat :=
  match p with
  | none => pure 0
  | some a => do
      let o ← load a
      pure o.height

/-- The member `updateParrentsLocally()`. -/
def updateParrentsLocally (this : Addr) : M Unit := do
  let o ← load this
  match o.left with
  | some l => do
      let c ← load l
      save l { c with parrent := some this }
  | none => pure ()
  match o.right with
  | some r => do
      let c ← load r
      save r { c with parrent := some this }
  | none => pure ()

/-- The member `clear()`; `delete child` runs the destructor of the child, which is
`clear()`, and releases it. -/
def clear : Nat → Addr → M Unit
  | 0, _ => throw .noFuel
  | fuel + 1, this => do
      let o ← load this
      match o.left with
      | some l => do
          clear fuel l
          free l
      | none => pure ()
      match o.right with
      | some r => do
          clear fuel r
          free r
      | none => pure ()
      save this emptyObj

/-- The copy constructor `Tree(const Tree& rhs)` run on new storage; the
address of the copy is returned. -/
def copyNew : Nat → Addr → M Addr
  | 0, _ => throw .noFuel
  | fuel + 1, rhs => do
      let src ← load rhs
      let this ← alloc { pair := src.pair, height := src.height, isEmpty := src.isEmpty,
                         left := none, right := none, parrent := none }
      match src.left with
      | some l => do
          let c ← copyNew fuel l
          let o ← load this
          save this { o with left := some c }
      | none => pure ()
      match src.right with
      | some r => do
          let c ← copyNew fuel r
          let o ← load this
          save this { o with right := some c }
      | none => pure ()
      updateParrentsLocally this
      pure this

/-- The assignment `operator=(const Tree& rhs)`. -/
def assign (fuel : Nat) (this rhs : Addr) : M Unit := do
  clear fuel this
  let src ← load rhs
  let o ← load this
  save this { o with pair := src.pair, height := src.height, isEmpty := src.isEmpty }
  match src.left with
  | some l => do
      let c ← copyNew fuel l
      let o ← load this
      save this { o with left := some c }
  | none => pure ()
  match src.right with
  | some r => do
      let c ← copyNew fuel r
      let o ← load this
      save this { o with right := some c }
  | none => pure ()
  updateParrentsLocally this

/-- The member `updateHeight()`. -/
def updateHeight (this : Addr) : M Unit := do
  let o ← load this
  let leftHeight ← heightAt o.left
  let rightHeight ← heightAt o.right
  save this { o with height := max leftHeight rightHeight + 1 }

/-- The member `getDiff()`. -/
def getDiff (this : Addr) : M Int := do
  let o ← load this
  let leftHeight ← heightAt o.left
  let rightHeight ← heightAt o.right
  pure ((rightHeight : Int) - (leftHeight : Int))

/-- Follow a pointer that the code dereferences without a test. -/
def deref (p : Option Addr) : M Addr :=
  match p with
  | some a => pure a
  | none => throw .badAccess

/-- The member `swapNodes(lhs, rhs)`: the pairs of the two objects are exchanged. -/
def swapNodes (lhs rhs : Addr) : M Unit := do
  let a ← load lhs
  let b ← load rhs
  let _ ← keyOf a
  let _ ← keyOf b
  save lhs { a with pair := b.pair }
  let b ← load rhs
  save rhs { b with pair := a.pair }

/-- The member `rotateRR()`. -/
def rotateRR (this : Addr) : M Unit := do
  let o ← load this
  let l ← deref o.left
  swapNodes l this
  let o ← load this
  let buff := o.right
  save this { o with right := o.left }
  let o ← load this
  let r ← deref o.right
  let ro ← load r
  save this { o with left := ro.left }
  let ro ← load r
  save r { ro with left := ro.right }
  let ro ← load r
  save r { ro with right := buff }
  updateHeight r
  updateHeight this

/-- The member `rotateLL()`. -/
def rotateLL (this : Addr) : M Unit := do
  let o ← load this
  let r ← deref o.right
  swapNodes r this
  let o ← load this
  let buff := o.left
  save this { o with left := o.right }
  let o ← load this
  let l ← deref o.left
  let lo ← load l
  save this { o with right := lo.right }
  let lo ← load l
  save l { lo with right := lo.left }
  let lo ← load l
  save l { lo with left := buff }
  updateHeight l
  updateHeight this

/-- The member `rebalanceSelf()`. -/
def rebalanceSelf : Nat → Addr → M Unit
  | 0, _ => throw .noFuel
  | fuel + 1, this => do
      let o ← load this
      match o.left with
      | some l => rebalanceSelf fuel l
      | none => pure ()
      match o.right with
      | some r => rebalanceSelf fuel r
      | none => pure ()
      let diff ← getDiff this
      if diff = -2 then do
        let o ← load this
        let l ← deref o.left
        let d ← getDiff l
        if d = 1 then rotateLL l else pure ()
        rotateRR this
      else if diff = 2 then do
        let o ← load this
        let r ← deref o.right
        let d ← getDiff r
        if d = -1 then rotateRR r else pure ()
        rotateLL this
      else pure ()
      updateParrentsLocally this

/-- The member `rawInsert(key, value)`. -/
def rawInsert : Nat → Addr → Key → Value → M Unit
  | 0, _, _, _ => throw .noFuel
  | fuel + 1, this, key, value => do
      let o ← load this
      if o.isEmpty then do
        let temp ← alloc (newObj key value)
        assign fuel this temp
        clear fuel temp
        free temp
      else do
        let k ← keyOf o
        if key < k then
          match o.left with
          | some l => rawInsert fuel l key value
          | none => do
              let c ← alloc (newObj key value)
              let o ← load this
              save this { o with left := some c }
        else
          match o.right with
          | some r => rawInsert fuel r key value
          | none => do
              let c ← alloc (newObj key value)
              let o ← load this
              save this { o with right := some c }
        updateHeight this
        rebalanceSelf fuel this
        updateParrentsLocally this

/-- The member `insert(key, value)`. -/
def insert (fuel : Nat) (this : Addr) (key : Key) (value : Value) : M Unit := do
  rawInsert fuel this key value
  updateHeight this
  updateParrentsLocally this

/-- The member `getMaxNode()`. -/
def getMaxNode : Nat → Addr → M Addr
  | 0, _ => throw .noFuel
  | fuel + 1, this => do
      let o ← load this
      match o.right with
      | some r => getMaxNode fuel r
      | none => pure this

/-- The member `getMinNode()`. -/
def getMinNode : Nat → Addr → M Addr
  | 0, _ => throw .noFuel
  | fuel + 1, this => do
      let o ← load this
      match o.left with
      | some l => getMinNode fuel l
      | none => pure this

/-- The data members of an `Iterator`. -/
structure Iterator where
  cur : Option Addr
  max : Option Addr
  deriving DecidableEq, Repr

/-- The member `Iterator::weAreOnRight()`. -/
def weAreOnRight (it : Iterator) : M Bool := do
  let c ← deref it.cur
  let o ← load c
  match o.parrent with
  | none => pure false
  | some p => do
      let po ← load p
      let pk ← keyOf po
      let k ← keyOf o
      pure (decide (pk < k))

/-- The loop `while (top->parrent_) top = top->parrent_;`. -/
def climbToTop : Nat → Addr → M Addr
  | 0, _ => throw .noFuel
  | fuel + 1, top => do
      let o ← load top
      match o.parrent with
      | some p => climbToTop fuel p
      | none => pure top

/-- The constructor `Iterator(Tree* init)`. -/
def Iterator.ofPtr (fuel : Nat) (init : Option Addr) : M Iterator :=
  match init with
  | none => pure { cur := none, max := none }
  | some a => do
      let right ← weAreOnRight { cur := some a, max := none }
      let top ← if right then pure a else climbToTop fuel a
      let m ← getMaxNode fuel top
      pure { cur := some a, max := some m }

/-- The loop `while (cur_->parrent_ && weAreOnRight()) cur_ = cur_->parrent_;`
of `operator++`. -/
def climbWhileRight : Nat → Iterator → M Iterator
  | 0, _ => throw .noFuel
  | fuel + 1, it => do
      let c ← deref it.cur
      let o ← load c
      match o.parrent with
      | none => pure it
      | some p => do
          let right ← weAreOnRight it
          if right then climbWhileRight fuel { it with cur := some p } else pure it

/-- The member `Iterator::operator++()`. -/
def Iterator.next (fuel : Nat) (it : Iterator) : M Iterator :=
  match it.cur with
  | none => throw .outOfRange
  | some c => do
      let o ← load c
      match o.right with
      | some r => do
          let m ← getMinNode fuel r
          pure { it with cur := some m }
      | none => do
          let it1 ← climbWhileRight fuel it
          let c1 ← deref it1.cur
          let o1 ← load c1
          pure { it1 with cur := o1.parrent }

/-- The loop `while (cur_->parrent_ && !weAreOnRight()) cur_ = cur_->parrent_;`
of `operator--`. -/
def climbWhileLeft : Nat → Iterator → M Iterator
  | 0, _ => throw .noFuel
  | fuel + 1, it => do
      let c ← deref it.cur
      let o ← load c
      match o.parrent with
      | none => pure it
      | some p => do
          let right ← weAreOnRight it
          if right then pure it else climbWhileLeft fuel { it with cur := some p }

/-- The member `Iterator::operator--()`. -/
def Iterator.prev (fuel : Nat) (it : Iterator) : M Iterator :=
  match it.cur with
  | none => pure { it with cur := it.max }
  | some c => do
      let o ← load c
      match o.left with
      | some l => do
          let m ← getMaxNode fuel l
          pure { it with cur := some m }
      | none => do
          let it1 ← climbWhileLeft fuel it
          let c1 ← deref it1.cur
          let o1 ← load c1
          match o1.parrent with
          | some p => pure { it1 with cur := some p }
          | none => pure it1

/-- The member `begin()`: `return getMinNode();`, converted by `Iterator(Tree*)`. -/
def begin_ (fuel : Nat) (this : Addr) : M Iterator := do
  let m ← getMinNode fuel this
  Iterator.ofPtr fuel (some m)

/-- The member `end()`: `return Iterator(nullptr, getMaxNode());`. -/
def end_ (fuel : Nat) (this : Addr) : M Iterator := do
  let m ← getMaxNode fuel this
  pure { cur := none, max := some m }

/-- The expression `(*it).first`; dereferencing the end iterator throws. -/
def Iterator.key (it : Iterator) : M Key :=
  match it.cur with
  | none => throw .outOfRange
  | some c => do
      let o ← load c
      keyOf o

/-- The keys seen by `for (it = first; it != last; ++it)`. -/
def walkForward : Nat → Iterator → Iterator → M (List Key)
  | 0, _, _ => throw .noFuel
  | fuel + 1, it, last =>
      if it.cur = last.cur then pure []
      else do
        let k ← it.key
        let it1 ← it.next fuel
        let rest ← walkForward fuel it1 last
        pure (k :: rest)

/-- The keys seen by `do { --it; visit(*it); } while (it != first);`. -/
def walkBackward : Nat → Iterator → Iterator → M (List Key)
  | 0, _, _ => throw .noFuel
  | fuel + 1, it, first => do
      let it1 ← it.prev fuel
      let k ← it1.key
      if it1.cur = first.cur then pure [k]
      else do
        let rest ← walkBackward fuel it1 first
        pure (k :: rest)

/-- Keys visited from `begin()` to `end()` with `operator++`. -/
def ascending (fuel : Nat) (this : Addr) : M (List Key) := do
  let first ← begin_ fuel this
  let last ← end_ fuel this
  walkForward fuel first last

/-- Keys visited from `end()` back to `begin()` with `operator--`. -/
def descending (fuel : Nat) (this : Addr) : M (List Key) := do
  let first ← begin_ fuel this
  let last ← end_ fuel this
  walkBackward fuel last first

/-- Calls of `insert` of every pair of a list, in order; the store after the last
call. -/
def insertAll (fuel : Nat) (this : Addr) : List (Key × Value) → Store → Except Stop Store
  | [], s => .ok s
  | p :: ps, s =>
      match insert fuel this p.1 p.2 s with
      | .ok (_, s1) => insertAll fuel this ps s1
      | .error e => .error e

/-- A store holding one default-constructed map, at address `0`. -/
def init : Store := [some emptyObj]

/-- The keys visited from `begin()` to `end()` on the map built from the empty
map by inserting the pairs in order. -/
def ascendingKeys (fuel : Nat) (kvs : List (Key × Value)) : Except Stop (List Key) :=
  match insertAll fuel 0 kvs init with
  | .ok s =>
      match ascending fuel 0 s with
      | .ok (ks, _) => .ok ks
      | .error e => .error e
  | .error e => .error e

/-- The keys visited from `end()` back to `begin()` on the map built from the
empty map by inserting the pairs in order. -/
def descendingKeys (fuel : Nat) (kvs : List (Key × Value)) : Except Stop (List Key) :=
  match insertAll fuel 0 kvs init with
  | .ok s =>
      match descending fuel 0 s with
      | .ok (ks, _) => .ok ks
      | .error e => .error e
  | .error e => .error e

/-- Whether the parent link of a child is the object it hangs from. -/
def childLinked (s : Store) (this : Addr) (child : Option Addr) : Bool :=
  match child with
  | none => true
  | some c =>
      match s.get? c with
      | some (some o) => decide (o.parrent = some this)
      | _ => false

/-- Parent consistency below an object: every left and right child reachable
from it has the object it hangs from as `parrent_`. -/
def parentsConsistent : Nat → Store → Addr → Bool
  | 0, _, _ => false
  | fuel + 1, s, this =>
      match s.get? this with
      | some (some o) =>
          childLinked s this o.left && childLinked s this o.right &&
          (match o.left with
            | some l => parentsConsistent fuel s l
            | none => true) &&
          (match o.right with
            | some r => parentsConsistent fuel s r
            | none => true)
      | _ => false

/-- The ownership tree below an address, read off the store. -/
def toTree : Nat → Store → Option Addr → Tree
  | 0, _, _ => Tree.null
  | _ + 1, _, none => Tree.null
  | fuel + 1, s, some a =>
      match s.get? a with
      | some (some o) =>
          match o.pair with
          | some p => Tree.node (toTree fuel s o.left) p.1 p.2 o.height (toTree fuel s o.right)
          | none => Tree.null
      | _ => Tree.null

/-- The store after inserting the keys 1, 2, 3, 4, 5, 6 (each with ten times the key
as its value) into the empty map at address `0`. -/
def up6 : Store :=
  [some { pair := some (4, 40), height := 3, isEmpty := false,
          left := some 3, right := some 5, parrent := none },
   none,
   some { pair := some (1, 10), height := 1, isEmpty := false,
          left := none, right := none, parrent := some 0 },
   some { pair := some (2, 20), height := 2, isEmpty := false,
          left := some 2, right := some 4, parrent := some 0 },
   some { pair := some (3, 30), height := 1, isEmpty := false,
          left := none, right := none, parrent := some 3 },
   some { pair := some (5, 50), height := 2, isEmpty := false,
          left := none, right := some 6, parrent := some 0 },
   some { pair := some (6, 60), height := 1, isEmpty := false,
          left := none, right := none, parrent := some 5 }]

/-- The store after inserting the keys 6, 5, 4, 3, 2, 1 (each with ten times the key
as its value) into the empty map at address `0`. -/
def down6 : Store :=
  [some { pair := some (3, 30), height := 3, isEmpty := false,
          left := some 5, right := some 3, parrent := none },
   none,
   some { pair := some (6, 60), height := 1, isEmpty := false,
          left := none, right := none, parrent := some 0 },
   some { pair := some (5, 50), height := 2, isEmpty := false,
          left := some 4, right := some 2, parrent := some 0 },
   some { pair := some (4, 40), height := 1, isEmpty := false,
          left := none, right := none, parrent := some 3 },
   some { pair := some (2, 20), height := 2, isEmpty := false,
          left := some 6, right := none, parrent := some 0 },
   some { pair := some (1, 10), height := 1, isEmpty := false,
          left := none, right := none, parrent := some 5 }]

end Ptr

/-- The ownership tree with the address of every object: `node a l k v h r` is
the object at address `a`.  The members below are those of `Tree`, with the
addresses carried along: a rotation exchanges the pairs of two objects and
re-hangs subtrees, it moves no object to another address. -/
inductive OTree where
  | null : OTree
  | node (addr : Nat) (left : OTree) (key : Key) (value : Value) (height : Nat)
      (right : OTree) : OTree
  deriving DecidableEq, Repr

namespace OTree

/-- The ownership tree without the addresses. -/
def strip : OTree → Tree
  | null => Tree.null
  | node _ l k v h r => Tree.node (strip l) k v h (strip r)

/-- The objects of a tree with their pairs, in in-order. -/
def objs : OTree → List (Nat × (Key × Value))
  | null => []
  | node a l k v _ r => objs l ++ (a, (k, v)) :: objs r

/-- The addresses of the objects of a tree, in in-order. -/
def addrs (x : OTree) : List Nat :=
  (objs x).map Prod.fst

/-- The address of the object a tree hangs from, if the tree is not null. -/
def rootAddr : OTree → Option Nat
  | null => none
  | node a _ _ _ _ _ => some a

/-- The member `updateHeight()`. -/
def updateHeight : OTree → OTree
  | null => null
  | node a l k v _ r =>
      node a l k v (max (Tree.getHeight (strip l)) (Tree.getHeight (strip r)) + 1) r

/-- The member `replacePair(substitution)`. -/
def replacePair (p : Key × Value) : OTree → OTree
  | null => null
  | node a l _ _ h r => node a l p.1 p.2 h r

/-- The member `rotateRR()`: the object `this` (address `a`) takes the pair of
its left child (address `b`) and stays on top; the object at `b` takes the pair
of `this` and becomes the right child. -/
def rotateRR : OTree → OTree
  | node a (node b ll lk lv lh lr) k v h r =>
      updateHeight (node a ll lk lv h (updateHeight (node b lr k v lh r)))
  | x => x

/-- The member `rotateLL()`: mirror image of `rotateRR`. -/
def rotateLL : OTree → OTree
  | node a l k v h (node b rl rk rv rh rr) =>
      updateHeight (node a (updateHeight (node b l k v rh rl)) rk rv h rr)
  | x => x

/-- The member `rebalanceSelf()`. -/
def rebalanceSelf : OTree → OTree
  | null => null
  | node a l k v h r =>
      let l1 := rebalanceSelf l
      let r1 := rebalanceSelf r
      let diff := Tree.getDiff (strip (node a l1 k v h r1))
      if diff = -2 then
        if Tree.getDiff (strip l1) = 1 then rotateRR (node a (rotateLL l1) k v h r1)
        else rotateRR (node a l1 k v h r1)
      else if diff = 2 then
        if Tree.getDiff (strip r1) = -1 then rotateLL (node a l1 k v h (rotateRR r1))
        else rotateLL (node a l1 k v h r1)
      else node a l1 k v h r1

/-- The member `rawDeleteSelf()`, with the recursive call on the same object
passed as `rec`.  With a single child, `*this = temp` keeps the object `this`
and gives it the pair, the height and copies of the children of that child; the
copies are new objects, which take the place of the objects they copy (those
are released) and are given their addresses here. -/
def rawDeleteSelf (rec : Key → OTree → Option OTree) : OTree → Option OTree
  | null => some null
  | node _ null _ _ _ null => some null
  | node a null _ _ _ (node _ rl rk rv rh rr) => some (node a rl rk rv rh rr)
  | node a (node _ ll lk lv lh lr) _ _ _ null => some (node a ll lk lv lh lr)
  | node a (node b ll lk lv lh lr) k v h (node c rl rk rv rh rr) =>
      match Tree.pair? (Tree.getMaxNode (strip (node b ll lk lv lh lr))) with
      | none => none
      | some p =>
          (rec p.1 (node a (node b ll lk lv lh lr) k v h (node c rl rk rv rh rr))).map
            (replacePair p)

/-- The member `rawDelete(key)`, with the depth of the call stack bounded by
`fuel`. -/
def rawDelete : Nat → Key → OTree → Option OTree
  | 0, _, _ => none
  | _ + 1, _, null => some null
  | fuel + 1, key, node a l k v h r =>
      let body : Option OTree :=
        if key = k then rawDeleteSelf (rawDelete fuel) (node a l k v h r)
        else if key < k ∧ (strip l).isNull = false then
          (rawDelete fuel key l).map (fun l1 => node a l1 k v h r)
        else if ¬ key < k ∧ (strip r).isNull = false then
          (rawDelete fuel key r).map (fun r1 => node a l k v h r1)
        else some (node a l k v h r)
      body.map (fun x => rebalanceSelf (updateHeight x))

/-- The member `erase(key)`. -/
def erase (fuel : Nat) (key : Key) (x : OTree) : Option OTree :=
  (rawDelete fuel key x).map updateHeight

/-- The member `find(key)`, returning the object found. -/
def find : OTree → Key → Except Tree.Fault OTree
  | null, _ => .error .outOfRange
  | node a l k v h r, key =>
      if key = k then .ok (node a l k v h r)
      else if k < key then
        (match r with
          | null => .error .outOfRange
          | node b rl rk rv rh rr => find (node b rl rk rv rh rr) key)
      else
        (match l with
          | null => .error .outOfRange
          | node b ll lk lv lh lr => find (node b ll lk lv lh lr) key)

end OTree

namespace Ptr

/-- The member `replacePair(substitution)`. -/
def replacePair (this : Addr) (substitution : Option (Key × Value)) : M Unit := do
  let o ← load this
  match substitution with
  | none => throw .badAccess
  | some p => save this { o with pair := some p }

/-- The member `rawDeleteSelf()`, with the recursive call
`rawDelete(temp.pair_->first)` on the same object passed as `again`.  The
automatic object `temp` lives in the store until the end of its block. -/
def rawDeleteSelf (again : Addr → Key → M Unit) (fuel : Nat) (this : Addr) : M Unit := do
  let o ← load this
  match o.left, o.right with
  | none, none => clear fuel this
  | none, some r => do
      let temp ← copyNew fuel r
      assign fuel this temp
      clear fuel temp
      free temp
  | some l, none => do
      let temp ← copyNew fuel l
      assign fuel this temp
      clear fuel temp
      free temp
  | some l, some _ => do
      let m ← getMaxNode fuel l
      let temp ← copyNew fuel m
      let t ← load temp
      let k ← keyOf t
      again this k
      let t ← load temp
      replacePair this t.pair
      clear fuel temp
      free temp
  updateParrentsLocally this

/-- The member `rawDelete(key)`. -/
def rawDelete : Nat → Addr → Key → M Unit
  | 0, _, _ => throw .noFuel
  | fuel + 1, this, key => do
      let o ← load this
      if o.isEmpty then pure ()
      else do
        let k ← keyOf o
        if key = k then rawDeleteSelf (rawDelete fuel) fuel this
        else if key < k ∧ o.left.isSome then do
          let l ← deref o.left
          rawDelete fuel l key
          let lo ← load l
          if lo.isEmpty then do
            let o ← load this
            save this { o with left := none }
            clear fuel l
            free l
          else pure ()
        else if ¬ key < k ∧ o.right.isSome then do
          let r ← deref o.right
          rawDelete fuel r key
          let ro ← load r
          if ro.isEmpty then do
            let o ← load this
            save this { o with right := none }
            clear fuel r
            free r
          else pure ()
        else pure ()
        updateHeight this
        rebalanceSelf fuel this
        updateParrentsLocally this

/-- The member `erase(key)`. -/
def erase (fuel : Nat) (this : Addr) (key : Key) : M Unit := do
  rawDelete fuel this key
  updateHeight this

/-- The ownership tree below an address, with the addresses, read off the
store. -/
def toOTree : Nat → Store → Option Addr → OTree
  | 0, _, _ => OTree.null
  | _ + 1, _, none => OTree.null
  | fuel + 1, s, some a =>
      match s.get? a with
      | some (some o) =>
          match o.pair with
          | some p =>
              OTree.node a (toOTree fuel s o.left) p.1 p.2 o.height (toOTree fuel s o.right)
          | none => OTree.null
      | _ => OTree.null

/-- The store after `erase` calls, in order. -/
def eraseAll (fuel : Nat) (this : Addr) : List Key → Store → Except Stop Store
  | [], s => .ok s
  | k :: ks, s =>
      match erase fuel this k s with
      | .ok (_, s1) => eraseAll fuel this ks s1
      | .error e => .error e

/-- The objects, with their addresses and pairs in in-order, of the map built
from the empty map by inserting the pairs and then erasing the keys. -/
def objsAfter (fuel : Nat) (kvs : List (Key × Value)) (ks : List Key) :
    Except Stop (List (Nat × (Key × Value))) :=
  match insertAll fuel 0 kvs init with
  | .ok s =>
      match eraseAll fuel 0 ks s with
      | .ok s1 => .ok (OTree.objs (toOTree fuel s1 (some 0)))
      | .error e => .error e
  | .error e => .error e

/-- The member `empty()`: the flag `isEmpty_`. -/
def empty (this : Addr) : M Bool := do
  let o ← load this
  pure o.isEmpty

/-- The member `Iterator::operator==`: `cur_ == rhs.cur_`. -/
def Iterator.eq (it rhs : Iterator) : Bool :=
  decide (it.cur = rhs.cur)

/-- The member `cbegin()`:
`isEmpty_ ? Iterator(nullptr) : Iterator(getMinNode())`. -/
def cbegin_ (fuel : Nat) (this : Addr) : M Iterator := do
  let o ← load this
  if o.isEmpty then Iterator.ofPtr fuel none
  else do
    let m ← getMinNode fuel this
    Iterator.ofPtr fuel (some m)

/-- The member `cend()`: `return Iterator(nullptr, getMaxNode());`. -/
def cend_ (fuel : Nat) (this : Addr) : M Iterator := do
  let m ← getMaxNode fuel this
  pure { cur := none, max := some m }

/-- The member `findNextNode(key)`: `right_` when `pair_->first < key`, else
`left_`. -/
def findNextNode (this : Addr) (key : Key) : M (Option Addr) := do
  let o ← load this
  let k ← keyOf o
  if k < key then pure o.right else pure o.left

/-- The member `find(key)`; the pointer returned is converted by
`Iterator(Tree*)`. -/
def find : Nat → Addr → Key → M Iterator
  | 0, _, _ => throw .noFuel
  | fuel + 1, this, key => do
      let o ← load this
      if o.isEmpty then throw .outOfRange
      else do
        let k ← keyOf o
        if key = k then Iterator.ofPtr (fuel + 1) (some this)
        else do
          let next ← findNextNode this key
          match next with
          | some n => find fuel n key
          | none => throw .outOfRange

/-- The loop `while (it != end()) ++it;` on the map at `this`. -/
def advanceToEnd : Nat → Addr → Iterator → M Iterator
  | 0, _, _ => throw .noFuel
  | fuel + 1, this, it => do
      let last ← end_ (fuel + 1) this
      if it.eq last then pure it
      else do
        let it1 ← it.next (fuel + 1)
        advanceToEnd fuel this it1

/-- The member `swap(tree)`: `Tree temp = tree; temp = *this; *this = temp;`,
and the destructor of `temp` at the end of the block. -/
def swap (fuel : Nat) (this tree : Addr) : M Unit := do
  let temp ← copyNew fuel tree
  assign fuel temp this
  assign fuel this temp
  clear fuel temp
  free temp

/-- A store holding two default-constructed maps, at the addresses `0` and `1`. -/
def twoMaps : Store := [some emptyObj, some emptyObj]

/-- How a call of a member of `Iterator` ends: it returns a result, it throws
`std::out_of_range`, or its behaviour is not defined (`failed`).  With the
first two come the iterator and the store as the call leaves them. -/
inductive Ended (α : Type) where
  | returned (result : α) (it : Iterator) (s : Store) : Ended α
  | threw (it : Iterator) (s : Store) : Ended α
  | failed (e : Stop) : Ended α
  deriving DecidableEq, Repr

/-- The member `Iterator::operator++()` as a call on an iterator object: the
test `if (!cur_) throw` comes before anything is written. -/
def Iterator.increment (fuel : Nat) (it : Iterator) (s : Store) : Ended Unit :=
  match it.cur with
  | none => .threw it s
  | some _ =>
      match it.next fuel s with
      | .ok (it1, s1) => .returned () it1 s1
      | .error e => .failed e

/-- The member `Iterator::operator*()`: throws when `cur_` is null, else
`*cur_->pair_`. -/
def Iterator.star (it : Iterator) (s : Store) : Ended (Key × Value) :=
  match it.cur with
  | none => .threw it s
  | some c =>
      match load c s with
      | .ok (o, s1) =>
          (match o.pair with
            | some p => .returned p it s1
            | none => .failed .badAccess)
      | .error e => .failed e

/-- The member `Iterator::operator->()`: throws when `cur_` is null, else the
address of `*cur_->pair_`; the object holding the pair stands for that
address. -/
def Iterator.arrow (it : Iterator) (s : Store) : Ended Addr :=
  match it.cur with
  | none => .threw it s
  | some c =>
      match load c s with
      | .ok (o, s1) =>
          (match o.pair with
            | some _ => .returned c it s1
            | none => .failed .badAccess)
      | .error e => .failed e

/-- Two maps, at the addresses `0` and `1`, built from empty maps by inserting
the pairs of the first list into the first and the pairs of the second list
into the second. -/
def buildTwo (fuel : Nat) (kvsA kvsB : List (Key × Value)) : Except Stop Store :=
  match insertAll fuel 0 kvsA twoMaps with
  | .ok s => insertAll fuel 1 kvsB s
  | .error e => .error e

/-- The ordered key/value sequences of the maps at the addresses `0` and `1`. -/
def sequences (fuel : Nat) (s : Store) : List (Key × Value) × List (Key × Value) :=
  (Tree.toList (toTree fuel s (some 0)), Tree.toList (toTree fuel s (some 1)))

/-- The sequences of two maps `a` (at address `0`) and `b` (at address `1`)
before and after the call `a.swap(b)`. -/
def sequencesAroundSwap (fuel : Nat) (kvsA kvsB : List (Key × Value)) :
    Except Stop
      ((List (Key × Value) × List (Key × Value)) × (List (Key × Value) × List (Key × Value))) :=
  match buildTwo fuel kvsA kvsB with
  | .ok s =>
      match swap fuel 0 1 s with
      | .ok (_, s1) => .ok (sequences fuel s, sequences fuel s1)
      | .error e => .error e
  | .error e => .error e

/-- The store after inserting the keys 4, 2, 6, 1, 3 (each with ten times the key
as its value) into the empty map at address `0`; no rotation takes place. -/
def plain5 : Store :=
  [some { pair := some (4, 40), height := 3, isEmpty := false,
          left := some 2, right := some 3, parrent := none },
   none,
   some { pair := some (2, 20), height := 2, isEmpty := false,
          left := some 4, right := some 5, parrent := some 0 },
   some { pair := some (6, 60), height := 1, isEmpty := false,
          left := none, right := none, parrent := some 0 },
   some { pair := some (1, 10), height := 1, isEmpty := false,
          left := none, right := none, parrent := some 2 },
   some { pair := some (3, 30), height := 1, isEmpty := false,
          left := none, right := none, parrent := some 2 }]

/-! The predicates and auxiliary members used for the copy constructor and for
`operator=`. -/

/-- The child pointers of an object lie in the region `P`. -/
structure ChildrenIn (P : Addr → Prop) (o : Obj) : Prop where
  left : ∀ l, o.left = some l → P l
  right : ∀ r, o.right = some r → P r

/-- The region `P` holds every address not yet in use and is closed under the
child pointers of the objects alive in it. -/
def Good (P : Addr → Prop) (s : Store) : Prop :=
  (∀ i, s.length ≤ i → P i) ∧ ∀ i o, P i → s.get? i = some (some o) → ChildrenIn P o

/-- The computation `m` writes only inside the region `P`: when it returns, the
region is still good, no storage was given back, every object outside the
region is as it was, and the result satisfies `Q`. -/
def Local (P : Addr → Prop) {α : Type} (m : M α) (Q : α → Prop) : Prop :=
  ∀ s r s1, Good P s → m s = .ok (r, s1) →
    Good P s1 ∧ s.length ≤ s1.length ∧ (∀ i, ¬ P i → s1.get? i = s.get? i) ∧ Q r

/-- The object that the copy constructor and `operator=` start from: the pair,
the height and the flag of `rhs`, no children, no parent. -/
def baseOf (src : Obj) : Obj :=
  { pair := src.pair, height := src.height, isEmpty := src.isEmpty,
    left := none, right := none, parrent := none }

/-- The common end of the copy constructor and of `operator=`: each child of
`rhs` is copied by `new Tree(*child)` and hung below `this`, then
`updateParrentsLocally()`. -/
def linkCopies (fuel : Nat) (this : Addr) (src : Obj) : M Unit := do
  match src.left with
  | some l => do
      let c ← copyNew fuel l
      let o ← load this
      save this { o with left := some c }
  | none => pure ()
  match src.right with
  | some r => do
      let c ← copyNew fuel r
      let o ← load this
      save this { o with right := some c }
  | none => pure ()
  updateParrentsLocally this

/-- The region `R` is closed under the child pointers of the objects alive in
it. -/
def Closed (R : Addr → Prop) (s : Store) : Prop :=
  ∀ i o, R i → s.get? i = some (some o) → ChildrenIn R o

/-- An object without its parent link. -/
def unlink (o : Obj) : Obj :=
  { o with parrent := none }

/-- What is stored at an address, parent link left out. -/
def coreAt (s : Store) (i : Addr) : Option (Option Obj) :=
  (s.get? i).map (Option.map unlink)

/-- What a call `copyNew fuel rhs` that returns `c` guarantees, `s` being the
store before the call and `s1` the store after it: the copy is the first new
object, the old objects are as they were, the children of a new object are new
objects allocated after it, the ownership tree below the copy is that below
`rhs`, its parent links are consistent, and its root has the pair, the height
and the flag of `rhs` and no parent. -/
def CopyPost (fuel : Nat) (rhs : Addr) (s : Store) (c : Nat) (s1 : Store) : Prop :=
  c = s.length ∧ c < s1.length ∧
  (∀ i, i < s.length → s1.get? i = s.get? i) ∧
  (∀ i o, s.length ≤ i → s1.get? i = some (some o) →
    ChildrenIn (fun j => i < j ∧ j < s1.length) o) ∧
  (∀ n, toTree n s1 (some c) = toTree n s (some rhs)) ∧
  parentsConsistent fuel s1 c = true ∧
  ∃ o oc, s.get? rhs = some (some o) ∧ s1.get? c = some (some oc) ∧ oc.pair = o.pair ∧
    oc.height = o.height ∧ oc.isEmpty = o.isEmpty ∧ oc.parrent = none

/-- Copying one child and hanging the copy below `this`; `hang o c` is the
object `o` with the copy `c` as its left or as its right child. -/
def linkChild (fuel : Nat) (this : Addr) (child : Option Addr) (hang : Obj → Addr → Obj) :
    M Unit :=
  match child with
  | some l => do
      let c ← copyNew fuel l
      let o ← load this
      save this (hang o c)
  | none => pure ()

/-- One mutating call of the public interface on the map at `this`. -/
def applyOp (fuel : Nat) (this : Addr) : Op → M Unit
  | .insert key value => insert fuel this key value
  | .erase key => erase fuel this key

/-- A sequence of mutating calls on the map at `this`, from left to right. -/
def applyOps (fuel : Nat) (this : Addr) : List Op → M Unit
  | [] => pure ()
  | op :: ops => do
      applyOp fuel this op
      applyOps fuel this ops

/-- Whether a pointer is null or points into the region. -/
def pointsInto (region : List Addr) (p : Option Addr) : Bool :=
  match p with
  | none => true
  | some a => decide (a ∈ region)

/-- Whether a pointer is null or points to an address outside the region. -/
def pointsOutOf (region : List Addr) (p : Option Addr) : Bool :=
  match p with
  | none => true
  | some a => decide (a ∉ region)

/-- The region holds addresses of the store only, and no child pointer of an
object alive in the store leads from the region to the outside or from the
outside into the region. -/
def separated (region : List Addr) (s : Store) : Bool :=
  region.all (fun a => decide (a < s.length)) &&
    (List.range s.length).all (fun i =>
      match s.get? i with
      | some (some o) =>
          if i ∈ region then pointsInto region o.left && pointsInto region o.right
          else pointsOutOf region o.left && pointsOutOf region o.right
      | _ => true)

/-- The addresses of the objects below a pointer, the object it points to
included, when every pointer met on the way leads to an object alive in the
store and no path is longer than `fuel`; `none` otherwise. -/
def objsBelow : Nat → Store → Option Addr → Option (List Addr)
  | _, _, none => some []
  | 0, _, some _ => none
  | fuel + 1, s, some a =>
      match s.get? a with
      | some (some o) =>
          match objsBelow fuel s o.left, objsBelow fuel s o.right with
          | some ls, some rs => some (a :: (ls ++ rs))
          | _, _ => none
      | _ => none

/-- The statement `if (child) { delete child; child = nullptr; }` of `clear()`:
the destructor of the child, which is `clear()`, and the release of its
storage. -/
def clearChild (fuel : Nat) (child : Option Addr) : M Unit :=
  match child with
  | some l => do
      clear fuel l
      free l
  | none => pure ()

/-- A store holding a map with the keys 1 and 2 (the root object at address
`0`, its right child at address `1`) and an empty map at address `2`. -/
def twoAndEmpty : Store :=
  [some { pair := some (1, 10), height := 2, isEmpty := false,
          left := none, right := some 1, parrent := none },
   some { pair := some (2, 20), height := 1, isEmpty := false,
          left := none, right := none, parrent := some 0 },
   some emptyObj]

/-- The store `twoAndEmpty` after the copy constructor has run on the map at
address `0`: the copy is at address `3`, its right child at address `4`. -/
def twoAndCopy : Store :=
  [some { pair := some (1, 10), height := 2, isEmpty := false,
          left := none, right := some 1, parrent := none },
   some { pair := some (2, 20), height := 1, isEmpty := false,
          left := none, right := none, parrent := some 0 },
   some emptyObj,
   some { pair := some (1, 10), height := 2, isEmpty := false,
          left := none, right := some 4, parrent := none },
   some { pair := some (2, 20), height := 1, isEmpty := false,
          left := none, right := none, parrent := some 3 }]

/-- The store `twoAndEmpty` after the map at address `0` has been assigned to
the map at address `2`: the copy of the child is at address `3`. -/
def twoAndAssigned : Store :=
  [some { pair := some (1, 10), height := 2, isEmpty := false,
          left := none, right := some 1, parrent := none },
   some { pair := some (2, 20), height := 1, isEmpty := false,
          left := none, right := none, parrent := some 0 },
   some { pair := some (1, 10), height := 2, isEmpty := false,
          left := none, right := some 3, parrent := none },
   some { pair := some (2, 20), height := 1, isEmpty := false,
          left := none, right := none, parrent := some 2 }]

end Ptr

/-! ## Lemmas on the ownership tree -/

namespace Tree

theorem getHeight_null : getHeight null = 0 := rfl

theorem getHeight_node (l r : Tree) (k : Key) (v : Value) (h : Nat) :
    getHeight (node l k v h r) = h := rfl

theorem getDiff_node (l r : Tree) (k : Key) (v : Value) (h : Nat) :
    getDiff (node l k v h r) = (getHeight r : Int) - (getHeight l : Int) := rfl

theorem updateHeight_node (l r : Tree) (k : Key) (v : Value) (h : Nat) :
    updateHeight (node l k v h r) = node l k v (max (getHeight l) (getHeight r) + 1) r := rfl

theorem rotateRR_node (ll lr r : Tree) (lk k : Key) (lv v : Value) (lh h : Nat) :
    rotateRR (node (node ll lk lv lh lr) k v h r) =
      updateHeight (node ll lk lv h (updateHeight (node lr k v lh r))) := rfl

theorem rotateLL_node (l rl rr : Tree) (rk k : Key) (rv v : Value) (rh h : Nat) :
    rotateLL (node l k v h (node rl rk rv rh rr)) =
      updateHeight (node (updateHeight (node l k v rh rl)) rk rv h rr) := rfl

/-- The member `rebalanceSelf()` calls `rotateRR()` only when `getDiff() == -2`,
and then `left_` is not null. -/
theorem left_not_null_of_getDiff (l r : Tree) (k : Key) (v : Value) (h : Nat)
    (hd : getDiff (node l k v h r) = -2) : l.isNull = false := by
  cases l with
  | null => rw [getDiff_node, getHeight_null] at hd; omega
  | node ll lk lv lh lr => rfl

/-- The member `rebalanceSelf()` calls `rotateLL()` only when `getDiff() == 2`,
and then `right_` is not null. -/
theorem right_not_null_of_getDiff (l r : Tree) (k : Key) (v : Value) (h : Nat)
    (hd : getDiff (node l k v h r) = 2) : r.isNull = false := by
  cases r with
  | null => rw [getDiff_node, getHeight_null] at hd; omega
  | node rl rk rv rh rr => rfl

/-- The search of `contains` goes on in `findNextNode(key)`. -/
theorem contains_node (l r : Tree) (k key : Key) (v : Value) (h : Nat) :
    contains (node l k v h r) key =
      if key = k then true else contains (findNextNode key (node l k v h r)) key := by
  simp only [contains, findNextNode]
  split_ifs <;> rfl

theorem AVL_null : AVL null := ⟨trivial, trivial⟩

theorem AVL_node (l r : Tree) (k : Key) (v : Value) (h : Nat) :
    AVL (node l k v h r) ↔
      AVL l ∧ AVL r ∧ h = max (getHeight l) (getHeight r) + 1 ∧
        getHeight l ≤ getHeight r + 1 ∧ getHeight r ≤ getHeight l + 1 := by
  simp only [AVL, HeightsOk, Balanced]
  tauto

theorem updateHeight_of_AVL {t : Tree} (h : AVL t) : updateHeight t = t := by
  cases t with
  | null => rfl
  | node l k v ht r =>
    rw [AVL_node] at h
    rw [updateHeight_node, ← h.2.2.1]

theorem rebalanceSelf_of_AVL {t : Tree} (h : AVL t) : rebalanceSelf t = t := by
  induction t with
  | null => rfl
  | node l k v ht r ihl ihr =>
    rw [AVL_node] at h
    obtain ⟨hl, hr, -, h1, h2⟩ := h
    simp only [rebalanceSelf, ihl hl, ihr hr, getDiff_node]
    have e1 : ¬ ((getHeight r : Int) - (getHeight l : Int) = -2) := by omega
    have e2 : ¬ ((getHeight r : Int) - (getHeight l : Int) = 2) := by omega
    simp [e1, e2]

/-- Rebalancing an object whose two subtrees are AVL and whose stored child
heights differ by at most two gives an AVL tree, of height `max + 1` or, after
a rotation, possibly `max`. -/
theorem rebalance_node (l r : Tree) (k : Key) (v : Value) (h : Nat)
    (hl : AVL l) (hr : AVL r)
    (h1 : getHeight l ≤ getHeight r + 2) (h2 : getHeight r ≤ getHeight l + 2) :
    AVL (rebalanceSelf (updateHeight (node l k v h r))) ∧
      max (getHeight l) (getHeight r) ≤
        getHeight (rebalanceSelf (updateHeight (node l k v h r))) ∧
      getHeight (rebalanceSelf (updateHeight (node l k v h r))) ≤
        max (getHeight l) (getHeight r) + 1 ∧
      (getHeight l ≤ getHeight r + 1 → getHeight r ≤ getHeight l + 1 →
        getHeight (rebalanceSelf (updateHeight (node l k v h r))) =
          max (getHeight l) (getHeight r) + 1) := by
  simp only [updateHeight_node, rebalanceSelf, rebalanceSelf_of_AVL hl, rebalanceSelf_of_AVL hr,
    getDiff_node]
  by_cases c1 : (getHeight r : Int) - (getHeight l : Int) = -2
  · rw [if_pos c1]
    cases l with
    | null => rw [getHeight_null] at c1; omega
    | node ll lk lv lh lr =>
      rw [AVL_node] at hl
      obtain ⟨a1, a2, a7, a8, a9⟩ := hl
      rw [getHeight_node] at c1 h1 h2 ⊢
      rw [getDiff_node]
      by_cases c2 : (getHeight lr : Int) - (getHeight ll : Int) = 1
      · rw [if_pos c2]
        cases lr with
        | null => rw [getHeight_null] at c2; omega
        | node lrl lrk lrv lrh lrr =>
          rw [AVL_node] at a2
          obtain ⟨a3, a4, b1, b2, b3⟩ := a2
          rw [getHeight_node] at c2 a7 a8 a9
          simp only [rotateLL_node, rotateRR_node, updateHeight_node, AVL_node, getHeight_node]
          refine ⟨⟨⟨a1, a3, ?_, ?_, ?_⟩, ⟨a4, hr, ?_, ?_, ?_⟩, ?_, ?_, ?_⟩, ?_, ?_, ?_⟩ <;>
            first | trivial | omega
      · rw [if_neg c2]
        simp only [rotateRR_node, updateHeight_node, AVL_node, getHeight_node]
        refine ⟨⟨a1, ⟨a2, hr, ?_, ?_, ?_⟩, ?_, ?_, ?_⟩, ?_, ?_, ?_⟩ <;>
          first | trivial | omega
  · rw [if_neg c1]
    by_cases c3 : (getHeight r : Int) - (getHeight l : Int) = 2
    · rw [if_pos c3]
      cases r with
      | null => rw [getHeight_null] at c3; omega
      | node rl rk rv rh rr =>
        rw [AVL_node] at hr
        obtain ⟨a1, a2, a7, a8, a9⟩ := hr
        rw [getHeight_node] at c3 h1 h2 ⊢
        rw [getDiff_node]
        by_cases c4 : (getHeight rr : Int) - (getHeight rl : Int) = -1
        · rw [if_pos c4]
          cases rl with
          | null => rw [getHeight_null] at c4; omega
          | node rll rlk rlv rlh rlr =>
            rw [AVL_node] at a1
            obtain ⟨a3, a4, b1, b2, b3⟩ := a1
            rw [getHeight_node] at c4 a7 a8 a9
            simp only [rotateLL_node, rotateRR_node, updateHeight_node, AVL_node, getHeight_node]
            refine ⟨⟨⟨hl, a3, ?_, ?_, ?_⟩, ⟨a4, a2, ?_, ?_, ?_⟩, ?_, ?_, ?_⟩, ?_, ?_, ?_⟩ <;>
              first | trivial | omega
        · rw [if_neg c4]
          simp only [rotateLL_node, updateHeight_node, AVL_node, getHeight_node]
          refine ⟨⟨⟨hl, a1, ?_, ?_, ?_⟩, a2, ?_, ?_, ?_⟩, ?_, ?_, ?_⟩ <;>
            first | trivial | omega
    · rw [if_neg c3]
      simp only [AVL_node, getHeight_node]
      refine ⟨⟨hl, hr, trivial, ?_, ?_⟩, ?_, ?_, fun _ _ => trivial⟩ <;> omega

theorem rawInsert_AVL (key : Key) (value : Value) (t : Tree) (ht : AVL t) :
    AVL (rawInsert key value t) ∧
      getHeight t ≤ getHeight (rawInsert key value t) ∧
      getHeight (rawInsert key value t) ≤ getHeight t + 1 := by
  induction t with
  | null =>
    simp only [rawInsert, mk, AVL_node, getHeight_node, getHeight_null]
    exact ⟨⟨AVL_null, AVL_null, rfl, by omega, by omega⟩, by omega, by omega⟩
  | node l k v h r ihl ihr =>
    rw [AVL_node] at ht
    obtain ⟨hl, hr, e, b1, b2⟩ := ht
    rw [getHeight_node]
    simp only [rawInsert]
    split_ifs with c
    · obtain ⟨i1, i2, i3⟩ := ihl hl
      obtain ⟨q1, q2, q3, q4⟩ :=
        rebalance_node (rawInsert key value l) r k v h i1 hr (by omega) (by omega)
      refine ⟨q1, ?_, ?_⟩ <;> omega
    · obtain ⟨i1, i2, i3⟩ := ihr hr
      obtain ⟨q1, q2, q3, q4⟩ :=
        rebalance_node l (rawInsert key value r) k v h hl i1 (by omega) (by omega)
      refine ⟨q1, ?_, ?_⟩ <;> omega

theorem insert_AVL (key : Key) (value : Value) (t : Tree) (ht : AVL t) :
    AVL (insert key value t) := by
  have h := (rawInsert_AVL key value t ht).1
  rw [insert, updateHeight_of_AVL h]
  exact h

theorem replacePair_AVL (p : Key × Value) (t : Tree) (ht : AVL t) :
    AVL (replacePair p t) ∧ getHeight (replacePair p t) = getHeight t := by
  cases t with
  | null => exact ⟨AVL_null, rfl⟩
  | node l k v h r =>
    rw [AVL_node] at ht
    simp only [replacePair, AVL_node, getHeight_node]
    exact ⟨ht, trivial⟩

theorem rawDelete_AVL (fuel : Nat) : ∀ (key : Key) (t t1 : Tree), AVL t →
    rawDelete fuel key t = some t1 →
      AVL t1 ∧ getHeight t1 ≤ getHeight t ∧ getHeight t ≤ getHeight t1 + 1 := by
  induction fuel with
  | zero => intro key t t1 _ h; simp [rawDelete] at h
  | succ fuel ih =>
    intro key t t1 ht h
    cases t with
    | null =>
      simp only [rawDelete, Option.some.injEq] at h
      subst h
      exact ⟨AVL_null, le_refl _, by omega⟩
    | node l k v hh r =>
      have ht0 := ht
      rw [AVL_node] at ht
      obtain ⟨hl, hr, e, b1, b2⟩ := ht
      simp only [rawDelete, Option.map_eq_some'] at h
      obtain ⟨t2, h2, rfl⟩ := h
      rw [getHeight_node]
      split_ifs at h2 with c1 c2 c3
      · -- the key is here
        cases l with
        | null =>
          cases r with
          | null =>
            simp only [rawDeleteSelf, Option.some.injEq] at h2
            subst h2
            rw [getHeight_null] at e
            exact ⟨AVL_null, by simp [updateHeight, rebalanceSelf, getHeight_null],
              by simp [updateHeight, rebalanceSelf, getHeight_null]; omega⟩
          | node rl rk rv rh rr =>
            simp only [rawDeleteSelf, Option.some.injEq] at h2
            subst h2
            rw [updateHeight_of_AVL hr, rebalanceSelf_of_AVL hr]
            rw [getHeight_null] at e b1 b2
            exact ⟨hr, by omega, by omega⟩
        | node ll lk lv lh lr =>
          cases r with
          | null =>
            simp only [rawDeleteSelf, Option.some.injEq] at h2
            subst h2
            rw [updateHeight_of_AVL hl, rebalanceSelf_of_AVL hl]
            rw [getHeight_null] at e b1 b2
            exact ⟨hl, by omega, by omega⟩
          | node rl rk rv rh rr =>
            simp only [rawDeleteSelf] at h2
            split at h2
            · exact absurd h2 (by simp)
            · rename_i p _
              rw [Option.map_eq_some'] at h2
              obtain ⟨t3, h3, rfl⟩ := h2
              obtain ⟨i1, i2, i3⟩ := ih _ _ _ ht0 h3
              obtain ⟨j1, j2⟩ := replacePair_AVL p t3 i1
              rw [updateHeight_of_AVL j1, rebalanceSelf_of_AVL j1, j2]
              rw [getHeight_node] at i2 i3
              exact ⟨j1, i2, i3⟩
      · rw [Option.map_eq_some'] at h2
        obtain ⟨l1, h3, rfl⟩ := h2
        obtain ⟨i1, i2, i3⟩ := ih _ _ _ hl h3
        obtain ⟨q1, q2, q3, q4⟩ := rebalance_node l1 r k v hh i1 hr (by omega) (by omega)
        refine ⟨q1, ?_, ?_⟩ <;> omega
      · rw [Option.map_eq_some'] at h2
        obtain ⟨r1, h3, rfl⟩ := h2
        obtain ⟨i1, i2, i3⟩ := ih _ _ _ hr h3
        obtain ⟨q1, q2, q3, q4⟩ := rebalance_node l r1 k v hh hl i1 (by omega) (by omega)
        refine ⟨q1, ?_, ?_⟩ <;> omega
      · simp only [Option.some.injEq] at h2
        subst h2
        rw [updateHeight_of_AVL ht0, rebalanceSelf_of_AVL ht0, getHeight_node]
        exact ⟨ht0, le_refl _, by omega⟩

theorem erase_AVL (fuel : Nat) (key : Key) (t t1 : Tree) (ht : AVL t)
    (h : erase fuel key t = some t1) : AVL t1 := by
  simp only [erase, Option.map_eq_some'] at h
  obtain ⟨t2, h2, rfl⟩ := h
  have h3 := (rawDelete_AVL fuel key t t2 ht h2).1
  rw [updateHeight_of_AVL h3]
  exact h3

theorem runOps_AVL (fuel : Nat) (ops : List Op) : ∀ (t t1 : Tree), AVL t →
    runOps fuel ops t = some t1 → AVL t1 := by
  induction ops with
  | nil =>
    intro t t1 ht h
    simp only [runOps, Option.some.injEq] at h
    exact h ▸ ht
  | cons op ops ih =>
    intro t t1 ht h
    simp only [runOps] at h
    split at h
    · exact absurd h (by simp)
    · rename_i t2 h2
      refine ih t2 t1 ?_ h
      cases op with
      | insert key value =>
        simp only [Op.apply, Option.some.injEq] at h2
        exact h2 ▸ insert_AVL key value t ht
      | erase key =>
        exact erase_AVL fuel key t t2 ht h2

theorem toList_node (l r : Tree) (k : Key) (v : Value) (h : Nat) :
    toList (node l k v h r) = toList l ++ (k, v) :: toList r := rfl

theorem toList_updateHeight (t : Tree) : toList (updateHeight t) = toList t := by
  cases t <;> rfl

theorem toList_rotateRR (t : Tree) : toList (rotateRR t) = toList t := by
  cases t with
  | null => rfl
  | node l k v h r =>
    cases l with
    | null => rfl
    | node ll lk lv lh lr =>
      simp only [rotateRR_node, toList_updateHeight, toList_node, updateHeight_node,
        List.append_assoc, List.cons_append]

theorem toList_rotateLL (t : Tree) : toList (rotateLL t) = toList t := by
  cases t with
  | null => rfl
  | node l k v h r =>
    cases r with
    | null => rfl
    | node rl rk rv rh rr =>
      simp only [rotateLL_node, toList_updateHeight, toList_node, updateHeight_node,
        List.append_assoc, List.cons_append]

theorem toList_rebalanceSelf (t : Tree) : toList (rebalanceSelf t) = toList t := by
  induction t with
  | null => rfl
  | node l k v h r ihl ihr =>
    simp only [rebalanceSelf]
    split_ifs <;>
      simp only [toList_rotateRR, toList_rotateLL, toList_node, ihl, ihr]

theorem Ordered_node (l r : Tree) (k : Key) (v : Value) (h : Nat) :
    Ordered (node l k v h r) ↔
      Ordered l ∧ Ordered r ∧ (∀ p ∈ toList l, p.1 < k) ∧ (∀ p ∈ toList r, k < p.1) := by
  simp only [Ordered, toList_node, List.pairwise_append, List.pairwise_cons, List.mem_cons]
  constructor
  · rintro ⟨h1, ⟨h2, h3⟩, h4⟩
    exact ⟨h1, h3, fun p hp => h4 p hp (k, v) (Or.inl rfl), h2⟩
  · rintro ⟨h1, h2, h3, h4⟩
    refine ⟨h1, ⟨h4, h2⟩, ?_⟩
    rintro a ha b (rfl | hb)
    · exact h3 a ha
    · exact lt_trans (h3 a ha) (h4 b hb)

theorem perm_rawInsert (key : Key) (value : Value) (t : Tree) :
    (toList (rawInsert key value t)).Perm ((key, value) :: toList t) := by
  induction t with
  | null => exact List.Perm.refl _
  | node l k v h r ihl ihr =>
    simp only [rawInsert]
    split_ifs with c
    · rw [toList_rebalanceSelf, toList_updateHeight, toList_node, toList_node]
      exact (ihl.append_right _).trans (List.Perm.refl _)
    · rw [toList_rebalanceSelf, toList_updateHeight, toList_node, toList_node]
      have h1 : (toList l ++ (k, v) :: toList (rawInsert key value r)).Perm
          (toList l ++ (key, value) :: (k, v) :: toList r) :=
        List.Perm.append_left _ ((List.Perm.cons _ ihr).trans (List.Perm.swap _ _ _))
      exact h1.trans List.perm_middle

theorem mem_rawInsert (key : Key) (value : Value) (t : Tree) (p : Key × Value) :
    p ∈ toList (rawInsert key value t) ↔ p = (key, value) ∨ p ∈ toList t := by
  rw [(perm_rawInsert key value t).mem_iff, List.mem_cons]

theorem rawInsert_Ordered (key : Key) (value : Value) (t : Tree) (ht : Ordered t)
    (hk : ∀ p ∈ toList t, p.1 ≠ key) : Ordered (rawInsert key value t) := by
  induction t with
  | null => simp [rawInsert, mk, Ordered, toList]
  | node l k v h r ihl ihr =>
    rw [Ordered_node] at ht
    obtain ⟨ol, or, hl, hr⟩ := ht
    have hkl : ∀ p ∈ toList l, p.1 ≠ key := fun p hp => hk p (by simp [toList_node, hp])
    have hkr : ∀ p ∈ toList r, p.1 ≠ key := fun p hp => hk p (by simp [toList_node, hp])
    have hkk : k ≠ key := hk (k, v) (by simp [toList_node])
    simp only [rawInsert]
    split_ifs with c
    · unfold Ordered
      rw [toList_rebalanceSelf, toList_updateHeight]
      rw [← Ordered.eq_1, Ordered_node]
      refine ⟨ihl ol hkl, or, ?_, hr⟩
      intro p hp
      rw [mem_rawInsert] at hp
      rcases hp with rfl | hp
      · exact c
      · exact hl p hp
    · unfold Ordered
      rw [toList_rebalanceSelf, toList_updateHeight]
      rw [← Ordered.eq_1, Ordered_node]
      refine ⟨ol, ihr or hkr, hl, ?_⟩
      intro p hp
      rw [mem_rawInsert] at hp
      rcases hp with rfl | hp
      · exact lt_of_le_of_ne (not_lt.mp c) hkk
      · exact hr p hp

theorem toList_insert (key : Key) (value : Value) (t : Tree) :
    toList (insert key value t) = toList (rawInsert key value t) := by
  rw [insert, toList_updateHeight]

theorem insertAll_append_singleton (t : Tree) (kvs : List (Key × Value)) (p : Key × Value) :
    insertAll t (kvs ++ [p]) = insert p.1 p.2 (insertAll t kvs) := by
  simp [insertAll, List.foldl_append]

/-- Inserting pairs with pairwise distinct keys into the empty tree gives a tree
whose in-order sequence is sorted strictly by key and holds exactly the
inserted pairs. -/
theorem insertAll_spec (kvs : List (Key × Value)) (hd : (kvs.map Prod.fst).Nodup) :
    Ordered (insertAll null kvs) ∧ (toList (insertAll null kvs)).Perm kvs := by
  induction kvs using List.reverseRecOn with
  | nil => exact ⟨List.Pairwise.nil, List.Perm.refl _⟩
  | append_singleton kvs p ih =>
    rw [List.map_append, List.nodup_append] at hd
    obtain ⟨hd1, -, hd3⟩ := hd
    obtain ⟨io, ip⟩ := ih hd1
    rw [insertAll_append_singleton]
    constructor
    · unfold Ordered
      rw [toList_insert]
      refine rawInsert_Ordered p.1 p.2 _ io ?_
      intro q hq hqk
      have hq1 : q ∈ kvs := ip.mem_iff.mp hq
      exact hd3 (List.mem_map_of_mem Prod.fst hq1) (by simp [hqk])
    · rw [toList_insert]
      refine (perm_rawInsert p.1 p.2 _).trans ?_
      exact (List.Perm.cons _ ip).trans (List.perm_append_singleton p kvs).symm

theorem contains_iff (t : Tree) (ht : Ordered t) (key : Key) :
    contains t key = true ↔ key ∈ keys t := by
  induction t with
  | null => simp [contains, keys, toList]
  | node l k v h r ihl ihr =>
    rw [Ordered_node] at ht
    obtain ⟨ol, or, hl, hr⟩ := ht
    have el := ihl ol
    have er := ihr or
    simp only [keys, List.mem_map, Prod.exists, exists_and_right, exists_eq_right] at el er ⊢
    simp only [contains, toList_node, List.mem_append, List.mem_cons, Prod.mk.injEq]
    split_ifs with c1 c2
    · simp only [true_iff]
      exact ⟨v, Or.inr (Or.inl ⟨c1, rfl⟩)⟩
    · rw [er]
      constructor
      · rintro ⟨x, hx⟩
        exact ⟨x, Or.inr (Or.inr hx)⟩
      · rintro ⟨x, hx | ⟨hx, -⟩ | hx⟩
        · exact absurd (lt_trans (hl _ hx) c2) (lt_irrefl _)
        · exact absurd hx c1
        · exact ⟨x, hx⟩
    · rw [el]
      constructor
      · rintro ⟨x, hx⟩
        exact ⟨x, Or.inl hx⟩
      · rintro ⟨x, hx | ⟨hx, -⟩ | hx⟩
        · exact ⟨x, hx⟩
        · exact absurd hx c1
        · exact absurd (hr _ hx) c2

theorem at_node (l r : Tree) (k key : Key) (v : Value) (h : Nat) :
    at_ (node l k v h r) key =
      if key = k then .ok v
      else if k < key then (if r.isNull then .error .outOfRange else at_ r key)
      else (if l.isNull then .error .outOfRange else at_ l key) := by
  cases l <;> cases r <;> simp [at_, isNull]

theorem at_of_mem (t : Tree) (ht : Ordered t) (key : Key) (value : Value)
    (hm : (key, value) ∈ toList t) : at_ t key = .ok value := by
  induction t with
  | null => exact absurd hm (List.not_mem_nil _)
  | node l k v h r ihl ihr =>
    rw [Ordered_node] at ht
    obtain ⟨ol, or, hl, hr⟩ := ht
    rw [toList_node, List.mem_append, List.mem_cons, Prod.mk.injEq] at hm
    rw [at_node]
    by_cases c1 : key = k
    · rw [if_pos c1]
      rcases hm with hm | ⟨-, hm⟩ | hm
      · exact absurd (hl _ hm) (by rw [c1]; exact lt_irrefl _)
      · rw [hm]
      · exact absurd (hr _ hm) (by rw [c1]; exact lt_irrefl _)
    · rw [if_neg c1]
      by_cases c2 : k < key
      · rw [if_pos c2]
        rcases hm with hm | ⟨hm, -⟩ | hm
        · exact absurd (lt_trans (hl _ hm) c2) (lt_irrefl _)
        · exact absurd hm c1
        · cases r with
          | null => exact absurd hm (List.not_mem_nil _)
          | node rl rk rv rh rr => exact ihr or hm
      · rw [if_neg c2]
        rcases hm with hm | ⟨hm, -⟩ | hm
        · cases l with
          | null => exact absurd hm (List.not_mem_nil _)
          | node ll lk lv lh lr => exact ihl ol hm
        · exact absurd hm c1
        · exact absurd (hr _ hm) c2


theorem render_append (xs ys : List Int) : render (xs ++ ys) = render xs ++ render ys := by
  induction xs with
  | nil => rfl
  | cons x xs ih => simp [render, ih]

theorem printKeys_eq (t : Tree) : printKeys t = render ((toList t).map Prod.fst) := by
  induction t with
  | null => rfl
  | node l k v h r ihl ihr =>
    simp [printKeys, toList_node, render_append, render, ihl, ihr]

theorem printValues_eq (t : Tree) : printValues t = render ((toList t).map Prod.snd) := by
  induction t with
  | null => rfl
  | node l k v h r ihl ihr =>
    simp [printValues, toList_node, render_append, render, ihl, ihr]

theorem toList_insertAll (kvs : List (Key × Value)) (hd : (kvs.map Prod.fst).Nodup) :
    toList (insertAll null kvs) = kvs.insertionSort keyLE := by
  obtain ⟨io, ip⟩ := insertAll_spec kvs hd
  haveI : IsAntisymm (Key × Value) (fun a b => a.1 < b.1) :=
    ⟨fun a b h1 h2 => absurd (lt_trans h1 h2) (lt_irrefl _)⟩
  haveI : IsTotal (Key × Value) keyLE := ⟨fun a b => le_total a.1 b.1⟩
  haveI : IsTrans (Key × Value) keyLE := ⟨fun a b c h1 h2 => le_trans h1 h2⟩
  refine List.eq_of_perm_of_sorted (ip.trans (List.perm_insertionSort keyLE kvs).symm) io ?_
  have h1 : (kvs.insertionSort keyLE).Pairwise keyLE := List.sorted_insertionSort keyLE kvs
  have h2 : ((kvs.insertionSort keyLE).map Prod.fst).Nodup :=
    (((List.perm_insertionSort keyLE kvs).map Prod.fst).nodup_iff).mpr hd
  have h3 : (kvs.insertionSort keyLE).Pairwise (fun a b => a.1 ≠ b.1) :=
    List.pairwise_map.mp h2
  exact (h1.and h3).imp (fun h => lt_of_le_of_ne h.1 h.2)


theorem getHeight_eq_depth {t : Tree} (h : HeightsOk t) : getHeight t = depth t := by
  induction t with
  | null => rfl
  | node l k v ht r ihl ihr =>
    obtain ⟨e, hl, hr⟩ := h
    rw [getHeight_node, depth, e, ihl hl, ihr hr]

theorem Balanced_depth_of_AVL {t : Tree} (h : AVL t) : Balanced depth t := by
  induction t with
  | null => trivial
  | node l k v ht r ihl ihr =>
    obtain ⟨⟨-, hl, hr⟩, b1, b2, bl, br⟩ := h
    rw [getHeight_eq_depth hl, getHeight_eq_depth hr] at b1 b2
    exact ⟨b1, b2, ihl ⟨hl, bl⟩, ihr ⟨hr, br⟩⟩

theorem find_node (l r : Tree) (k key : Key) (v : Value) (h : Nat) :
    find (node l k v h r) key =
      if key = k then .ok (node l k v h r)
      else if k < key then (if r.isNull then .error .outOfRange else find r key)
      else (if l.isNull then .error .outOfRange else find l key) := by
  cases l <;> cases r <;> simp [find, isNull]

/-- On a non-empty object `at` throws exactly when `contains` is false. -/
theorem at_error_iff (t : Tree) (key : Key) (ht : t.isNull = false) :
    at_ t key = .error .outOfRange ↔ contains t key = false := by
  induction t with
  | null => simp [isNull] at ht
  | node l k v h r ihl ihr =>
    rw [at_node, contains]
    by_cases c1 : key = k
    · simp [c1]
    · simp only [if_neg c1]
      by_cases c2 : k < key
      · simp only [if_pos c2]
        cases r with
        | null => simp [isNull, contains]
        | node rl rk rv rh rr => simpa [isNull] using ihr rfl
      · simp only [if_neg c2]
        cases l with
        | null => simp [isNull, contains]
        | node ll lk lv lh lr => simpa [isNull] using ihl rfl

/-- On every object `find` throws exactly when `contains` is false. -/
theorem find_error_iff (t : Tree) (key : Key) :
    find t key = .error .outOfRange ↔ contains t key = false := by
  induction t with
  | null => simp [find, contains]
  | node l k v h r ihl ihr =>
    rw [find_node, contains]
    by_cases c1 : key = k
    · simp [c1]
    · simp only [if_neg c1]
      by_cases c2 : k < key
      · simp only [if_pos c2]
        cases r with
        | null => simp [isNull, contains]
        | node rl rk rv rh rr => simpa [isNull] using ihr
      · simp only [if_neg c2]
        cases l with
        | null => simp [isNull, contains]
        | node ll lk lv lh lr => simpa [isNull] using ihl

/-- When `contains` is true, `find` stops at an object with the key searched,
and `at` returns the value of that object. -/
theorem find_of_contains (t : Tree) (key : Key) (hc : contains t key = true) :
    ∃ l v h r, find t key = .ok (node l key v h r) ∧ at_ t key = .ok v := by
  induction t with
  | null => simp [contains] at hc
  | node l k v h r ihl ihr =>
    rw [find_node, at_node]
    rw [contains] at hc
    by_cases c1 : key = k
    · subst c1
      exact ⟨l, v, h, r, by simp, by simp⟩
    · simp only [if_neg c1] at hc ⊢
      by_cases c2 : k < key
      · simp only [if_pos c2] at hc ⊢
        cases r with
        | null => simp [contains] at hc
        | node rl rk rv rh rr => simpa [isNull] using ihr hc
      · simp only [if_neg c2] at hc ⊢
        cases l with
        | null => simp [contains] at hc
        | node ll lk lv lh lr => simpa [isNull] using ihl hc

theorem size_node (l r : Tree) (k : Key) (v : Value) (h : Nat) :
    size (node l k v h r) =
      (if l.isNull then 0 else size l) + (if r.isNull then 0 else size r) + 1 := by
  cases l <;> cases r <;> simp [size, isNull]

theorem size_or_zero_eq_length (t : Tree) :
    (if t.isNull then 0 else size t) = (toList t).length := by
  induction t with
  | null => simp [isNull, toList]
  | node l k v h r ihl ihr =>
    rw [size_node, ihl, ihr, toList_node, List.length_append, List.length_cons]
    simp only [isNull, Bool.false_eq_true, if_false]
    omega

theorem size_eq_length (t : Tree) (ht : t.isNull = false) : size t = (toList t).length := by
  rw [← size_or_zero_eq_length, ht]
  simp

theorem size_pos (t : Tree) : 0 < size t := by
  cases t with
  | null => decide
  | node l k v h r => rw [size_node]; omega

theorem insertAll_AVL (kvs : List (Key × Value)) : AVL (insertAll null kvs) := by
  induction kvs using List.reverseRecOn with
  | nil => exact AVL_null
  | append_singleton kvs p ih =>
    rw [insertAll_append_singleton]
    exact insert_AVL _ _ _ ih

theorem perm_insertAll (kvs : List (Key × Value)) :
    (toList (insertAll null kvs)).Perm kvs := by
  induction kvs using List.reverseRecOn with
  | nil => exact List.Perm.refl _
  | append_singleton kvs p ih =>
    rw [insertAll_append_singleton, toList_insert]
    refine (perm_rawInsert p.1 p.2 _).trans ?_
    exact (List.Perm.cons _ ih).trans (List.perm_append_singleton p kvs).symm

theorem rawInsert_not_null (key : Key) (value : Value) (t : Tree) :
    (rawInsert key value t).isNull = false := by
  cases ht : rawInsert key value t with
  | null =>
    have := (perm_rawInsert key value t).length_eq
    rw [ht] at this
    simp [toList] at this
  | node l k v h r => rfl

theorem isNull_updateHeight (t : Tree) : (updateHeight t).isNull = t.isNull := by
  cases t <;> rfl

theorem insertAll_not_null (kvs : List (Key × Value)) (hn : 0 < kvs.length) :
    (insertAll null kvs).isNull = false := by
  cases ht : insertAll null kvs with
  | null =>
    have := (perm_insertAll kvs).length_eq
    rw [ht] at this
    simp [toList] at this
    omega
  | node l k v h r => rfl

/-- An AVL tree of stored height `h` has at least `fib (h + 2) - 1` objects. -/
theorem fib_le_length (t : Tree) (ht : AVL t) :
    Nat.fib (getHeight t + 2) ≤ (toList t).length + 1 := by
  induction t with
  | null => simp [getHeight, toList]
  | node l k v h r ihl ihr =>
    rw [AVL_node] at ht
    obtain ⟨hl, hr, e, b1, b2⟩ := ht
    have i1 := ihl hl
    have i2 := ihr hr
    rw [getHeight_node, toList_node, List.length_append, List.length_cons, e]
    rcases Nat.le_total (getHeight l) (getHeight r) with c | c
    · have e1 : max (getHeight l) (getHeight r) + 1 + 2 = (getHeight r + 1) + 2 := by
        rw [max_eq_right c]
      rw [e1, Nat.fib_add_two]
      have m : Nat.fib (getHeight r + 1) ≤ Nat.fib (getHeight l + 2) :=
        Nat.fib_mono (by omega)
      have e2 : getHeight r + 1 + 1 = getHeight r + 2 := rfl
      rw [e2]
      omega
    · have e1 : max (getHeight l) (getHeight r) + 1 + 2 = (getHeight l + 1) + 2 := by
        rw [max_eq_left c]
      rw [e1, Nat.fib_add_two]
      have m : Nat.fib (getHeight l + 1) ≤ Nat.fib (getHeight r + 2) :=
        Nat.fib_mono (by omega)
      have e2 : getHeight l + 1 + 1 = getHeight l + 2 := rfl
      rw [e2]
      omega

theorem two_pow_le_fib_sq : ∀ h : Nat, 2 ^ h ≤ Nat.fib (h + 2) ^ 2
  | 0 => by simp
  | 1 => by decide
  | h + 2 => by
    have ih := two_pow_le_fib_sq h
    have e : Nat.fib (h + 2 + 2) = Nat.fib (h + 2) + Nat.fib (h + 3) := Nat.fib_add_two
    have m : Nat.fib (h + 2) ≤ Nat.fib (h + 3) := Nat.fib_mono (by omega)
    have g : 2 * Nat.fib (h + 2) ≤ Nat.fib (h + 2 + 2) := by omega
    calc 2 ^ (h + 2) = 4 * 2 ^ h := by ring
      _ ≤ 4 * Nat.fib (h + 2) ^ 2 := by omega
      _ = (2 * Nat.fib (h + 2)) ^ 2 := by ring
      _ ≤ Nat.fib (h + 2 + 2) ^ 2 := Nat.pow_le_pow_left g 2

theorem Ordered_iff_BSTOrder (t : Tree) : Ordered t ↔ BSTOrder t := by
  induction t with
  | null => simp [Ordered, BSTOrder, toList]
  | node l k v h r ihl ihr =>
    rw [Ordered_node, BSTOrder, ihl, ihr]
    tauto

theorem index_of_contains (t : Tree) (key : Key) (hc : contains t key = true) :
    ∃ v, at_ t key = .ok v ∧ index key t = .ok (v, t) := by
  obtain ⟨l, v, h, r, hf, ha⟩ := find_of_contains t key hc
  exact ⟨v, ha, by simp [index, hf, pair?]⟩

theorem index_of_not_contains (t : Tree) (key : Key) (ht : Ordered t)
    (hc : contains t key = false) :
    index key t = .ok (0, insert key 0 t) ∧ contains (insert key 0 t) key = true ∧
      at_ (insert key 0 t) key = .ok 0 ∧
      ∀ k1 v1, (k1, v1) ∈ toList t → at_ (insert key 0 t) k1 = .ok v1 := by
  have hk : ∀ p ∈ toList t, p.1 ≠ key := by
    intro p hp e
    have : key ∈ keys t := by
      rw [keys, ← e]
      exact List.mem_map_of_mem Prod.fst hp
    rw [← contains_iff t ht, hc] at this
    exact absurd this (by simp)
  have ho : Ordered (insert key 0 t) := by
    unfold Ordered
    rw [toList_insert]
    exact rawInsert_Ordered key 0 t ht hk
  have hm : ∀ p, p ∈ toList (insert key 0 t) ↔ p = (key, 0) ∨ p ∈ toList t := by
    intro p
    rw [toList_insert]
    exact mem_rawInsert key 0 t p
  have ha : at_ (insert key 0 t) key = .ok 0 :=
    at_of_mem _ ho key 0 ((hm _).mpr (Or.inl rfl))
  have hc1 : contains (insert key 0 t) key = true := by
    rw [contains_iff _ ho, keys]
    exact List.mem_map_of_mem Prod.fst ((hm (key, 0)).mpr (Or.inl rfl))
  refine ⟨?_, hc1, ha, fun k1 v1 h1 => at_of_mem _ ho k1 v1 ((hm _).mpr (Or.inr h1))⟩
  obtain ⟨l, v, h, r, hf, ha1⟩ := find_of_contains _ key hc1
  have hv : v = 0 := by
    rw [ha] at ha1
    cases ha1
    rfl
  have he : find t key = .error .outOfRange := (find_error_iff t key).mpr hc
  simp [index, he, hf, pair?, hv]

/-- Erasing a key that `contains` does not find leaves an AVL tree as it is. -/
theorem rawDelete_absent (t : Tree) (ht : AVL t) (key : Key) (hc : contains t key = false) :
    ∀ fuel, depth t < fuel → rawDelete fuel key t = some t := by
  induction t with
  | null =>
    intro fuel hf
    cases fuel with
    | zero => omega
    | succ f => rfl
  | node l k v h r ihl ihr =>
    intro fuel hf
    cases fuel with
    | zero => omega
    | succ f =>
      have ht0 := ht
      rw [AVL_node] at ht
      obtain ⟨hl, hr, -, -, -⟩ := ht
      rw [depth] at hf
      rw [contains] at hc
      by_cases c1 : key = k
      · simp [c1] at hc
      · simp only [if_neg c1] at hc
        simp only [rawDelete, if_neg c1]
        by_cases c2 : key < k
        · have c3 : ¬ k < key := not_lt.mpr (le_of_lt c2)
          simp only [if_neg c3] at hc
          cases l with
          | null =>
            simp [isNull, c2, updateHeight_of_AVL ht0, rebalanceSelf_of_AVL ht0]
          | node ll lk lv lh lr =>
            have := ihl hl hc f (by omega)
            simp [isNull, c2, this, updateHeight_of_AVL ht0, rebalanceSelf_of_AVL ht0]
        · have c3 : k < key := lt_of_le_of_ne (not_lt.mp c2) (fun e => c1 e.symm)
          simp only [if_pos c3] at hc
          cases r with
          | null =>
            simp [isNull, c2, updateHeight_of_AVL ht0, rebalanceSelf_of_AVL ht0]
          | node rl rk rv rh rr =>
            have := ihr hr hc f (by omega)
            simp [isNull, c2, this, updateHeight_of_AVL ht0, rebalanceSelf_of_AVL ht0]

theorem erase_absent (t : Tree) (ht : AVL t) (key : Key) (hc : contains t key = false)
    (fuel : Nat) (hf : depth t < fuel) : erase fuel key t = some t := by
  rw [erase, rawDelete_absent t ht key hc fuel hf, Option.map_some', updateHeight_of_AVL ht]

theorem getMaxNode_mem (t : Tree) (ht : t.isNull = false) :
    ∃ p, pair? (getMaxNode t) = some p ∧ p ∈ toList t := by
  induction t with
  | null => simp [isNull] at ht
  | node l k v h r _ ihr =>
    cases r with
    | null => exact ⟨(k, v), rfl, by simp [toList]⟩
    | node rl rk rv rh rr =>
      obtain ⟨p, h1, h2⟩ := ihr rfl
      refine ⟨p, ?_, ?_⟩
      · rw [getMaxNode]; exact h1
      · rw [toList_node]
        exact List.mem_append_right _ (List.mem_cons_of_mem _ h2)

theorem getLast?_append_cons {α : Type} (xs : List α) (y : α) (ys : List α) :
    (xs ++ y :: ys).getLast? = (y :: ys).getLast? := by
  induction xs with
  | nil => rfl
  | cons x xs ih =>
    cases xs with
    | nil => simp [List.getLast?_cons_cons]
    | cons z zs =>
      rw [List.cons_append, List.cons_append, List.getLast?_cons_cons, ← List.cons_append, ih]

/-- The pair of the object `getMaxNode()` returns is the last pair of the
in-order sequence: the descent along `right_` ends at the in-order last
object and at no other. -/
theorem getMaxNode_getLast (t : Tree) : pair? (getMaxNode t) = (toList t).getLast? := by
  induction t with
  | null => rfl
  | node l k v h r _ ihr =>
    cases r with
    | null =>
      rw [getMaxNode, pair?, toList_node, getLast?_append_cons]
      rfl
    | node rl rk rv rh rr =>
      rw [getMaxNode, ihr]
      simp only [toList_node]
      rw [getLast?_append_cons, getLast?_append_cons, ← List.cons_append, getLast?_append_cons]

/-- In a sequence with increasing keys the pair right before a pair `kv` holds
the greatest key below the key of `kv`. -/
theorem predecessor_of_pairwise (L1 L2 : List (Key × Value)) (p kv : Key × Value)
    (h : (L1 ++ p :: kv :: L2).Pairwise (fun a b => a.1 < b.1)) :
    p.1 < kv.1 ∧ (∀ q ∈ L1, q.1 < p.1) ∧
      ∀ q ∈ L1 ++ p :: kv :: L2, q.1 < kv.1 → q.1 ≤ p.1 := by
  rw [List.pairwise_append] at h
  obtain ⟨-, h2, h3⟩ := h
  rw [List.pairwise_cons] at h2
  obtain ⟨h4, h5⟩ := h2
  rw [List.pairwise_cons] at h5
  have hpk : p.1 < kv.1 := h4 kv (List.mem_cons_self _ _)
  have h1 : ∀ q ∈ L1, q.1 < p.1 := fun q hq => h3 q hq p (List.mem_cons_self _ _)
  refine ⟨hpk, h1, ?_⟩
  intro q hq hlt
  rw [List.mem_append, List.mem_cons, List.mem_cons] at hq
  rcases hq with hq | hq | hq | hq
  · exact le_of_lt (h1 q hq)
  · rw [hq]
  · rw [hq] at hlt
    exact absurd hlt (lt_irrefl _)
  · exact absurd hlt (lt_asymm (h5.1 q hq))

theorem length_replacePair (p : Key × Value) (t : Tree) :
    (toList (replacePair p t)).length = (toList t).length := by
  cases t with
  | null => rfl
  | node l k v h r => simp [replacePair, toList]

/-- On a tree in BST order `rawDelete` returns when the bound on its depth of
recursion is at least `2 * depth + 1`. -/
theorem rawDelete_returns (t : Tree) (ht : Ordered t) :
    ∀ (key : Key) (fuel : Nat), 2 * depth t + 1 ≤ fuel → ∃ t1, rawDelete fuel key t = some t1 := by
  induction t with
  | null =>
    intro key fuel hf
    cases fuel with
    | zero => omega
    | succ f => exact ⟨null, rfl⟩
  | node l k v h r ihl ihr =>
    intro key fuel hf
    have ht0 := ht
    rw [Ordered_node] at ht
    obtain ⟨ol, or, hl, hr⟩ := ht
    rw [depth] at hf
    cases fuel with
    | zero => omega
    | succ f =>
      simp only [rawDelete]
      by_cases c1 : key = k
      · simp only [if_pos c1]
        cases l with
        | null =>
          cases r with
          | null => exact ⟨_, rfl⟩
          | node rl rk rv rh rr => exact ⟨_, rfl⟩
        | node ll lk lv lh lr =>
          cases r with
          | null => exact ⟨_, rfl⟩
          | node rl rk rv rh rr =>
            obtain ⟨p, hp1, hp2⟩ := getMaxNode_mem (node ll lk lv lh lr) rfl
            have hpk : p.1 < k := hl p hp2
            cases f with
            | zero => omega
            | succ g =>
              obtain ⟨l1, hl1⟩ := ihl ol p.1 g (by omega)
              simp only [rawDeleteSelf, hp1, rawDelete, if_neg (ne_of_lt hpk), isNull, hpk,
                and_self, if_true, hl1, Option.map_some']
              exact ⟨_, rfl⟩
      · simp only [if_neg c1]
        by_cases c2 : key < k ∧ l.isNull = false
        · simp only [if_pos c2]
          obtain ⟨l1, hl1⟩ := ihl ol key f (by omega)
          rw [hl1]
          exact ⟨_, rfl⟩
        · simp only [if_neg c2]
          by_cases c3 : ¬ key < k ∧ r.isNull = false
          · simp only [if_pos c3]
            obtain ⟨r1, hr1⟩ := ihr or key f (by omega)
            rw [hr1]
            exact ⟨_, rfl⟩
          · simp only [if_neg c3]
            exact ⟨_, rfl⟩

/-- On a tree in BST order, `rawDelete` of a key of the tree removes exactly one
pair from the in-order sequence. -/
theorem rawDelete_length (fuel : Nat) : ∀ (key : Key) (t t1 : Tree), Ordered t →
    key ∈ keys t → rawDelete fuel key t = some t1 →
      (toList t1).length + 1 = (toList t).length := by
  induction fuel with
  | zero => intro key t t1 _ _ h; simp [rawDelete] at h
  | succ f ih =>
    intro key t t1 ht hk h
    cases t with
    | null => simp [keys, toList] at hk
    | node l k v hh r =>
      have ht0 := ht
      rw [Ordered_node] at ht
      obtain ⟨ol, or, hl, hr⟩ := ht
      simp only [rawDelete, Option.map_eq_some'] at h
      obtain ⟨t2, h2, rfl⟩ := h
      rw [toList_rebalanceSelf, toList_updateHeight]
      simp only [keys, toList_node, List.map_append, List.map_cons, List.mem_append,
        List.mem_cons, List.mem_map, Prod.exists, exists_and_right, exists_eq_right] at hk
      by_cases c1 : key = k
      · rw [if_pos c1] at h2
        cases l with
        | null =>
          cases r with
          | null =>
            simp only [rawDeleteSelf, Option.some.injEq] at h2
            subst h2
            simp [toList]
          | node rl rk rv rh rr =>
            simp only [rawDeleteSelf, Option.some.injEq] at h2
            subst h2
            simp [toList]
        | node ll lk lv lh lr =>
          cases r with
          | null =>
            simp only [rawDeleteSelf, Option.some.injEq] at h2
            subst h2
            simp only [toList, List.length_append, List.length_cons, List.length_nil]
          | node rl rk rv rh rr =>
            obtain ⟨p, hp1, hp2⟩ := getMaxNode_mem (node ll lk lv lh lr) rfl
            simp only [rawDeleteSelf, hp1, Option.map_eq_some'] at h2
            obtain ⟨t3, h3, rfl⟩ := h2
            have hpk : p.1 ∈ keys (node (node ll lk lv lh lr) k v hh (node rl rk rv rh rr)) := by
              rw [keys, toList_node]
              exact List.mem_map_of_mem Prod.fst (List.mem_append_left _ hp2)
            have := ih p.1 _ t3 ht0 hpk h3
            rw [length_replacePair]
            exact this
      · rw [if_neg c1] at h2
        by_cases c2 : key < k
        · have hkl : key ∈ keys l := by
            rcases hk with ⟨x, hx⟩ | hk | ⟨x, hx⟩
            · rw [keys]; exact List.mem_map_of_mem Prod.fst hx
            · exact absurd hk c1
            · exact absurd (lt_trans (hr _ hx) c2) (lt_irrefl _)
          have hln : l.isNull = false := by
            cases l with
            | null => simp [keys, toList] at hkl
            | node ll lk lv lh lr => rfl
          rw [if_pos ⟨c2, hln⟩, Option.map_eq_some'] at h2
          obtain ⟨l1, h3, rfl⟩ := h2
          have := ih key l l1 ol hkl h3
          simp only [toList_node, List.length_append, List.length_cons]
          omega
        · have hkr : key ∈ keys r := by
            rcases hk with ⟨x, hx⟩ | hk | ⟨x, hx⟩
            · exact absurd (hl _ hx) c2
            · exact absurd hk c1
            · rw [keys]; exact List.mem_map_of_mem Prod.fst hx
          have hrn : r.isNull = false := by
            cases r with
            | null => simp [keys, toList] at hkr
            | node rl rk rv rh rr => rfl
          have c2' : ¬ (key < k ∧ l.isNull = false) := fun h => c2 h.1
          rw [if_neg c2', if_pos ⟨c2, hrn⟩, Option.map_eq_some'] at h2
          obtain ⟨r1, h3, rfl⟩ := h2
          have := ih key r r1 or hkr h3
          simp only [toList_node, List.length_append, List.length_cons]
          omega

theorem mem_of_at (t : Tree) (key : Key) (value : Value) (h : at_ t key = .ok value) :
    (key, value) ∈ toList t := by
  induction t with
  | null => simp [at_] at h
  | node l k v hh r ihl ihr =>
    rw [at_node] at h
    rw [toList_node]
    by_cases c1 : key = k
    · rw [if_pos c1] at h
      simp only [Except.ok.injEq] at h
      rw [c1, h]
      exact List.mem_append_right _ (List.mem_cons_self _ _)
    · rw [if_neg c1] at h
      by_cases c2 : k < key
      · rw [if_pos c2] at h
        by_cases c3 : r.isNull = true
        · rw [if_pos c3] at h
          exact absurd h (by simp)
        · rw [if_neg c3] at h
          exact List.mem_append_right _ (List.mem_cons_of_mem _ (ihr h))
      · rw [if_neg c2] at h
        by_cases c3 : l.isNull = true
        · rw [if_pos c3] at h
          exact absurd h (by simp)
        · rw [if_neg c3] at h
          exact List.mem_append_left _ (ihl h)

end Tree

/-! ## Lemmas on the ownership tree with addresses -/

namespace OTree

theorem strip_updateHeight (x : OTree) : strip (updateHeight x) = Tree.updateHeight (strip x) := by
  cases x <;> rfl

theorem strip_replacePair (p : Key × Value) (x : OTree) :
    strip (replacePair p x) = Tree.replacePair p (strip x) := by
  cases x <;> rfl

theorem strip_rotateRR (x : OTree) : strip (rotateRR x) = Tree.rotateRR (strip x) := by
  cases x with
  | null => rfl
  | node a l k v h r =>
    cases l with
    | null => rfl
    | node b ll lk lv lh lr => rfl

theorem strip_rotateLL (x : OTree) : strip (rotateLL x) = Tree.rotateLL (strip x) := by
  cases x with
  | null => rfl
  | node a l k v h r =>
    cases r with
    | null => rfl
    | node b rl rk rv rh rr => rfl

theorem strip_rebalanceSelf (x : OTree) :
    strip (rebalanceSelf x) = Tree.rebalanceSelf (strip x) := by
  induction x with
  | null => rfl
  | node a l k v h r ihl ihr =>
    simp only [rebalanceSelf, strip, Tree.rebalanceSelf, ihl, ihr]
    split_ifs <;> simp only [strip_rotateRR, strip_rotateLL, strip, ihl, ihr]

theorem strip_rawDeleteSelf (rec : Key → OTree → Option OTree)
    (rec1 : Key → Tree → Option Tree)
    (hrec : ∀ key x, (rec key x).map strip = rec1 key (strip x)) (x : OTree) :
    (rawDeleteSelf rec x).map strip = Tree.rawDeleteSelf rec1 (strip x) := by
  cases x with
  | null => rfl
  | node a l k v h r =>
    cases l with
    | null =>
      cases r with
      | null => rfl
      | node c rl rk rv rh rr => rfl
    | node b ll lk lv lh lr =>
      cases r with
      | null => rfl
      | node c rl rk rv rh rr =>
        simp only [rawDeleteSelf, strip, Tree.rawDeleteSelf]
        cases Tree.pair? (Tree.getMaxNode (Tree.node (strip ll) lk lv lh (strip lr))) with
        | none => rfl
        | some p =>
          have := hrec p.1 (node a (node b ll lk lv lh lr) k v h (node c rl rk rv rh rr))
          simp only [strip] at this
          simp only [← this, Option.map_map]
          congr 1
          funext y
          exact strip_replacePair p y

theorem strip_rawDelete (fuel : Nat) : ∀ (key : Key) (x : OTree),
    (rawDelete fuel key x).map strip = Tree.rawDelete fuel key (strip x) := by
  induction fuel with
  | zero => intro key x; rfl
  | succ f ih =>
    intro key x
    cases x with
    | null => rfl
    | node a l k v h r =>
      simp only [rawDelete, Tree.rawDelete, strip, Option.map_map]
      have hc : (strip ∘ fun x => rebalanceSelf (updateHeight x)) =
          (fun t => Tree.rebalanceSelf (Tree.updateHeight t)) ∘ strip := by
        funext y
        simp [strip_rebalanceSelf, strip_updateHeight]
      rw [hc, ← Option.map_map]
      congr 1
      split_ifs with c1 c2 c3
      · have := strip_rawDeleteSelf (rawDelete f) (Tree.rawDelete f) ih (node a l k v h r)
        simpa [strip] using this
      · rw [← ih key l, Option.map_map, Option.map_map]
        rfl
      · rw [← ih key r, Option.map_map, Option.map_map]
        rfl
      · rfl

theorem strip_erase (fuel : Nat) (key : Key) (x : OTree) :
    (erase fuel key x).map strip = Tree.erase fuel key (strip x) := by
  rw [erase, Tree.erase, ← strip_rawDelete, Option.map_map, Option.map_map]
  congr 1
  funext y
  exact strip_updateHeight y

theorem toList_strip (x : OTree) : Tree.toList (strip x) = (objs x).map Prod.snd := by
  induction x with
  | null => rfl
  | node a l k v h r ihl ihr => simp [strip, Tree.toList, objs, ihl, ihr]

theorem objs_node (a : Nat) (l r : OTree) (k : Key) (v : Value) (h : Nat) :
    objs (node a l k v h r) = objs l ++ (a, (k, v)) :: objs r := rfl

theorem objs_updateHeight (x : OTree) : objs (updateHeight x) = objs x := by
  cases x <;> rfl

theorem addrs_node (a : Nat) (l r : OTree) (k : Key) (v : Value) (h : Nat) :
    addrs (node a l k v h r) = addrs l ++ a :: addrs r := by
  simp [addrs, objs]

theorem addrs_updateHeight (x : OTree) : addrs (updateHeight x) = addrs x := by
  rw [addrs, objs_updateHeight, addrs]

theorem addrs_replacePair (p : Key × Value) (x : OTree) : addrs (replacePair p x) = addrs x := by
  cases x with
  | null => rfl
  | node a l k v h r => simp [replacePair, addrs_node]

theorem rootAddr_updateHeight (x : OTree) : rootAddr (updateHeight x) = rootAddr x := by
  cases x <;> rfl

theorem rootAddr_replacePair (p : Key × Value) (x : OTree) :
    rootAddr (replacePair p x) = rootAddr x := by
  cases x <;> rfl

theorem rootAddr_rotateRR (x : OTree) : rootAddr (rotateRR x) = rootAddr x := by
  cases x with
  | null => rfl
  | node a l k v h r =>
    cases l with
    | null => rfl
    | node b ll lk lv lh lr => rfl

theorem rootAddr_rotateLL (x : OTree) : rootAddr (rotateLL x) = rootAddr x := by
  cases x with
  | null => rfl
  | node a l k v h r =>
    cases r with
    | null => rfl
    | node b rl rk rv rh rr => rfl

theorem rootAddr_rebalanceSelf (x : OTree) : rootAddr (rebalanceSelf x) = rootAddr x := by
  cases x with
  | null => rfl
  | node a l k v h r =>
    simp only [rebalanceSelf]
    split_ifs <;>
      first
        | rfl
        | (rw [rootAddr_rotateRR]; rfl)
        | (rw [rootAddr_rotateLL]; rfl)

theorem addrs_rotateRR (x : OTree) : (addrs (rotateRR x)).Perm (addrs x) := by
  cases x with
  | null => exact List.Perm.refl _
  | node a l k v h r =>
    cases l with
    | null => exact List.Perm.refl _
    | node b ll lk lv lh lr =>
      simp only [rotateRR, addrs_updateHeight, addrs_node, List.append_assoc, List.cons_append]
      refine List.Perm.append_left _ ?_
      have h1 : (a :: (addrs lr ++ b :: addrs r)).Perm (addrs lr ++ a :: b :: addrs r) :=
        List.perm_middle.symm
      have h2 : (b :: (addrs lr ++ a :: addrs r)).Perm (addrs lr ++ b :: a :: addrs r) :=
        List.perm_middle.symm
      exact h1.trans ((List.Perm.append_left _ (List.Perm.swap _ _ _)).trans h2.symm)

theorem addrs_rotateLL (x : OTree) : (addrs (rotateLL x)).Perm (addrs x) := by
  cases x with
  | null => exact List.Perm.refl _
  | node a l k v h r =>
    cases r with
    | null => exact List.Perm.refl _
    | node b rl rk rv rh rr =>
      simp only [rotateLL, addrs_updateHeight, addrs_node, List.append_assoc, List.cons_append]
      refine List.Perm.append_left _ ?_
      have h1 : (b :: (addrs rl ++ a :: addrs rr)).Perm (addrs rl ++ b :: a :: addrs rr) :=
        List.perm_middle.symm
      have h2 : (a :: (addrs rl ++ b :: addrs rr)).Perm (addrs rl ++ a :: b :: addrs rr) :=
        List.perm_middle.symm
      exact h1.trans ((List.Perm.append_left _ (List.Perm.swap _ _ _)).trans h2.symm)

theorem addrs_rebalanceSelf (x : OTree) : (addrs (rebalanceSelf x)).Perm (addrs x) := by
  induction x with
  | null => exact List.Perm.refl _
  | node a l k v h r ihl ihr =>
    have hn : ∀ l1 r1 : OTree, (addrs l1).Perm (addrs l) → (addrs r1).Perm (addrs r) →
        (addrs (node a l1 k v h r1)).Perm (addrs (node a l k v h r)) := by
      intro l1 r1 h1 h2
      rw [addrs_node, addrs_node]
      exact h1.append (List.Perm.cons _ h2)
    simp only [rebalanceSelf]
    split_ifs
    · exact (addrs_rotateRR _).trans (hn _ _ ((addrs_rotateLL _).trans ihl) ihr)
    · exact (addrs_rotateRR _).trans (hn _ _ ihl ihr)
    · exact (addrs_rotateLL _).trans (hn _ _ ihl ((addrs_rotateRR _).trans ihr))
    · exact (addrs_rotateLL _).trans (hn _ _ ihl ihr)
    · exact hn _ _ ihl ihr

theorem nodup_of_subperm {l1 l2 : List Nat} (h : l1.Subperm l2) (hd : l2.Nodup) : l1.Nodup := by
  obtain ⟨l, hp, hs⟩ := h
  exact hp.nodup_iff.mp (hd.sublist hs)

theorem updateHeight_of_AVL_addr {x : OTree} (h : Tree.AVL (strip x)) : updateHeight x = x := by
  cases x with
  | null => rfl
  | node a l k v ht r =>
    simp only [strip] at h
    rw [Tree.AVL_node] at h
    simp only [updateHeight]
    rw [← h.2.2.1]

theorem rebalanceSelf_of_AVL_addr {x : OTree} (h : Tree.AVL (strip x)) : rebalanceSelf x = x := by
  induction x with
  | null => rfl
  | node a l k v ht r ihl ihr =>
    simp only [strip] at h
    rw [Tree.AVL_node] at h
    obtain ⟨hl, hr, -, h1, h2⟩ := h
    simp only [rebalanceSelf, ihl hl, ihr hr, strip, Tree.getDiff_node]
    have e1 : ¬ ((Tree.getHeight (strip r) : Int) - (Tree.getHeight (strip l) : Int) = -2) := by
      omega
    have e2 : ¬ ((Tree.getHeight (strip r) : Int) - (Tree.getHeight (strip l) : Int) = 2) := by
      omega
    simp [e1, e2]

theorem mem_objs_rotateLL_left (a : Nat) (l r : OTree) (k : Key) (v : Value) (h : Nat)
    (e : Nat × (Key × Value)) (he : e ∈ objs l) : e ∈ objs (rotateLL (node a l k v h r)) := by
  cases r with
  | null => exact List.mem_append_left _ he
  | node b rl rk rv rh rr =>
    simp only [rotateLL, objs_updateHeight, objs_node, List.append_assoc]
    exact List.mem_append_left _ he

theorem mem_objs_rotateRR_right (a : Nat) (l r : OTree) (k : Key) (v : Value) (h : Nat)
    (e : Nat × (Key × Value)) (he : e ∈ objs r) : e ∈ objs (rotateRR (node a l k v h r)) := by
  cases l with
  | null => exact List.mem_append_right _ (List.mem_cons_of_mem _ he)
  | node b ll lk lv lh lr =>
    simp only [rotateRR, objs_updateHeight, objs_node]
    exact List.mem_append_right _ (List.mem_cons_of_mem _
      (List.mem_append_right _ (List.mem_cons_of_mem _ he)))

/-- Rebalancing an object whose left subtree is not the higher one by two
leaves every object of the left subtree with its pair. -/
theorem mem_objs_rebalance_left (a : Nat) (l r : OTree) (k : Key) (v : Value) (h : Nat)
    (hl : Tree.AVL (strip l)) (hr : Tree.AVL (strip r))
    (hh : Tree.getHeight (strip l) ≤ Tree.getHeight (strip r) + 1)
    (e : Nat × (Key × Value)) (he : e ∈ objs l) :
    e ∈ objs (rebalanceSelf (updateHeight (node a l k v h r))) := by
  simp only [updateHeight, rebalanceSelf, rebalanceSelf_of_AVL_addr hl,
    rebalanceSelf_of_AVL_addr hr, strip, Tree.getDiff_node]
  have e1 : ¬ ((Tree.getHeight (strip r) : Int) - (Tree.getHeight (strip l) : Int) = -2) := by
    omega
  rw [if_neg e1]
  split_ifs
  · exact mem_objs_rotateLL_left _ _ _ _ _ _ _ he
  · exact mem_objs_rotateLL_left _ _ _ _ _ _ _ he
  · exact List.mem_append_left _ he

/-- Rebalancing an object whose right subtree is not the higher one by two
leaves every object of the right subtree with its pair. -/
theorem mem_objs_rebalance_right (a : Nat) (l r : OTree) (k : Key) (v : Value) (h : Nat)
    (hl : Tree.AVL (strip l)) (hr : Tree.AVL (strip r))
    (hh : Tree.getHeight (strip r) ≤ Tree.getHeight (strip l) + 1)
    (e : Nat × (Key × Value)) (he : e ∈ objs r) :
    e ∈ objs (rebalanceSelf (updateHeight (node a l k v h r))) := by
  simp only [updateHeight, rebalanceSelf, rebalanceSelf_of_AVL_addr hl,
    rebalanceSelf_of_AVL_addr hr, strip, Tree.getDiff_node]
  have e2 : ¬ ((Tree.getHeight (strip r) : Int) - (Tree.getHeight (strip l) : Int) = 2) := by
    omega
  split_ifs
  · exact mem_objs_rotateRR_right _ _ _ _ _ _ _ he
  · exact mem_objs_rotateRR_right _ _ _ _ _ _ _ he
  · exact List.mem_append_right _ (List.mem_cons_of_mem _ he)

theorem find_node_addr (a : Nat) (l r : OTree) (k key : Key) (v : Value) (h : Nat) :
    find (node a l k v h r) key =
      if key = k then .ok (node a l k v h r)
      else if k < key then (if (strip r).isNull then .error .outOfRange else find r key)
      else (if (strip l).isNull then .error .outOfRange else find l key) := by
  cases l <;> cases r <;> simp [find, strip, Tree.isNull]

theorem strip_find (x : OTree) (key : Key) :
    (find x key).map strip = Tree.find (strip x) key := by
  induction x with
  | null => rfl
  | node a l k v h r ihl ihr =>
    rw [find_node_addr, strip, Tree.find_node]
    split_ifs
    · rfl
    · rfl
    · exact ihr
    · rfl
    · exact ihl

/-- The object `find` returns hangs in the tree: the in-order sequence of the
tree is that of the object's subtree, with pairs before and after it. -/
theorem find_toList (x : OTree) (key : Key) (a : Nat) (l r : OTree) (v : Value) (h : Nat)
    (hf : find x key = .ok (node a l key v h r)) :
    ∃ pre post, Tree.toList (strip x) =
      pre ++ (Tree.toList (strip l) ++ (key, v) :: Tree.toList (strip r)) ++ post := by
  induction x with
  | null => simp [find] at hf
  | node b xl k v0 h0 xr ihl ihr =>
    rw [find_node_addr] at hf
    split_ifs at hf with e1 e2 e3 e4
    · injection hf with hf
      injection hf with _ e2 e3 e4 e5 e6
      subst e2 e3 e4 e6
      exact ⟨[], [], by simp [strip, Tree.toList]⟩
    · obtain ⟨pre, post, hd⟩ := ihr hf
      refine ⟨Tree.toList (strip xl) ++ (k, v0) :: pre, post, ?_⟩
      rw [strip, Tree.toList_node, hd]
      simp
    · obtain ⟨pre, post, hd⟩ := ihl hf
      refine ⟨pre, post ++ (k, v0) :: Tree.toList (strip xr), ?_⟩
      rw [strip, Tree.toList_node, hd]
      simp

theorem addrs_null : addrs null = [] := rfl

theorem rawDelete_rootAddr (f : Nat) (key : Key) (a : Nat) (l r : OTree) (k : Key) (v : Value)
    (h : Nat) (x1 : OTree) (hk : key ≠ k)
    (hd : rawDelete (f + 1) key (node a l k v h r) = some x1) : rootAddr x1 = some a := by
  simp only [rawDelete, if_neg hk, Option.map_eq_some'] at hd
  obtain ⟨x2, h2, rfl⟩ := hd
  rw [rootAddr_rebalanceSelf, rootAddr_updateHeight]
  split_ifs at h2
  · rw [Option.map_eq_some'] at h2
    obtain ⟨l1, -, rfl⟩ := h2
    rfl
  · rw [Option.map_eq_some'] at h2
    obtain ⟨r1, -, rfl⟩ := h2
    rfl
  · simp only [Option.some.injEq] at h2
    subst h2
    rfl

theorem addrs_rawDelete (fuel : Nat) : ∀ (key : Key) (x x1 : OTree),
    rawDelete fuel key x = some x1 → (addrs x1).Subperm (addrs x) := by
  induction fuel with
  | zero => intro key x x1 h; simp [rawDelete] at h
  | succ f ih =>
    intro key x x1 h
    cases x with
    | null =>
      simp only [rawDelete, Option.some.injEq] at h
      subst h
      exact List.Subperm.refl _
    | node a l k v hh r =>
      simp only [rawDelete, Option.map_eq_some'] at h
      obtain ⟨x2, h2, rfl⟩ := h
      refine (List.Perm.subperm_right
        ((addrs_rebalanceSelf _).trans (by rw [addrs_updateHeight]))).mpr ?_
      split_ifs at h2 with c1 c2 c3
      · cases l with
        | null =>
          cases r with
          | null =>
            simp only [rawDeleteSelf, Option.some.injEq] at h2
            subst h2
            exact List.nil_subperm
          | node c rl rk rv rh rr =>
            simp only [rawDeleteSelf, Option.some.injEq] at h2
            subst h2
            rw [addrs_node, addrs_node, addrs_node, addrs_null, List.nil_append]
            have s1 : (a :: (addrs rl ++ addrs rr)).Sublist
                (a :: (addrs rl ++ c :: addrs rr)) :=
              List.Sublist.cons₂ _ (List.Sublist.append_left (List.sublist_cons_self _ _) _)
            exact ⟨_, List.perm_middle.symm, s1⟩
        | node b ll lk lv lh lr =>
          cases r with
          | null =>
            simp only [rawDeleteSelf, Option.some.injEq] at h2
            subst h2
            rw [addrs_node, addrs_node, addrs_node, addrs_null]
            have s1 : (a :: (addrs ll ++ addrs lr)).Sublist
                (a :: (addrs ll ++ b :: addrs lr)) :=
              List.Sublist.cons₂ _ (List.Sublist.append_left (List.sublist_cons_self _ _) _)
            have p1 : ((addrs ll ++ b :: addrs lr) ++ [a]).Perm
                (a :: (addrs ll ++ b :: addrs lr)) :=
              List.perm_append_singleton _ _
            exact (List.Perm.subperm_left p1.symm).mp ⟨_, List.perm_middle.symm, s1⟩
          | node c rl rk rv rh rr =>
            simp only [rawDeleteSelf] at h2
            split at h2
            · exact absurd h2 (by simp)
            · rename_i p _
              rw [Option.map_eq_some'] at h2
              obtain ⟨x3, h3, rfl⟩ := h2
              rw [addrs_replacePair]
              exact ih _ _ _ h3
      · rw [Option.map_eq_some'] at h2
        obtain ⟨l1, h3, rfl⟩ := h2
        rw [addrs_node, addrs_node]
        exact (List.subperm_append_right _).mpr (ih _ _ _ h3)
      · rw [Option.map_eq_some'] at h2
        obtain ⟨r1, h3, rfl⟩ := h2
        rw [addrs_node, addrs_node]
        exact (List.subperm_append_left _).mpr ((List.subperm_cons _).mpr (ih _ _ _ h3))
      · simp only [Option.some.injEq] at h2
        subst h2
        exact List.Subperm.refl _

theorem AVL_rawDelete {fuel : Nat} {key : Key} {x x1 : OTree} (hx : Tree.AVL (strip x))
    (h : rawDelete fuel key x = some x1) :
    Tree.AVL (strip x1) ∧ Tree.getHeight (strip x1) ≤ Tree.getHeight (strip x) := by
  have h1 : Tree.rawDelete fuel key (strip x) = some (strip x1) := by
    rw [← strip_rawDelete, h]
    rfl
  have := Tree.rawDelete_AVL fuel key (strip x) (strip x1) hx h1
  exact ⟨this.1, this.2.1⟩

/-- The object found by `find(key)`, when it has two children, holds after
`rawDelete(key)` the pair of the maximum of its left subtree. -/
theorem rawDelete_two_children (fuel : Nat) : ∀ (key : Key) (x x1 : OTree) (a : Nat)
    (l r : OTree) (v : Value) (h : Nat),
    Tree.Ordered (strip x) → Tree.AVL (strip x) →
    find x key = .ok (node a l key v h r) →
    (strip l).isNull = false → (strip r).isNull = false →
    rawDelete fuel key x = some x1 →
      ∃ p, Tree.pair? (Tree.getMaxNode (strip l)) = some p ∧ (a, p) ∈ objs x1 := by
  induction fuel with
  | zero => intro key x x1 a l r v h _ _ _ _ _ hd; simp [rawDelete] at hd
  | succ f ih =>
    intro key x x1 a l r v h ho ha hf hl hr hd
    cases x with
    | null => simp [find] at hf
    | node b xl k v0 h0 xr =>
      have ho0 := ho
      have ha0 := ha
      simp only [strip] at ho ha
      rw [Tree.Ordered_node] at ho
      rw [Tree.AVL_node] at ha
      obtain ⟨ol, or, okl, okr⟩ := ho
      obtain ⟨al, ar, -, b1, b2⟩ := ha
      rw [find_node_addr] at hf
      by_cases c1 : key = k
      · rw [if_pos c1] at hf
        simp only [Except.ok.injEq, node.injEq] at hf
        obtain ⟨rfl, rfl, -, -, -, rfl⟩ := hf
        obtain ⟨p, hp1, hp2⟩ := Tree.getMaxNode_mem (strip xl) hl
        refine ⟨p, hp1, ?_⟩
        have hpk : p.1 ≠ k := ne_of_lt (okl p hp2)
        cases xl with
        | null => simp [strip, Tree.isNull] at hl
        | node c ll lk lv lh lr =>
          cases xr with
          | null => simp [strip, Tree.isNull] at hr
          | node d rl rk rv rh rr =>
            simp only [strip] at hp1
            simp only [rawDelete, if_pos c1, rawDeleteSelf, strip, hp1, Option.map_eq_some']
              at hd
            obtain ⟨x2, ⟨x3, h3, rfl⟩, rfl⟩ := hd
            cases f with
            | zero => simp [rawDelete] at h3
            | succ g =>
              have hroot := rawDelete_rootAddr g p.1 b _ _ k v0 h0 x3 hpk h3
              have havl := (AVL_rawDelete ha0 h3).1
              cases x3 with
              | null => simp [rootAddr] at hroot
              | node e l3 k3 v3 g3 r3 =>
                simp only [rootAddr, Option.some.injEq] at hroot
                subst hroot
                have havl2 : Tree.AVL (strip (replacePair p (node e l3 k3 v3 g3 r3))) := by
                  rw [strip_replacePair]
                  exact (Tree.replacePair_AVL p _ havl).1
                rw [updateHeight_of_AVL_addr havl2, rebalanceSelf_of_AVL_addr havl2]
                simp [replacePair, objs]
      · rw [if_neg c1] at hf
        simp only [rawDelete, if_neg c1, Option.map_eq_some'] at hd
        obtain ⟨x2, h2, rfl⟩ := hd
        by_cases c2 : k < key
        · rw [if_pos c2] at hf
          have c3 : ¬ key < k := not_lt.mpr (le_of_lt c2)
          by_cases c4 : (strip xr).isNull = true
          · rw [if_pos c4] at hf
            exact absurd hf (by simp)
          · rw [if_neg c4] at hf
            have c5 : (strip xr).isNull = false := by simpa using c4
            have c6 : ¬ (key < k ∧ (strip xl).isNull = false) := fun hh => c3 hh.1
            rw [if_neg c6, if_pos ⟨c3, c5⟩, Option.map_eq_some'] at h2
            obtain ⟨r1, h3, rfl⟩ := h2
            obtain ⟨p, hp1, hp2⟩ := ih key xr r1 a l r v h or ar hf hl hr h3
            obtain ⟨ar1, hh1⟩ := AVL_rawDelete ar h3
            exact ⟨p, hp1, mem_objs_rebalance_right b xl r1 k v0 h0 al ar1 (by omega) _ hp2⟩
        · rw [if_neg c2] at hf
          have c3 : key < k := lt_of_le_of_ne (not_lt.mp c2) c1
          by_cases c4 : (strip xl).isNull = true
          · rw [if_pos c4] at hf
            exact absurd hf (by simp)
          · rw [if_neg c4] at hf
            have c5 : (strip xl).isNull = false := by simpa using c4
            rw [if_pos ⟨c3, c5⟩, Option.map_eq_some'] at h2
            obtain ⟨l1, h3, rfl⟩ := h2
            obtain ⟨p, hp1, hp2⟩ := ih key xl l1 a l r v h ol al hf hl hr h3
            obtain ⟨al1, hh1⟩ := AVL_rawDelete al h3
            exact ⟨p, hp1, mem_objs_rebalance_left b l1 xr k v0 h0 al1 ar (by omega) _ hp2⟩

end OTree

/-! ## Lemmas on the pointer graph -/

namespace Ptr

/-- Inserting 1, 2, 3, 4, 5, 6 into the empty map leaves the store `up6`. -/
theorem insertAll_up :
    insertAll 10 0 [(1, 10), (2, 20), (3, 30), (4, 40), (5, 50), (6, 60)] init = .ok up6 := by
  decide!

/-- Inserting 6, 5, 4, 3, 2, 1 into the empty map leaves the store `down6`. -/
theorem insertAll_down :
    insertAll 10 0 [(6, 60), (5, 50), (4, 40), (3, 30), (2, 20), (1, 10)] init = .ok down6 := by
  decide!

/-- The ownership tree read off the store `up6` is the tree computed by
`Tree.insertAll` for the same insertions. -/
theorem toTree_up6 :
    toTree 10 up6 (some 0) =
      Tree.insertAll Tree.null [(1, 10), (2, 20), (3, 30), (4, 40), (5, 50), (6, 60)] := by
  decide

/-- The ownership tree read off the store `down6` is the tree computed by
`Tree.insertAll` for the same insertions. -/
theorem toTree_down6 :
    toTree 10 down6 (some 0) =
      Tree.insertAll Tree.null [(6, 60), (5, 50), (4, 40), (3, 30), (2, 20), (1, 10)] := by
  decide

/-- On the map built by inserting 5, 3, 8, 1, 4, 7, 9, where no rotation takes
place, the walk from `begin()` to `end()` visits all keys in increasing order. -/
theorem ascendingKeys_without_rotation :
    ascendingKeys 10 [(5, 50), (3, 30), (8, 80), (1, 10), (4, 40), (7, 70), (9, 90)] =
      .ok [1, 3, 4, 5, 7, 8, 9] := by
  decide!

theorem ascending_up6 : ascending 10 0 up6 = .ok ([1, 4, 5, 6], up6) := by decide!

theorem descending_down6 : descending 10 0 down6 = .ok ([6, 3, 2, 1], down6) := by decide!

/-- In the store, after inserting 5, 3, 8, 1, 4, 7, 9, 2, 6 the object at address
2 holds key 3 (and has two children); after `erase(3)` it holds the pair of the
predecessor 2, and one object less is left. -/
theorem objsAfter_erase_two_children :
    objsAfter 20 [(5, 50), (3, 30), (8, 80), (1, 10), (4, 40), (7, 70), (9, 90), (2, 20), (6, 60)]
        [] =
        .ok [(4, 1, 10), (8, 2, 20), (2, 3, 30), (5, 4, 40), (0, 5, 50), (9, 6, 60), (6, 7, 70),
          (3, 8, 80), (7, 9, 90)] ∧
      objsAfter 20
        [(5, 50), (3, 30), (8, 80), (1, 10), (4, 40), (7, 70), (9, 90), (2, 20), (6, 60)] [3] =
        .ok [(4, 1, 10), (2, 2, 20), (5, 4, 40), (0, 5, 50), (9, 6, 60), (6, 7, 70), (3, 8, 80),
          (7, 9, 90)] := by
  constructor <;> decide!

/-- A sequence of two computations returns exactly when both return, the second
on the store left by the first. -/
theorem bind_ok {α β : Type} (m : M α) (f : α → M β) (s s2 : Store) (b : β) :
    (m >>= f) s = .ok (b, s2) ↔ ∃ a s1, m s = .ok (a, s1) ∧ f a s1 = .ok (b, s2) := by
  simp only [bind, StateT.bind, Except.bind]
  cases h : m s with
  | error e => simp
  | ok p =>
    obtain ⟨a, s1⟩ := p
    simp only [Except.ok.injEq, Prod.mk.injEq]
    constructor
    · intro h1; exact ⟨a, s1, ⟨rfl, rfl⟩, h1⟩
    · rintro ⟨a1, s3, ⟨rfl, rfl⟩, h1⟩; exact h1

theorem pure_ok {α : Type} (a b : α) (s s1 : Store) :
    (pure a : M α) s = .ok (b, s1) ↔ a = b ∧ s = s1 := by
  show Except.ok (a, s) = Except.ok (b, s1) ↔ _
  constructor
  · intro h; injection h with h; injection h with h1 h2; exact ⟨h1, h2⟩
  · rintro ⟨rfl, rfl⟩; rfl

theorem throw_ok {α : Type} (e : Stop) (b : α) (s s1 : Store) :
    ¬ ((throw e : M α) s = .ok (b, s1)) := by
  intro h; cases h

/-- Reading an object leaves the store as it is. -/
theorem load_ok {a : Addr} {s s1 : Store} {o : Obj} :
    load a s = .ok (o, s1) ↔ s1 = s ∧ s.get? a = some (some o) := by
  unfold load
  split
  · next o1 h1 =>
    constructor
    · intro h; injection h with h; injection h with h1 h2; subst h1; subst h2; exact ⟨rfl, by assumption⟩
    · rintro ⟨rfl, h⟩; rw [h1] at h; injection h with h; injection h with h; rw [h]
  · next hn =>
    constructor
    · intro h; cases h
    · rintro ⟨rfl, h⟩; exact absurd h (hn _)

/-- The member `getMaxNode()` writes nothing. -/
theorem getMaxNode_store (fuel : Nat) (a m : Addr) (s s1 : Store)
    (h : getMaxNode fuel a s = .ok (m, s1)) : s1 = s := by
  induction fuel generalizing a with
  | zero => cases h
  | succ n ih =>
    rw [getMaxNode, bind_ok] at h
    obtain ⟨o, s2, hl, h⟩ := h
    obtain ⟨rfl, -⟩ := load_ok.mp hl
    cases hr : o.right with
    | none => rw [hr] at h; exact ((pure_ok _ _ _ _).mp h).2.symm
    | some r => rw [hr] at h; exact ih r h

/-- On the default-constructed map `erase` finds the root object empty in
`rawDelete`, which returns at once, and then calls `updateHeight()`, which has
no test of `isEmpty_`: for every key the map stays empty (no pair, no child,
`isEmpty_` true), and the field `height_` of the empty root object, which is
the height of no node of the map, goes from 0 to 1. -/
theorem erase_empty_root (k : Key) :
    init = [some { pair := none, height := 0, isEmpty := true,
                   left := none, right := none, parrent := none }] ∧
      erase 10 0 k init =
        .ok ((), [some { pair := none, height := 1, isEmpty := true,
                         left := none, right := none, parrent := none }]) :=
  ⟨rfl, rfl⟩

/-! ### Locality: which objects a member can write to -/

theorem get?_set_self (s : Store) (a : Addr) (x : Option Obj) (h : a < s.length) :
    (s.set a x).get? a = some x := by
  simp [List.get?_eq_getElem?, List.getElem?_set_self, h]

theorem get?_set_ne (s : Store) (a i : Addr) (x : Option Obj) (h : a ≠ i) :
    (s.set a x).get? i = s.get? i := by
  simp [List.get?_eq_getElem?, List.getElem?_set_ne h]

theorem get?_append_left (s e : Store) (i : Addr) (h : i < s.length) :
    (s ++ e).get? i = s.get? i := by
  simp [List.get?_eq_getElem?, List.getElem?_append_left h]

theorem get?_append_right (s e : Store) (i : Addr) (h : s.length ≤ i) :
    (s ++ e).get? i = e.get? (i - s.length) := by
  simp [List.get?_eq_getElem?, List.getElem?_append_right h]

theorem lt_of_get? {s : Store} {i : Nat} {x : Option Obj} (h : s.get? i = some x) :
    i < s.length := by
  by_contra hlt
  rw [List.get?_eq_none.mpr (not_lt.mp hlt)] at h
  cases h

theorem local_pure {P : Addr → Prop} {α : Type} {Q : α → Prop} {a : α} (h : Q a) :
    Local P (Pure.pure a : M α) Q := by
  intro s r s1 hg hr
  obtain ⟨rfl, rfl⟩ := (pure_ok _ _ _ _).mp hr
  exact ⟨hg, le_refl _, fun _ _ => rfl, h⟩

theorem local_throw {P : Addr → Prop} {α : Type} {Q : α → Prop} (e : Stop) :
    Local P (throw e : M α) Q := by
  intro s r s1 _ hr
  cases hr

theorem local_bind {P : Addr → Prop} {α β : Type} {Q1 : α → Prop} {Q : β → Prop}
    {m : M α} {f : α → M β} (hm : Local P m Q1) (hf : ∀ a, Q1 a → Local P (f a) Q) :
    Local P (m >>= f) Q := by
  intro s r s2 hg hr
  obtain ⟨a, s1, h1, h2⟩ := (bind_ok _ _ _ _ _).mp hr
  obtain ⟨g1, l1, f1, q1⟩ := hm s a s1 hg h1
  obtain ⟨g2, l2, f2, q2⟩ := hf a q1 s1 r s2 g1 h2
  exact ⟨g2, le_trans l1 l2, fun i hi => (f2 i hi).trans (f1 i hi), q2⟩

theorem local_mono {P : Addr → Prop} {α : Type} {Q1 Q : α → Prop} {m : M α}
    (hm : Local P m Q1) (h : ∀ a, Q1 a → Q a) : Local P m Q := by
  intro s r s1 hg hr
  obtain ⟨g1, l1, f1, q1⟩ := hm s r s1 hg hr
  exact ⟨g1, l1, f1, h r q1⟩

theorem local_load {P : Addr → Prop} (a : Addr) :
    Local P (load a) (fun o => P a → ChildrenIn P o) := by
  intro s r s1 hg hr
  obtain ⟨rfl, h⟩ := load_ok.mp hr
  exact ⟨hg, le_refl _, fun _ _ => rfl, fun ha => hg.2 a r ha h⟩

theorem save_ok {a : Nat} {o : Obj} {s s1 : Store} (h : save a o s = .ok ((), s1)) :
    s1 = s.set a (some o) ∧ a < s.length := by
  unfold save at h
  split at h
  · next o1 h1 =>
    injection h with h; injection h with _ h2
    refine ⟨h2.symm, ?_⟩
    exact lt_of_get? h1
  · cases h

theorem free_ok {a : Nat} {s s1 : Store} (h : free a s = .ok ((), s1)) :
    s1 = s.set a none ∧ a < s.length := by
  unfold free at h
  split at h
  · next o1 h1 =>
    injection h with h; injection h with _ h2
    refine ⟨h2.symm, ?_⟩
    exact lt_of_get? h1
  · cases h

theorem alloc_ok {o : Obj} {a : Nat} {s s1 : Store} (h : alloc o s = .ok (a, s1)) :
    a = s.length ∧ s1 = s ++ [some o] := by
  unfold alloc at h
  injection h with h; injection h with h1 h2
  exact ⟨h1.symm, h2.symm⟩

theorem local_save {P : Addr → Prop} {a : Addr} {o : Obj} (ha : P a) (ho : ChildrenIn P o) :
    Local P (save a o) (fun _ => True) := by
  intro s r s1 hg hr
  obtain ⟨rfl, hlt⟩ := save_ok hr
  refine ⟨⟨fun i hi => hg.1 i (by simpa using hi), ?_⟩, by simp, ?_, trivial⟩
  · intro i o1 hi h1
    by_cases e : a = i
    · subst e
      rw [get?_set_self _ _ _ hlt] at h1
      injection h1 with h1; injection h1 with h1
      subst h1
      exact ho
    · rw [get?_set_ne _ _ _ _ e] at h1
      exact hg.2 i o1 hi h1
  · intro i hi
    exact get?_set_ne _ _ _ _ (fun e => hi (e ▸ ha))

theorem local_free {P : Addr → Prop} {a : Addr} (ha : P a) :
    Local P (free a) (fun _ => True) := by
  intro s r s1 hg hr
  obtain ⟨rfl, hlt⟩ := free_ok hr
  refine ⟨⟨fun i hi => hg.1 i (by simpa using hi), ?_⟩, by simp, ?_, trivial⟩
  · intro i o1 hi h1
    by_cases e : a = i
    · subst e
      rw [get?_set_self _ _ _ hlt] at h1
      injection h1 with h1; cases h1
    · rw [get?_set_ne _ _ _ _ e] at h1
      exact hg.2 i o1 hi h1
  · intro i hi
    exact get?_set_ne _ _ _ _ (fun e => hi (e ▸ ha))

theorem local_alloc {P : Addr → Prop} {o : Obj} (ho : ChildrenIn P o) :
    Local P (alloc o) P := by
  intro s r s1 hg hr
  obtain ⟨rfl, rfl⟩ := alloc_ok hr
  refine ⟨⟨fun i hi => hg.1 i ?_, ?_⟩, by simp, ?_, hg.1 _ (le_refl _)⟩
  · simp at hi; omega
  · intro i o1 hi h1
    by_cases e : i < s.length
    · rw [get?_append_left _ _ _ e] at h1
      exact hg.2 i o1 hi h1
    · have e1 : s.length ≤ i := not_lt.mp e
      rw [get?_append_right _ _ _ e1] at h1
      cases hk : i - s.length with
      | zero => rw [hk] at h1; simp at h1; subst h1; exact ho
      | succ k => rw [hk] at h1; simp at h1
  · intro i hi
    have e : i < s.length := by
      by_contra hc
      exact hi (hg.1 i (not_lt.mp hc))
    exact get?_append_left _ _ _ e

theorem local_loadIn {P : Addr → Prop} {a : Addr} (ha : P a) :
    Local P (load a) (ChildrenIn P) :=
  local_mono (local_load a) (fun _ h => h ha)

theorem local_loadAny {P : Addr → Prop} (a : Addr) :
    Local P (load a) (fun _ => True) :=
  local_mono (local_load a) (fun _ _ => trivial)

theorem local_unit {P : Addr → Prop} : Local P (pure () : M Unit) (fun _ => True) :=
  local_pure trivial

theorem childrenIn_none {P : Addr → Prop} {o : Obj} (hl : o.left = none) (hr : o.right = none) :
    ChildrenIn P o :=
  ⟨fun l h => (by rw [hl] at h; cases h), fun r h => (by rw [hr] at h; cases h)⟩

theorem local_updateParrentsLocally {P : Addr → Prop} {this : Addr} (h : P this) :
    Local P (updateParrentsLocally this) (fun _ => True) := by
  unfold updateParrentsLocally
  refine local_bind (local_loadIn h) (fun o ⟨_, _⟩ => ?_)
  dsimp only
  repeat' first
    | exact local_unit
    | exact local_save (by solve_by_elim) ⟨by assumption, by assumption⟩
    | refine local_bind local_unit (fun _ _ => ?_)
    | refine local_bind (local_loadIn (by solve_by_elim)) (fun _ ⟨_, _⟩ => ?_)
    | refine local_bind (local_save (by solve_by_elim) ⟨by assumption, by assumption⟩)
        (fun _ _ => ?_)
    | split

theorem local_clear {P : Addr → Prop} (fuel : Nat) :
    ∀ this, P this → Local P (clear fuel this) (fun _ => True) := by
  induction fuel with
  | zero => intro this _; exact local_throw _
  | succ n ih =>
    intro this h
    rw [clear]
    refine local_bind (local_loadIn h) (fun o ⟨_, _⟩ => ?_)
    dsimp only
    repeat' first
      | exact local_unit
      | exact local_save h (childrenIn_none rfl rfl)
      | refine local_bind local_unit (fun _ _ => ?_)
      | refine local_bind (ih _ (by solve_by_elim)) (fun _ _ => ?_)
      | refine local_bind (local_free (by solve_by_elim)) (fun _ _ => ?_)
      | split

theorem local_copyNew {P : Addr → Prop} (fuel : Nat) :
    ∀ rhs, Local P (copyNew fuel rhs) P := by
  induction fuel with
  | zero => intro rhs; exact local_throw _
  | succ n ih =>
    intro rhs
    rw [copyNew]
    refine local_bind (local_loadAny rhs) (fun src _ => ?_)
    refine local_bind (local_alloc (childrenIn_none rfl rfl))
      (fun this hthis => ?_)
    dsimp only
    repeat' first
      | exact local_pure hthis
      | refine local_bind local_unit (fun _ _ => ?_)
      | refine local_bind (ih _) (fun _ _ => ?_)
      | refine local_bind (local_loadIn hthis) (fun _ ⟨_, _⟩ => ?_)
      | refine local_bind (local_updateParrentsLocally hthis) (fun _ _ => ?_)
      | refine local_bind (local_save hthis
          ⟨by first | assumption | (intro _ e; cases e; assumption),
            by first | assumption | (intro _ e; cases e; assumption)⟩)
          (fun _ _ => ?_)
      | split

theorem local_keyOf {P : Addr → Prop} (o : Obj) : Local P (keyOf o) (fun _ => True) := by
  unfold keyOf
  split
  · exact local_pure trivial
  · exact local_throw _

theorem local_heightAt {P : Addr → Prop} (p : Option Addr) :
    Local P (heightAt p) (fun _ => True) := by
  unfold heightAt
  split
  · exact local_pure trivial
  · exact local_bind (local_loadAny _) (fun _ _ => local_pure trivial)

theorem local_deref {P : Addr → Prop} {p : Option Addr} (h : ∀ a, p = some a → P a) :
    Local P (deref p) P := by
  unfold deref
  split
  · exact local_pure (h _ rfl)
  · exact local_throw _

theorem local_updateHeight {P : Addr → Prop} {this : Addr} (h : P this) :
    Local P (updateHeight this) (fun _ => True) := by
  unfold updateHeight
  refine local_bind (local_loadIn h) (fun _ ⟨_, _⟩ => ?_)
  refine local_bind (local_heightAt _) (fun _ _ => ?_)
  refine local_bind (local_heightAt _) (fun _ _ => ?_)
  exact local_save h ⟨by assumption, by assumption⟩

theorem local_getDiff {P : Addr → Prop} (this : Addr) :
    Local P (getDiff this) (fun _ => True) := by
  unfold getDiff
  refine local_bind (local_loadAny _) (fun _ _ => ?_)
  refine local_bind (local_heightAt _) (fun _ _ => ?_)
  refine local_bind (local_heightAt _) (fun _ _ => ?_)
  exact local_pure trivial

theorem local_swapNodes {P : Addr → Prop} {lhs rhs : Addr} (hl : P lhs) (hr : P rhs) :
    Local P (swapNodes lhs rhs) (fun _ => True) := by
  unfold swapNodes
  refine local_bind (local_loadIn hl) (fun _ ⟨_, _⟩ => ?_)
  refine local_bind (local_loadIn hr) (fun _ ⟨_, _⟩ => ?_)
  refine local_bind (local_keyOf _) (fun _ _ => ?_)
  refine local_bind (local_keyOf _) (fun _ _ => ?_)
  refine local_bind (local_save hl ⟨by assumption, by assumption⟩) (fun _ _ => ?_)
  refine local_bind (local_loadIn hr) (fun _ ⟨_, _⟩ => ?_)
  exact local_save hr ⟨by assumption, by assumption⟩

theorem local_rotateRR {P : Addr → Prop} {this : Addr} (h : P this) :
    Local P (rotateRR this) (fun _ => True) := by
  unfold rotateRR
  repeat' first
    | exact local_updateHeight (by assumption)
    | refine local_bind (local_loadIn (by assumption)) (fun _ ⟨_, _⟩ => ?_)
    | refine local_bind (local_deref (by assumption)) (fun _ _ => ?_)
    | refine local_bind (local_swapNodes (by assumption) (by assumption)) (fun _ _ => ?_)
    | refine local_bind (local_updateHeight (by assumption)) (fun _ _ => ?_)
    | refine local_bind (local_save (by assumption) ⟨by assumption, by assumption⟩)
        (fun _ _ => ?_)

theorem local_rotateLL {P : Addr → Prop} {this : Addr} (h : P this) :
    Local P (rotateLL this) (fun _ => True) := by
  unfold rotateLL
  repeat' first
    | exact local_updateHeight (by assumption)
    | refine local_bind (local_loadIn (by assumption)) (fun _ ⟨_, _⟩ => ?_)
    | refine local_bind (local_deref (by assumption)) (fun _ _ => ?_)
    | refine local_bind (local_swapNodes (by assumption) (by assumption)) (fun _ _ => ?_)
    | refine local_bind (local_updateHeight (by assumption)) (fun _ _ => ?_)
    | refine local_bind (local_save (by assumption) ⟨by assumption, by assumption⟩)
        (fun _ _ => ?_)

theorem local_rebalanceSelf {P : Addr → Prop} (fuel : Nat) :
    ∀ this, P this → Local P (rebalanceSelf fuel this) (fun _ => True) := by
  induction fuel with
  | zero => intro this _; exact local_throw _
  | succ n ih =>
    intro this h
    rw [rebalanceSelf]
    refine local_bind (local_loadIn h) (fun o ⟨_, _⟩ => ?_)
    dsimp only
    repeat' first
      | exact local_unit
      | exact local_updateParrentsLocally h
      | refine local_bind local_unit (fun _ _ => ?_)
      | refine local_bind (ih _ (by solve_by_elim)) (fun _ _ => ?_)
      | refine local_bind (local_getDiff _) (fun _ _ => ?_)
      | refine local_bind (local_loadIn (by assumption)) (fun _ ⟨_, _⟩ => ?_)
      | refine local_bind (local_deref (by assumption)) (fun _ _ => ?_)
      | refine local_bind (local_rotateRR (by assumption)) (fun _ _ => ?_)
      | refine local_bind (local_rotateLL (by assumption)) (fun _ _ => ?_)
      | exact local_rotateRR (by assumption)
      | exact local_rotateLL (by assumption)
      | split

theorem local_assign {P : Addr → Prop} (fuel : Nat) {this : Addr} (rhs : Addr) (h : P this) :
    Local P (assign fuel this rhs) (fun _ => True) := by
  unfold assign
  refine local_bind (local_clear fuel this h) (fun _ _ => ?_)
  refine local_bind (local_loadAny rhs) (fun src _ => ?_)
  dsimp only
  repeat' first
    | exact local_updateParrentsLocally h
    | refine local_bind local_unit (fun _ _ => ?_)
    | refine local_bind (local_copyNew fuel _) (fun _ _ => ?_)
    | refine local_bind (local_loadIn h) (fun _ ⟨_, _⟩ => ?_)
    | refine local_bind (local_save h
        ⟨by first | assumption | (intro _ e; cases e; assumption),
          by first | assumption | (intro _ e; cases e; assumption)⟩)
        (fun _ _ => ?_)
    | split

theorem childrenIn_newObj {P : Addr → Prop} (key : Key) (value : Value) :
    ChildrenIn P (newObj key value) :=
  childrenIn_none rfl rfl

theorem local_rawInsert {P : Addr → Prop} (fuel : Nat) :
    ∀ this key value, P this → Local P (rawInsert fuel this key value) (fun _ => True) := by
  induction fuel with
  | zero => intro this _ _ _; exact local_throw _
  | succ n ih =>
    intro this key value h
    rw [rawInsert]
    refine local_bind (local_loadIn h) (fun o ⟨_, _⟩ => ?_)
    split
    · refine local_bind (local_alloc (childrenIn_newObj key value)) (fun _ _ => ?_)
      refine local_bind (local_assign n _ h) (fun _ _ => ?_)
      refine local_bind (local_clear n _ (by assumption)) (fun _ _ => ?_)
      exact local_free (by assumption)
    · refine local_bind (local_keyOf _) (fun _ _ => ?_)
      dsimp only
      repeat' first
        | exact local_updateParrentsLocally h
        | refine local_bind (ih _ _ _ (by solve_by_elim)) (fun _ _ => ?_)
        | refine local_bind (local_alloc (childrenIn_newObj key value)) (fun _ _ => ?_)
        | refine local_bind (local_loadIn h) (fun _ ⟨_, _⟩ => ?_)
        | refine local_bind (local_save h
            ⟨by first | assumption | (intro _ e; cases e; assumption),
              by first | assumption | (intro _ e; cases e; assumption)⟩)
            (fun _ _ => ?_)
        | refine local_bind (local_updateHeight h) (fun _ _ => ?_)
        | refine local_bind (local_rebalanceSelf n _ h) (fun _ _ => ?_)
        | split

theorem local_insert {P : Addr → Prop} (fuel : Nat) {this : Addr} (key : Key) (value : Value)
    (h : P this) : Local P (insert fuel this key value) (fun _ => True) := by
  unfold insert
  refine local_bind (local_rawInsert fuel this key value h) (fun _ _ => ?_)
  refine local_bind (local_updateHeight h) (fun _ _ => ?_)
  exact local_updateParrentsLocally h

theorem local_getMaxNode {P : Addr → Prop} (fuel : Nat) :
    ∀ this, P this → Local P (getMaxNode fuel this) P := by
  induction fuel with
  | zero => intro this _; exact local_throw _
  | succ n ih =>
    intro this h
    rw [getMaxNode]
    refine local_bind (local_loadIn h) (fun o ⟨_, _⟩ => ?_)
    split
    · exact ih _ (by solve_by_elim)
    · exact local_pure h

theorem local_replacePair {P : Addr → Prop} {this : Addr} (p : Option (Key × Value))
    (h : P this) : Local P (replacePair this p) (fun _ => True) := by
  unfold replacePair
  refine local_bind (local_loadIn h) (fun o ⟨_, _⟩ => ?_)
  split
  · exact local_throw _
  · exact local_save h ⟨by assumption, by assumption⟩

theorem local_rawDeleteSelf {P : Addr → Prop} (again : Addr → Key → M Unit)
    (hagain : ∀ a k, P a → Local P (again a k) (fun _ => True)) (fuel : Nat) {this : Addr}
    (h : P this) : Local P (rawDeleteSelf again fuel this) (fun _ => True) := by
  unfold rawDeleteSelf
  refine local_bind (local_loadIn h) (fun o ⟨_, _⟩ => ?_)
  dsimp only
  repeat' first
    | exact local_updateParrentsLocally h
    | refine local_bind (local_clear fuel _ (by assumption)) (fun _ _ => ?_)
    | refine local_bind (local_copyNew fuel _) (fun _ _ => ?_)
    | refine local_bind (local_assign fuel _ h) (fun _ _ => ?_)
    | refine local_bind (local_free (by assumption)) (fun _ _ => ?_)
    | refine local_bind (local_getMaxNode fuel _ (by solve_by_elim)) (fun _ _ => ?_)
    | refine local_bind (local_loadIn (by assumption)) (fun _ ⟨_, _⟩ => ?_)
    | refine local_bind (local_keyOf _) (fun _ _ => ?_)
    | refine local_bind (hagain _ _ h) (fun _ _ => ?_)
    | refine local_bind (local_replacePair _ h) (fun _ _ => ?_)
    | split

theorem local_rawDelete {P : Addr → Prop} (fuel : Nat) :
    ∀ this key, P this → Local P (rawDelete fuel this key) (fun _ => True) := by
  induction fuel with
  | zero => intro this _ _; exact local_throw _
  | succ n ih =>
    intro this key h
    rw [rawDelete]
    refine local_bind (local_loadIn h) (fun o ⟨_, _⟩ => ?_)
    split
    · exact local_unit
    · refine local_bind (local_keyOf _) (fun _ _ => ?_)
      dsimp only
      repeat' first
        | exact local_updateParrentsLocally h
        | exact local_unit
        | refine local_bind local_unit (fun _ _ => ?_)
        | refine local_bind (local_rawDeleteSelf _ (fun a k ha => ih a k ha) n h) (fun _ _ => ?_)
        | refine local_bind (local_deref (by assumption)) (fun _ _ => ?_)
        | refine local_bind (ih _ _ (by assumption)) (fun _ _ => ?_)
        | refine local_bind (local_loadIn (by assumption)) (fun _ ⟨_, _⟩ => ?_)
        | refine local_bind (local_save h
            ⟨by first | assumption | (intro _ e; cases e),
              by first | assumption | (intro _ e; cases e)⟩)
            (fun _ _ => ?_)
        | refine local_bind (local_clear n _ (by assumption)) (fun _ _ => ?_)
        | refine local_bind (local_free (by assumption)) (fun _ _ => ?_)
        | refine local_bind (local_updateHeight h) (fun _ _ => ?_)
        | refine local_bind (local_rebalanceSelf n _ h) (fun _ _ => ?_)
        | split

theorem local_erase {P : Addr → Prop} (fuel : Nat) {this : Addr} (key : Key) (h : P this) :
    Local P (erase fuel this key) (fun _ => True) := by
  unfold erase
  refine local_bind (local_rawDelete fuel this key h) (fun _ _ => ?_)
  exact local_updateHeight h

theorem copyNew_succ (fuel : Nat) (rhs : Addr) :
    copyNew (fuel + 1) rhs = (do
      let src ← load rhs
      let this ← alloc (baseOf src)
      linkCopies fuel this src
      pure this) := by
  rw [copyNew]
  congr 1; funext src
  congr 1; funext this
  unfold linkCopies
  cases src.left <;> cases src.right <;> simp only [bind_assoc, pure_bind]

theorem assign_eq (fuel : Nat) (this rhs : Addr) :
    assign fuel this rhs = (do
      clear fuel this
      let src ← load rhs
      let o ← load this
      save this { o with pair := src.pair, height := src.height, isEmpty := src.isEmpty }
      linkCopies fuel this src) := by
  rfl

theorem coreAt_of_eq {s s1 : Store} {i : Addr} (h : s1.get? i = s.get? i) :
    coreAt s1 i = coreAt s i := by
  rw [coreAt, coreAt, h]

/-- Two stores that agree at an address up to the parent link hold there
objects with the same pair, height, flag and children. -/
theorem coreAt_some {s s1 : Store} {i : Addr} {o : Obj} (h : coreAt s1 i = coreAt s i)
    (ho : s.get? i = some (some o)) :
    ∃ o1, s1.get? i = some (some o1) ∧ o1.pair = o.pair ∧ o1.height = o.height ∧
      o1.isEmpty = o.isEmpty ∧ o1.left = o.left ∧ o1.right = o.right := by
  rw [coreAt, coreAt, ho] at h
  rcases h1 : s1.get? i with _ | _ | o1
  · rw [h1] at h; cases h
  · rw [h1] at h; simp at h
  · rw [h1] at h
    simp only [Option.map_some', Option.some.injEq, unlink, Obj.mk.injEq, and_true] at h
    exact ⟨o1, rfl, h.1, h.2.1, h.2.2.1, h.2.2.2.1, h.2.2.2.2⟩

theorem coreAt_not_some {s s1 : Store} {i : Addr} (h : coreAt s1 i = coreAt s i)
    (ho : ∀ o, s.get? i ≠ some (some o)) (o1 : Obj) : s1.get? i ≠ some (some o1) := by
  intro h1
  rw [coreAt, coreAt, h1] at h
  rcases h0 : s.get? i with _ | _ | o
  · rw [h0] at h; cases h
  · rw [h0] at h; simp at h
  · exact ho o h0

theorem toTree_succ_some (n : Nat) (s : Store) (a : Addr) :
    toTree (n + 1) s (some a) =
      match s.get? a with
      | some (some o) =>
          (match o.pair with
            | some p => Tree.node (toTree n s o.left) p.1 p.2 o.height (toTree n s o.right)
            | none => Tree.null)
      | _ => Tree.null := rfl

/-- The ownership tree read off the store below a pointer into a closed region
depends only on the objects of that region, parent links left out. -/
theorem toTree_congr {R : Addr → Prop} {s s1 : Store} (hcl : Closed R s)
    (hag : ∀ i, R i → coreAt s1 i = coreAt s i) :
    ∀ n p, (∀ a, p = some a → R a) → toTree n s1 p = toTree n s p := by
  intro n
  induction n with
  | zero => intro p _; rfl
  | succ n ih =>
    intro p hp
    cases p with
    | none => rfl
    | some a =>
      have ha := hp a rfl
      rw [toTree_succ_some, toTree_succ_some]
      by_cases hs : ∃ o, s.get? a = some (some o)
      · obtain ⟨o, ho⟩ := hs
        obtain ⟨o1, h1, e1, e2, -, e4, e5⟩ := coreAt_some (hag a ha) ho
        have hc := hcl a o ha ho
        rw [h1, ho]
        dsimp only
        rw [e1, e2, e4, e5, ih o.left hc.left, ih o.right hc.right]
      · have hn : ∀ o, s.get? a ≠ some (some o) := fun o h => hs ⟨o, h⟩
        have hn1 := coreAt_not_some (hag a ha) hn
        have t1 : ∀ (x : Option (Option Obj)), (∀ o, x ≠ some (some o)) →
            (match x with
              | some (some o) =>
                  (match o.pair with
                    | some p => Tree.node (toTree n s1 o.left) p.1 p.2 o.height
                        (toTree n s1 o.right)
                    | none => Tree.null)
              | _ => Tree.null) = Tree.null := by
          intro x hx
          rcases x with _ | _ | o
          · rfl
          · rfl
          · exact absurd rfl (hx o)
        have t2 : ∀ (x : Option (Option Obj)), (∀ o, x ≠ some (some o)) →
            (match x with
              | some (some o) =>
                  (match o.pair with
                    | some p => Tree.node (toTree n s o.left) p.1 p.2 o.height
                        (toTree n s o.right)
                    | none => Tree.null)
              | _ => Tree.null) = Tree.null := by
          intro x hx
          rcases x with _ | _ | o
          · rfl
          · rfl
          · exact absurd rfl (hx o)
        rw [t1 _ hn1, t2 _ hn]

theorem childLinked_congr {s s1 : Store} (this : Addr) (child : Option Addr)
    (h : ∀ c, child = some c → s1.get? c = s.get? c) :
    childLinked s1 this child = childLinked s this child := by
  cases child with
  | none => rfl
  | some c => simp only [childLinked, h c rfl]

theorem parentsConsistent_succ (n : Nat) (s : Store) (this : Addr) :
    parentsConsistent (n + 1) s this =
      match s.get? this with
      | some (some o) =>
          childLinked s this o.left && childLinked s this o.right &&
          (match o.left with
            | some l => parentsConsistent n s l
            | none => true) &&
          (match o.right with
            | some r => parentsConsistent n s r
            | none => true)
      | _ => false := rfl

/-- Parent consistency below an object of a closed region depends only on the
objects of that region. -/
theorem parentsConsistent_congr {R : Addr → Prop} {s s1 : Store} (hcl : Closed R s)
    (hag : ∀ i, R i → s1.get? i = s.get? i) :
    ∀ n a, R a → parentsConsistent n s1 a = parentsConsistent n s a := by
  intro n
  induction n with
  | zero => intro a _; rfl
  | succ n ih =>
    intro a ha
    rw [parentsConsistent_succ, parentsConsistent_succ, hag a ha]
    rcases hs : s.get? a with _ | _ | o
    · rfl
    · rfl
    · have hc := hcl a o ha hs
      dsimp only
      rw [childLinked_congr a o.left (fun c e => hag c (hc.left c e)),
        childLinked_congr a o.right (fun c e => hag c (hc.right c e))]
      cases hl : o.left <;> cases hr : o.right <;> dsimp only
      · rw [ih _ (hc.right _ hr)]
      · rw [ih _ (hc.left _ hl)]
      · rw [ih _ (hc.left _ hl), ih _ (hc.right _ hr)]

/-- Parent consistency below an object does not depend on the parent link of
that object, when its children lie in a closed region that does not hold it. -/
theorem parentsConsistent_root {R : Addr → Prop} {s s1 : Store} (hcl : Closed R s)
    (hag : ∀ i, R i → s1.get? i = s.get? i) (a : Addr) (o : Obj)
    (ho : s.get? a = some (some o)) (hc : ChildrenIn R o) (hcore : coreAt s1 a = coreAt s a)
    (n : Nat) : parentsConsistent n s1 a = parentsConsistent n s a := by
  cases n with
  | zero => rfl
  | succ n =>
    obtain ⟨o1, h1, -, -, -, e4, e5⟩ := coreAt_some hcore ho
    rw [parentsConsistent_succ, parentsConsistent_succ, h1, ho]
    dsimp only
    rw [e4, e5, childLinked_congr a o.left (fun c e => hag c (hc.left c e)),
      childLinked_congr a o.right (fun c e => hag c (hc.right c e))]
    cases hl : o.left <;> cases hr : o.right <;> dsimp only
    · rw [parentsConsistent_congr hcl hag n _ (hc.right _ hr)]
    · rw [parentsConsistent_congr hcl hag n _ (hc.left _ hl)]
    · rw [parentsConsistent_congr hcl hag n _ (hc.left _ hl),
        parentsConsistent_congr hcl hag n _ (hc.right _ hr)]

/-- Writing the parent link of one object. -/
theorem setParrent_spec (s : Store) (a : Addr) (c : Obj) (p : Option Addr)
    (hc : s.get? a = some (some c)) :
    (s.set a (some { c with parrent := p })).length = s.length ∧
      (∀ i, coreAt (s.set a (some { c with parrent := p })) i = coreAt s i) ∧
      (∀ i, i ≠ a → (s.set a (some { c with parrent := p })).get? i = s.get? i) ∧
      (s.set a (some { c with parrent := p })).get? a = some (some { c with parrent := p }) := by
  have hlt := lt_of_get? hc
  refine ⟨List.length_set _ _ _, ?_, fun i hi => get?_set_ne _ _ _ _ (Ne.symm hi),
    get?_set_self _ _ _ hlt⟩
  intro i
  by_cases e : i = a
  · subst e
    rw [coreAt, coreAt, get?_set_self _ _ _ hlt, hc]
    rfl
  · rw [coreAt, coreAt, get?_set_ne _ _ _ _ (Ne.symm e)]

/-- The member `updateParrentsLocally()` writes the parent links of the two
children and nothing else. -/
theorem updateParrentsLocally_spec {this : Addr} {s s1 : Store}
    (h : updateParrentsLocally this s = .ok ((), s1)) :
    ∃ o, s.get? this = some (some o) ∧ s1.length = s.length ∧
      (∀ i, coreAt s1 i = coreAt s i) ∧
      (∀ i, o.left ≠ some i → o.right ≠ some i → s1.get? i = s.get? i) ∧
      childLinked s1 this o.left = true ∧ childLinked s1 this o.right = true := by
  unfold updateParrentsLocally at h
  obtain ⟨o, s0, h0, k⟩ := (bind_ok _ _ _ _ _).mp h
  obtain ⟨rfl, ho⟩ := load_ok.mp h0
  refine ⟨o, ho, ?_⟩
  dsimp only at k
  cases hl : o.left with
  | none =>
    rw [hl] at k
    dsimp only at k
    obtain ⟨u, s2, h2, k1⟩ := (bind_ok _ _ _ _ _).mp k
    obtain ⟨-, rfl⟩ := (pure_ok _ _ _ _).mp h2
    cases hr : o.right with
    | none =>
      rw [hr] at k1
      obtain ⟨-, rfl⟩ := (pure_ok _ _ _ _).mp k1
      exact ⟨rfl, fun _ => rfl, fun _ _ _ => rfl, rfl, rfl⟩
    | some r =>
      rw [hr] at k1
      dsimp only at k1
      obtain ⟨c, s3, h3, k2⟩ := (bind_ok _ _ _ _ _).mp k1
      obtain ⟨rfl, hc⟩ := load_ok.mp h3
      obtain ⟨rfl, -⟩ := save_ok k2
      obtain ⟨e1, e2, e3, e4⟩ := setParrent_spec _ r c (some this) hc
      refine ⟨e1, e2, fun i _ hi => e3 i (fun e => hi (by rw [e])), rfl, ?_⟩
      simp only [childLinked, e4, decide_True]
  | some l =>
    rw [hl] at k
    dsimp only at k
    obtain ⟨c, s2, h2, k1⟩ := (bind_ok _ _ _ _ _).mp k
    obtain ⟨rfl, hc⟩ := load_ok.mp h2
    obtain ⟨u, s3, h3, k2⟩ := (bind_ok _ _ _ _ _).mp k1
    obtain ⟨rfl, -⟩ := save_ok h3
    obtain ⟨e1, e2, e3, e4⟩ := setParrent_spec _ l c (some this) hc
    cases hr : o.right with
    | none =>
      rw [hr] at k2
      obtain ⟨-, rfl⟩ := (pure_ok _ _ _ _).mp k2
      refine ⟨e1, e2, fun i hi _ => e3 i (fun e => hi (by rw [e])), ?_, rfl⟩
      simp only [childLinked, e4, decide_True]
    | some r =>
      rw [hr] at k2
      dsimp only at k2
      obtain ⟨c1, s4, h4, k3⟩ := (bind_ok _ _ _ _ _).mp k2
      obtain ⟨rfl, hc1⟩ := load_ok.mp h4
      obtain ⟨rfl, -⟩ := save_ok k3
      obtain ⟨f1, f2, f3, f4⟩ := setParrent_spec _ r c1 (some this) hc1
      refine ⟨f1.trans e1, fun i => (f2 i).trans (e2 i), ?_, ?_, ?_⟩
      · intro i hi1 hi2
        rw [f3 i (fun e => hi2 (by rw [e])), e3 i (fun e => hi1 (by rw [e]))]
      · by_cases e : l = r
        · subst e
          simp only [childLinked, f4, decide_True]
        · simp only [childLinked, f3 l e, e4, decide_True]
      · simp only [childLinked, f4, decide_True]

theorem linkCopies_eq (fuel : Nat) (this : Addr) (src : Obj) :
    linkCopies fuel this src = (do
      linkChild fuel this src.left (fun o c => { o with left := some c })
      linkChild fuel this src.right (fun o c => { o with right := some c })
      updateParrentsLocally this) := by
  unfold linkCopies linkChild
  cases src.left <;> cases src.right <;> simp only [bind_assoc, pure_bind]

theorem closed_congr {R : Addr → Prop} {s s1 : Store} (hcl : Closed R s)
    (hag : ∀ i, R i → s1.get? i = s.get? i) : Closed R s1 := by
  intro i o hi ho
  rw [hag i hi] at ho
  exact hcl i o hi ho

theorem childrenIn_mono {P Q : Addr → Prop} {o : Obj} (h : ChildrenIn P o)
    (hpq : ∀ i, P i → Q i) : ChildrenIn Q o :=
  ⟨fun l e => hpq l (h.left l e), fun r e => hpq r (h.right r e)⟩

/-- One child is copied and hung below `this`. -/
theorem linkChild_spec (fuel : Nat)
    (ih : ∀ (S : Addr → Prop) rhs s c s1, Closed S s → (∀ i : Nat, S i → i < s.length) → S rhs →
      copyNew fuel rhs s = .ok (c, s1) → CopyPost fuel rhs s c s1)
    (S : Addr → Prop) (s s3 : Store) (this : Addr) (o : Obj) (child : Option Addr)
    (hang : Obj → Addr → Obj)
    (hcl : Closed S s) (hlt : ∀ i : Nat, S i → i < s.length)
    (ho : s.get? this = some (some o)) (hch : ∀ l, child = some l → S l)
    (h : linkChild fuel this child hang s = .ok ((), s3)) :
    s.length ≤ s3.length ∧
      (∀ i, i < s.length → i ≠ this → s3.get? i = s.get? i) ∧
      (child = none → s3.get? this = some (some o)) ∧
      (∀ l, child = some l → s3.get? this = some (some (hang o s.length))) ∧
      (∀ i o1, s.length ≤ i → s3.get? i = some (some o1) →
        ChildrenIn (fun j => i < j ∧ j < s3.length) o1) ∧
      (∀ l, child = some l → s.length < s3.length ∧
        (∀ n, toTree n s3 (some s.length) = toTree n s (some l)) ∧
        parentsConsistent fuel s3 s.length = true ∧
        ∃ oc, s3.get? s.length = some (some oc)) := by
  have hthis : this < s.length := lt_of_get? ho
  cases child with
  | none =>
    obtain ⟨-, e⟩ := (pure_ok _ _ _ _).mp h
    subst e
    refine ⟨le_refl _, fun _ _ _ => rfl, fun _ => ho, fun l e => (by cases e), ?_,
      fun l e => by cases e⟩
    intro i o1 hi h1
    have hi1 := lt_of_get? h1
    omega
  | some l =>
    obtain ⟨c, s2x, h1, k1⟩ := (bind_ok _ _ _ _ _).mp h
    obtain ⟨o2, s2, h2, k2⟩ := (bind_ok _ _ _ _ _).mp k1
    obtain ⟨e2, ho2⟩ := load_ok.mp h2
    subst e2
    obtain ⟨e3, hlt2⟩ := save_ok k2
    subst e3
    obtain ⟨hc, hc2, hold, hnew, htree, hpc, -, oc, -, hoc, -⟩ :=
      ih S l s c s2 hcl hlt (hch l rfl) h1
    have hlen : (s2.set this (some (hang o2 c))).length = s2.length := List.length_set _ _ _
    have hle : s.length ≤ s2.length := by omega
    have eo : o2 = o := by
      rw [hold this hthis, ho] at ho2
      injection ho2 with ho2; injection ho2 with ho2
      exact ho2.symm
    subst eo
    have hne : ∀ i, i ≠ this → (s2.set this (some (hang o2 c))).get? i = s2.get? i :=
      fun i hi => get?_set_ne _ _ _ _ (Ne.symm hi)
    have hR : Closed (fun j => s.length ≤ j ∧ j < s2.length) s2 := by
      intro i o1 hi h1
      exact childrenIn_mono (hnew i o1 hi.1 h1) (fun j hj => ⟨by omega, hj.2⟩)
    have hag : ∀ i, (s.length ≤ i ∧ i < s2.length) →
        (s2.set this (some (hang o2 c))).get? i = s2.get? i :=
      fun i hi => hne i (Nat.ne_of_gt (lt_of_lt_of_le hthis hi.1))
    refine ⟨by omega, fun i hi hi2 => (hne i hi2).trans (hold i hi), fun e => (by cases e),
      ?_, ?_, ?_⟩
    · intro _ _
      rw [get?_set_self _ _ _ hlt2, hc]
    · intro i o1 hi h1
      rw [hne i (Nat.ne_of_gt (lt_of_lt_of_le hthis hi))] at h1
      rw [hlen]
      exact hnew i o1 hi h1
    · intro l1 e
      injection e with e
      subst e
      refine ⟨by omega, fun n => ?_, ?_, oc, ?_⟩
      · rw [← hc, ← htree n]
        exact toTree_congr hR (fun i hi => coreAt_of_eq (hag i hi)) n (some c)
          (fun a e => by injection e with e; subst e; exact ⟨by omega, hc2⟩)
      · rw [← hc, ← hpc]
        exact parentsConsistent_congr hR hag fuel c ⟨by omega, hc2⟩
      · rw [← hc, hag c ⟨by omega, hc2⟩]
        exact hoc

theorem toTree_none (n : Nat) (s : Store) : toTree n s none = Tree.null := by
  cases n <;> rfl

theorem childrenIn_of_eq {P : Addr → Prop} {o o1 : Obj} (hl : o1.left = o.left)
    (hr : o1.right = o.right) (h : ChildrenIn P o1) : ChildrenIn P o :=
  ⟨fun l e => h.left l (hl.trans e), fun r e => h.right r (hr.trans e)⟩

/-- The common end of the copy constructor and of `operator=`, run on an
object `this` without children: both children of `rhs` are copied into new
storage and hung below `this`. -/
theorem linkCopies_spec (fuel : Nat)
    (ih : ∀ (S : Addr → Prop) rhs s c s1, Closed S s → (∀ i : Nat, S i → i < s.length) → S rhs →
      copyNew fuel rhs s = .ok (c, s1) → CopyPost fuel rhs s c s1)
    (S : Addr → Prop) (sa sf : Store) (this : Addr) (src b : Obj)
    (hcl : Closed S sa) (hlt : ∀ i : Nat, S i → i < sa.length) (hthis : ¬ S this)
    (hb : sa.get? this = some (some b)) (hbl : b.left = none) (hbr : b.right = none)
    (hsrc : ChildrenIn S src) (h : linkCopies fuel this src sa = .ok ((), sf)) :
    sa.length ≤ sf.length ∧
      (∀ i, i < sa.length → i ≠ this → sf.get? i = sa.get? i) ∧
      (∀ i o, sa.length ≤ i → sf.get? i = some (some o) →
        ChildrenIn (fun j => i < j ∧ j < sf.length) o) ∧
      ∃ o1, sf.get? this = some (some o1) ∧ o1.pair = b.pair ∧ o1.height = b.height ∧
        o1.isEmpty = b.isEmpty ∧ o1.parrent = b.parrent ∧
        ChildrenIn (fun j => sa.length ≤ j ∧ j < sf.length) o1 ∧
        (∀ n, toTree n sf o1.left = toTree n sa src.left) ∧
        (∀ n, toTree n sf o1.right = toTree n sa src.right) ∧
        childLinked sf this o1.left = true ∧ childLinked sf this o1.right = true ∧
        (∀ l, o1.left = some l → parentsConsistent fuel sf l = true) ∧
        (∀ r, o1.right = some r → parentsConsistent fuel sf r = true) := by
  have hthis_lt : this < sa.length := lt_of_get? hb
  rw [linkCopies_eq] at h
  obtain ⟨u1, s3, hL, k⟩ := (bind_ok _ _ _ _ _).mp h
  obtain ⟨u2, s5, hR, hU⟩ := (bind_ok _ _ _ _ _).mp k
  -- the left child
  obtain ⟨L1, L2, L3n, L3s, L4, L5⟩ :=
    linkChild_spec fuel ih S sa s3 this b src.left (fun o c => { o with left := some c })
      hcl hlt hb hsrc.left hL
  have hS3 : ∀ i, S i → s3.get? i = sa.get? i :=
    fun i hi => L2 i (hlt i hi) (fun e => hthis (e ▸ hi))
  have hcl3 : Closed S s3 := closed_congr hcl hS3
  have hlt3 : ∀ i : Nat, S i → i < s3.length := fun i hi => lt_of_lt_of_le (hlt i hi) L1
  obtain ⟨o3, ho3, p3, q3, r3, t3, hr3, hl3n, hl3s⟩ : ∃ o3, s3.get? this = some (some o3) ∧
      o3.pair = b.pair ∧ o3.height = b.height ∧ o3.isEmpty = b.isEmpty ∧
      o3.parrent = b.parrent ∧ o3.right = none ∧ (src.left = none → o3.left = none) ∧
      (∀ l, src.left = some l → o3.left = some sa.length) := by
    cases hl : src.left with
    | none => exact ⟨b, L3n hl, rfl, rfl, rfl, rfl, hbr, fun _ => hbl, fun l e => (by cases e)⟩
    | some l =>
      exact ⟨_, L3s l hl, rfl, rfl, rfl, rfl, hbr, fun e => (by cases e), fun _ _ => rfl⟩
  -- the right child
  obtain ⟨R1, R2, R3n, R3s, R4, R5⟩ :=
    linkChild_spec fuel ih S s3 s5 this o3 src.right (fun o c => { o with right := some c })
      hcl3 hlt3 ho3 hsrc.right hR
  obtain ⟨o5, ho5, p5, q5, r5, t5, hl5, hr5n, hr5s⟩ : ∃ o5, s5.get? this = some (some o5) ∧
      o5.pair = b.pair ∧ o5.height = b.height ∧ o5.isEmpty = b.isEmpty ∧
      o5.parrent = b.parrent ∧ o5.left = o3.left ∧ (src.right = none → o5.right = none) ∧
      (∀ r, src.right = some r → o5.right = some s3.length) := by
    cases hr : src.right with
    | none => exact ⟨o3, R3n hr, p3, q3, r3, t3, rfl, fun _ => hr3, fun r e => (by cases e)⟩
    | some r =>
      exact ⟨_, R3s r hr, p3, q3, r3, t3, rfl, fun e => (by cases e), fun _ _ => rfl⟩
  -- the parent links
  obtain ⟨o5a, hU0, ulen, ucore, uexact, ul, ur⟩ := updateParrentsLocally_spec hU
  have e5 : o5a = o5 := by
    rw [ho5] at hU0
    injection hU0 with hU0; injection hU0 with hU0
    exact hU0.symm
  subst e5
  -- where the children of the object are
  have hleft : ∀ c : Nat, o5a.left = some c → src.left ≠ none ∧ c = sa.length ∧ sa.length < s3.length := by
    intro c hc
    rw [hl5] at hc
    cases hl : src.left with
    | none => rw [hl3n hl] at hc; cases hc
    | some l =>
      rw [hl3s l hl] at hc
      injection hc with hc
      exact ⟨fun e => (by cases e), hc.symm, (L5 l hl).1⟩
  have hright : ∀ c : Nat, o5a.right = some c →
      src.right ≠ none ∧ c = s3.length ∧ s3.length < s5.length := by
    intro c hc
    cases hr : src.right with
    | none => rw [hr5n hr] at hc; cases hc
    | some r =>
      rw [hr5s r hr] at hc
      injection hc with hc
      exact ⟨fun e => (by cases e), hc.symm, (R5 r hr).1⟩
  have hfar : ∀ i, i < sa.length → sf.get? i = s5.get? i := by
    intro i hi
    refine uexact i (fun e => ?_) (fun e => ?_)
    · have h1 := (hleft i e).2.1
      omega
    · have h1 := (hright i e).2.1
      omega
  refine ⟨by omega, ?_, ?_, o5a, ?_, p5, q5, r5, t5, ?_, ?_, ?_, ul, ur, ?_, ?_⟩
  · intro i hi hne
    rw [hfar i hi, R2 i (by omega) hne, L2 i hi hne]
  · intro i o hi ho
    obtain ⟨o1, h1, -, -, -, e4, e5⟩ := coreAt_some (ucore i).symm ho
    rw [ulen]
    have hne : i ≠ this := Nat.ne_of_gt (lt_of_lt_of_le hthis_lt hi)
    by_cases hi3 : s3.length ≤ i
    · exact childrenIn_of_eq e4 e5 (R4 i o1 hi3 h1)
    · rw [R2 i (by omega) hne] at h1
      exact childrenIn_of_eq e4 e5
        (childrenIn_mono (L4 i o1 hi h1) (fun j hj => ⟨hj.1, lt_of_lt_of_le hj.2 R1⟩))
  · rw [hfar this hthis_lt]
    exact ho5
  · refine ⟨fun c hc => ?_, fun c hc => ?_⟩
    · obtain ⟨-, e, hlt⟩ := hleft c hc
      have g1 : sa.length ≤ c := by omega
      have g2 : @LT.lt Nat _ c sf.length := by omega
      exact ⟨g1, g2⟩
    · obtain ⟨-, e, hlt⟩ := hright c hc
      have g1 : sa.length ≤ c := by omega
      have g2 : @LT.lt Nat _ c sf.length := by omega
      exact ⟨g1, g2⟩
  · intro n
    cases hl : src.left with
    | none => rw [hl5, hl3n hl, toTree_none, toTree_none]
    | some l =>
      rw [hl5, hl3s l hl, ← (L5 l hl).2.1 n]
      have hRc : Closed (fun j => sa.length ≤ j ∧ j < s3.length) s3 := fun i o1 hi h1 =>
        childrenIn_mono (L4 i o1 hi.1 h1) (fun j hj => ⟨by omega, hj.2⟩)
      refine toTree_congr hRc (fun i hi => ?_) n _
        (fun a e => by injection e with e; subst e; exact ⟨le_refl _, (L5 l hl).1⟩)
      rw [ucore i]
      exact coreAt_of_eq (R2 i hi.2 (Nat.ne_of_gt (lt_of_lt_of_le hthis_lt hi.1)))
  · intro n
    cases hr : src.right with
    | none => rw [hr5n hr, toTree_none, toTree_none]
    | some r =>
      rw [hr5s r hr]
      have hRc : Closed (fun j => s3.length ≤ j ∧ j < s5.length) s5 := fun i o1 hi h1 =>
        childrenIn_mono (R4 i o1 hi.1 h1) (fun j hj => ⟨by omega, hj.2⟩)
      have e1 : toTree n sf (some s3.length) = toTree n s5 (some s3.length) :=
        toTree_congr hRc (fun i _ => ucore i) n _
          (fun a e => by injection e with e; subst e; exact ⟨le_refl _, (R5 r hr).1⟩)
      have e2 : toTree n s3 (some r) = toTree n sa (some r) :=
        toTree_congr hcl (fun i hi => coreAt_of_eq (hS3 i hi)) n _
          (fun a e => by injection e with e; subst e; exact hsrc.right _ hr)
      rw [e1, (R5 r hr).2.1 n, e2]
  · intro c hc
    obtain ⟨hne, e, hlt⟩ := hleft c hc
    subst e
    cases hl : src.left with
    | none => exact absurd hl hne
    | some l =>
      obtain ⟨-, -, hpc, oc, hoc⟩ := L5 l hl
      have hRc : Closed (fun j => sa.length < j ∧ j < s3.length) s3 := fun i o1 hi h1 =>
        childrenIn_mono (L4 i o1 (le_of_lt hi.1) h1) (fun j hj => ⟨by omega, hj.2⟩)
      have hag : ∀ i, (sa.length < i ∧ i < s3.length) → sf.get? i = s3.get? i := by
        intro i hi
        have u1 : sf.get? i = s5.get? i := by
          refine uexact i (fun e => ?_) (fun e => ?_)
          · have h1 := (hleft i e).2.1
            omega
          · have h1 := (hright i e).2.1
            omega
        rw [u1]
        exact R2 i hi.2 (Nat.ne_of_gt (lt_trans hthis_lt hi.1))
      have hcore : coreAt sf sa.length = coreAt s3 sa.length := by
        rw [ucore]
        exact coreAt_of_eq (R2 _ hlt (Nat.ne_of_gt hthis_lt))
      rw [parentsConsistent_root hRc hag sa.length oc hoc (L4 _ oc (le_refl _) hoc) hcore fuel]
      exact hpc
  · intro c hc
    obtain ⟨hne, e, hlt⟩ := hright c hc
    subst e
    cases hr : src.right with
    | none => exact absurd hr hne
    | some r =>
      obtain ⟨-, -, hpc, oc, hoc⟩ := R5 r hr
      have hRc : Closed (fun j => s3.length < j ∧ j < s5.length) s5 := fun i o1 hi h1 =>
        childrenIn_mono (R4 i o1 (le_of_lt hi.1) h1) (fun j hj => ⟨by omega, hj.2⟩)
      have hag : ∀ i, (s3.length < i ∧ i < s5.length) → sf.get? i = s5.get? i := by
        intro i hi
        refine uexact i (fun e => ?_) (fun e => ?_)
        · have h1 := (hleft i e).2
          omega
        · have h1 := (hright i e).2.1
          omega
      rw [parentsConsistent_root hRc hag s3.length oc hoc (R4 _ oc (le_refl _) hoc) (ucore _)
        fuel]
      exact hpc

theorem get?_append_new (s : Store) (x : Option Obj) :
    (s ++ [x]).get? s.length = some x := by
  rw [get?_append_right _ _ _ (le_refl _), Nat.sub_self]
  rfl

/-- The copy constructor, run on new storage, for a map whose objects lie in a
closed region `S` of the store. -/
theorem copyNew_spec (fuel : Nat) :
    ∀ (S : Addr → Prop) rhs s c s1, Closed S s → (∀ i : Nat, S i → i < s.length) → S rhs →
      copyNew fuel rhs s = .ok (c, s1) → CopyPost fuel rhs s c s1 := by
  induction fuel with
  | zero => intro S rhs s c s1 _ _ _ h; cases h
  | succ n ih =>
    intro S rhs s c s1 hcl hlt hrhs h
    rw [copyNew_succ] at h
    obtain ⟨src, s0, h0, k0⟩ := (bind_ok _ _ _ _ _).mp h
    obtain ⟨e0, hsrc0⟩ := load_ok.mp h0
    subst e0
    obtain ⟨this, sa, ha, k1⟩ := (bind_ok _ _ _ _ _).mp k0
    obtain ⟨ethis, esa⟩ := alloc_ok ha
    obtain ⟨u, sf, hlk, k2⟩ := (bind_ok _ _ _ _ _).mp k1
    obtain ⟨ec, es1⟩ := (pure_ok _ _ _ _).mp k2
    subst es1
    subst ec
    have hsalen : sa.length = s0.length + 1 := by rw [esa]; simp
    have hSa : ∀ i, S i → sa.get? i = s0.get? i := by
      intro i hi
      rw [esa]
      exact get?_append_left _ _ _ (hlt i hi)
    have hthisS : ¬ S this := by
      intro hS
      have h1 := hlt this hS
      omega
    have hb : sa.get? this = some (some (baseOf src)) := by
      rw [esa, ethis]
      exact get?_append_new _ _
    have hsrc : ChildrenIn S src := hcl rhs src hrhs hsrc0
    obtain ⟨A1, A2, A3, o1, h1, p1, q1, r1, t1, hch, tl, tr, cl, cr, pl, pr⟩ :=
      linkCopies_spec n ih S sa sf this src (baseOf src) (closed_congr hcl hSa)
        (fun i hi => by have h1 := hlt i hi; omega) hthisS hb rfl rfl hsrc hlk
    have hold : ∀ i, i < s0.length → sf.get? i = s0.get? i := by
      intro i hi
      rw [A2 i (by omega) (by omega), esa]
      exact get?_append_left _ _ _ hi
    refine ⟨ethis, by omega, hold, ?_, ?_, ?_, src, o1, hsrc0, h1, p1, q1, r1, t1⟩
    · intro i o hi ho
      by_cases e : i = this
      · subst e
        rw [h1] at ho
        injection ho with ho; injection ho with ho
        subst ho
        exact childrenIn_mono hch (fun j hj => ⟨by omega, hj.2⟩)
      · exact A3 i o (by omega) ho
    · intro m
      cases m with
      | zero => rfl
      | succ m =>
        rw [toTree_succ_some, toTree_succ_some, h1, hsrc0]
        dsimp only
        have el : toTree m sf o1.left = toTree m s0 src.left := by
          rw [tl m]
          exact toTree_congr hcl (fun i hi => coreAt_of_eq (hSa i hi)) m _ hsrc.left
        have er : toTree m sf o1.right = toTree m s0 src.right := by
          rw [tr m]
          exact toTree_congr hcl (fun i hi => coreAt_of_eq (hSa i hi)) m _ hsrc.right
        rw [el, er, p1, q1]
        rfl
    · rw [parentsConsistent_succ, h1]
      dsimp only
      rw [cl, cr]
      cases hl : o1.left <;> cases hr : o1.right <;> dsimp only
      · rfl
      · rw [pr _ hr]; rfl
      · rw [pl _ hl]; rfl
      · rw [pl _ hl, pr _ hr]; rfl

/-- After `clear()` the object is the empty object. -/
theorem clear_root (fuel : Nat) (this : Addr) (s sc : Store)
    (h : clear fuel this s = .ok ((), sc)) : sc.get? this = some (some emptyObj) := by
  cases fuel with
  | zero => cases h
  | succ n =>
    rw [clear] at h
    obtain ⟨o, s0, h0, k0⟩ := (bind_ok _ _ _ _ _).mp h
    have fin : ∀ (sx : Store), save this emptyObj sx = .ok ((), sc) →
        sc.get? this = some (some emptyObj) := by
      intro sx hx
      obtain ⟨e, hlt⟩ := save_ok hx
      rw [e]
      exact get?_set_self _ _ _ hlt
    dsimp only at k0
    cases hl : o.left <;> cases hr : o.right <;> rw [hl, hr] at k0 <;> dsimp only at k0
    · obtain ⟨_, _, _, k1⟩ := (bind_ok _ _ _ _ _).mp k0
      obtain ⟨_, _, _, k2⟩ := (bind_ok _ _ _ _ _).mp k1
      exact fin _ k2
    · obtain ⟨_, _, _, k1⟩ := (bind_ok _ _ _ _ _).mp k0
      obtain ⟨_, _, _, k2⟩ := (bind_ok _ _ _ _ _).mp k1
      obtain ⟨_, _, _, k3⟩ := (bind_ok _ _ _ _ _).mp k2
      exact fin _ k3
    · obtain ⟨_, _, _, k1⟩ := (bind_ok _ _ _ _ _).mp k0
      obtain ⟨_, _, _, k2⟩ := (bind_ok _ _ _ _ _).mp k1
      obtain ⟨_, _, _, k3⟩ := (bind_ok _ _ _ _ _).mp k2
      exact fin _ k3
    · obtain ⟨_, _, _, k1⟩ := (bind_ok _ _ _ _ _).mp k0
      obtain ⟨_, _, _, k2⟩ := (bind_ok _ _ _ _ _).mp k1
      obtain ⟨_, _, _, k3⟩ := (bind_ok _ _ _ _ _).mp k2
      obtain ⟨_, _, _, k4⟩ := (bind_ok _ _ _ _ _).mp k3
      exact fin _ k4

theorem good_of_closed {P : Addr → Prop} {s : Store} (hfresh : ∀ i : Nat, s.length ≤ i → P i)
    (hcl : Closed P s) : Good P s :=
  ⟨hfresh, hcl⟩

/-- The assignment `operator=`, for a source map whose objects lie in a closed
region `S` of the store and a target object outside of it, the rest of the store
being closed as well. -/
theorem assign_spec (fuel : Nat) (S : Addr → Prop) (this rhs : Addr) (s s1 : Store)
    (hcl : Closed S s) (hcl1 : Closed (fun i => ¬ S i) s)
    (hlt : ∀ i : Nat, S i → i < s.length) (hrhs : S rhs) (hthis : ¬ S this)
    (h : assign fuel this rhs s = .ok ((), s1)) :
    (∀ n, toTree n s1 (some this) = toTree n s (some rhs)) ∧
      parentsConsistent (fuel + 1) s1 this = true ∧
      ∃ o oc, s.get? rhs = some (some o) ∧ s1.get? this = some (some oc) ∧
        oc.pair = o.pair ∧ oc.height = o.height ∧ oc.isEmpty = o.isEmpty ∧
        oc.parrent = none := by
  rw [assign_eq] at h
  obtain ⟨u0, sc, hclr, k0⟩ := (bind_ok _ _ _ _ _).mp h
  obtain ⟨src, sc1, h1, k1⟩ := (bind_ok _ _ _ _ _).mp k0
  obtain ⟨e1, hsrc1⟩ := load_ok.mp h1
  subst e1
  obtain ⟨o, sc2, h2, k2⟩ := (bind_ok _ _ _ _ _).mp k1
  obtain ⟨e2, ho⟩ := load_ok.mp h2
  subst e2
  obtain ⟨u1, sa, h3, hlk⟩ := (bind_ok _ _ _ _ _).mp k2
  obtain ⟨esa, hthis_lt⟩ := save_ok h3
  have hgood : Good (fun i => ¬ S i) s :=
    good_of_closed (fun i hi hS => absurd (hlt i hS) (not_lt.mpr hi)) hcl1
  obtain ⟨-, hlen, hframe, -⟩ := local_clear fuel this hthis s () sc2 hgood hclr
  have hSc : ∀ i, S i → sc2.get? i = s.get? i := fun i hi => hframe i (fun hn => hn hi)
  have eo : o = emptyObj := by
    rw [clear_root fuel this s sc2 hclr] at ho
    injection ho with ho; injection ho with ho
    exact ho.symm
  subst eo
  have hSa : ∀ i, S i → sa.get? i = s.get? i := by
    intro i hi
    rw [esa, get?_set_ne _ _ _ _ (fun (e : this = i) => hthis (e ▸ hi))]
    exact hSc i hi
  have hsrc0 : s.get? rhs = some (some src) := by
    rw [← hSc rhs hrhs]
    exact hsrc1
  have hsrc : ChildrenIn S src := hcl rhs src hrhs hsrc0
  have hb : sa.get? this = some (some (baseOf src)) := by
    rw [esa]
    exact get?_set_self _ _ _ hthis_lt
  have hsalen : sa.length = sc2.length := by rw [esa]; exact List.length_set _ _ _
  obtain ⟨A1, A2, A3, o1, g1, p1, q1, r1, t1, hch, tl, tr, cl, cr, pl, pr⟩ :=
    linkCopies_spec fuel (copyNew_spec fuel) S sa s1 this src (baseOf src)
      (closed_congr hcl hSa) (fun i hi => by have h1 := hlt i hi; omega) hthis hb rfl rfl
      hsrc hlk
  refine ⟨?_, ?_, src, o1, hsrc0, g1, p1, q1, r1, t1⟩
  · intro m
    cases m with
    | zero => rfl
    | succ m =>
      rw [toTree_succ_some, toTree_succ_some, g1, hsrc0]
      dsimp only
      have el : toTree m s1 o1.left = toTree m s src.left := by
        rw [tl m]
        exact toTree_congr hcl (fun i hi => coreAt_of_eq (hSa i hi)) m _ hsrc.left
      have er : toTree m s1 o1.right = toTree m s src.right := by
        rw [tr m]
        exact toTree_congr hcl (fun i hi => coreAt_of_eq (hSa i hi)) m _ hsrc.right
      rw [el, er, p1, q1]
      rfl
  · rw [parentsConsistent_succ, g1]
    dsimp only
    rw [cl, cr]
    cases hl : o1.left <;> cases hr : o1.right <;> dsimp only
    · rfl
    · rw [pr _ hr]; rfl
    · rw [pl _ hl]; rfl
    · rw [pl _ hl, pr _ hr]; rfl

theorem local_applyOp {P : Addr → Prop} (fuel : Nat) {this : Addr} (op : Op) (h : P this) :
    Local P (applyOp fuel this op) (fun _ => True) := by
  cases op with
  | insert key value => exact local_insert fuel key value h
  | erase key => exact local_erase fuel key h

theorem local_applyOps {P : Addr → Prop} (fuel : Nat) {this : Addr} (h : P this) :
    ∀ ops, Local P (applyOps fuel this ops) (fun _ => True) := by
  intro ops
  induction ops with
  | nil => exact local_unit
  | cons op ops ih => exact local_bind (local_applyOp fuel op h) (fun _ _ => ih)

/-- What `separated` says: the region lies in the store, it is closed, and so
is the rest of the store. -/
theorem separated_spec {region : List Addr} {s : Store} (h : separated region s = true) :
    (∀ i : Nat, i ∈ region → i < s.length) ∧ Closed (fun i => i ∈ region) s ∧
      Closed (fun i => ¬ i ∈ region) s := by
  rw [separated, Bool.and_eq_true, List.all_eq_true, List.all_eq_true] at h
  obtain ⟨h1, h2⟩ := h
  have key : ∀ i o, s.get? i = some (some o) →
      (if i ∈ region then pointsInto region o.left && pointsInto region o.right
        else pointsOutOf region o.left && pointsOutOf region o.right) = true := by
    intro i o ho
    have h3 := h2 i (List.mem_range.mpr (lt_of_get? ho))
    rw [ho] at h3
    exact h3
  refine ⟨fun i hi => of_decide_eq_true (h1 i hi), ?_, ?_⟩
  · intro i o hi ho
    have h3 := key i o ho
    rw [if_pos hi, Bool.and_eq_true] at h3
    refine ⟨fun l e => ?_, fun r e => ?_⟩
    · have h4 := h3.1
      rw [e] at h4
      exact of_decide_eq_true h4
    · have h4 := h3.2
      rw [e] at h4
      exact of_decide_eq_true h4
  · intro i o hi ho
    have h3 := key i o ho
    rw [if_neg hi, Bool.and_eq_true] at h3
    refine ⟨fun l e => ?_, fun r e => ?_⟩
    · have h4 := h3.1
      rw [e] at h4
      exact of_decide_eq_true h4
    · have h4 := h3.2
      rw [e] at h4
      exact of_decide_eq_true h4

theorem parentsConsistent_mono (s : Store) :
    ∀ n a, parentsConsistent n s a = true → parentsConsistent (n + 1) s a = true := by
  intro n
  induction n with
  | zero => intro a h; cases h
  | succ n ih =>
    intro a h
    rw [parentsConsistent_succ] at h ⊢
    rcases hs : s.get? a with _ | _ | o
    · rw [hs] at h; cases h
    · rw [hs] at h; cases h
    · rw [hs] at h
      dsimp only at h ⊢
      simp only [Bool.and_eq_true] at h ⊢
      obtain ⟨⟨⟨c1, c2⟩, hl⟩, hr⟩ := h
      refine ⟨⟨⟨c1, c2⟩, ?_⟩, ?_⟩
      · cases e : o.left with
        | none => rfl
        | some l => rw [e] at hl; exact ih l hl
      · cases e : o.right with
        | none => rfl
        | some r => rw [e] at hr; exact ih r hr

theorem objsBelow_none (n : Nat) (s : Store) : objsBelow n s none = some [] := by
  cases n <;> rfl

theorem objsBelow_succ_some (n : Nat) (s : Store) (a : Addr) :
    objsBelow (n + 1) s (some a) =
      match s.get? a with
      | some (some o) =>
          (match objsBelow n s o.left, objsBelow n s o.right with
            | some ls, some rs => some (a :: (ls ++ rs))
            | _, _ => none)
      | _ => none := rfl

/-- How a successful `objsBelow` at an object decomposes. -/
theorem objsBelow_some {n : Nat} {s : Store} {a : Addr} {L : List Addr}
    (h : objsBelow n s (some a) = some L) :
    ∃ m o ls rs, n = m + 1 ∧ s.get? a = some (some o) ∧ objsBelow m s o.left = some ls ∧
      objsBelow m s o.right = some rs ∧ L = a :: (ls ++ rs) := by
  cases n with
  | zero => cases h
  | succ m =>
    rw [objsBelow_succ_some] at h
    rcases hs : s.get? a with _ | _ | o
    · rw [hs] at h; cases h
    · rw [hs] at h; cases h
    · rw [hs] at h
      dsimp only at h
      rcases hl : objsBelow m s o.left with _ | ls
      · rw [hl] at h; cases h
      · rcases hr : objsBelow m s o.right with _ | rs
        · rw [hl, hr] at h; cases h
        · rw [hl, hr] at h
          injection h with h
          exact ⟨m, o, ls, rs, rfl, rfl, hl, hr, h.symm⟩

theorem objsBelow_mem {n : Nat} {s : Store} {p : Option Addr} {L : List Addr}
    (h : objsBelow n s p = some L) : ∀ a, p = some a → a ∈ L := by
  intro a e
  subst e
  obtain ⟨m, o, ls, rs, -, -, -, -, eL⟩ := objsBelow_some h
  rw [eL]
  exact List.mem_cons_self _ _

/-- The objects below a pointer form a region closed under child pointers. -/
theorem objsBelow_closed (s : Store) :
    ∀ n p L, objsBelow n s p = some L → Closed (fun i => i ∈ L) s := by
  intro n
  induction n with
  | zero =>
    intro p L h
    cases p with
    | none => injection h with h; subst h; intro i o hi _; cases hi
    | some a => cases h
  | succ n ih =>
    intro p L h
    cases p with
    | none => injection h with h; subst h; intro i o hi _; cases hi
    | some a =>
      obtain ⟨m, o, ls, rs, em, ho, hl, hr, eL⟩ := objsBelow_some h
      injection em with em
      subst em
      subst eL
      intro i oi hi hoi
      rcases List.mem_cons.mp hi with e | hi
      · subst e
        rw [ho] at hoi
        injection hoi with hoi; injection hoi with hoi
        subst hoi
        exact ⟨fun l e => List.mem_cons_of_mem _
            (List.mem_append_left _ (objsBelow_mem hl l e)),
          fun r e => List.mem_cons_of_mem _ (List.mem_append_right _ (objsBelow_mem hr r e))⟩
      · rcases List.mem_append.mp hi with hi | hi
        · exact childrenIn_mono (ih _ _ hl i oi hi hoi)
            (fun j hj => List.mem_cons_of_mem _ (List.mem_append_left _ hj))
        · exact childrenIn_mono (ih _ _ hr i oi hi hoi)
            (fun j hj => List.mem_cons_of_mem _ (List.mem_append_right _ hj))

/-- The objects below a pointer into a closed region depend only on the
objects of that region. -/
theorem objsBelow_congr {R : Addr → Prop} {s s1 : Store} (hcl : Closed R s)
    (hag : ∀ i, R i → s1.get? i = s.get? i) :
    ∀ n p, (∀ a, p = some a → R a) → objsBelow n s1 p = objsBelow n s p := by
  intro n
  induction n with
  | zero =>
    intro p _
    cases p <;> rfl
  | succ n ih =>
    intro p hp
    cases p with
    | none => rfl
    | some a =>
      have ha := hp a rfl
      rw [objsBelow_succ_some, objsBelow_succ_some, hag a ha]
      rcases hs : s.get? a with _ | _ | o
      · rfl
      · rfl
      · have hc := hcl a o ha hs
        dsimp only
        rw [ih o.left hc.left, ih o.right hc.right]

theorem returns_bind {α β : Type} {m : M α} {f : α → M β} {s s1 s2 : Store} {a : α} {b : β}
    (h1 : m s = .ok (a, s1)) (h2 : f a s1 = .ok (b, s2)) : (m >>= f) s = .ok (b, s2) :=
  (bind_ok _ _ _ _ _).mpr ⟨a, s1, h1, h2⟩

theorem load_returns {a : Addr} {s : Store} {o : Obj} (h : s.get? a = some (some o)) :
    load a s = .ok (o, s) :=
  load_ok.mpr ⟨rfl, h⟩

theorem save_returns {a : Addr} {s : Store} {x : Obj} (o : Obj)
    (h : s.get? a = some (some x)) : save a o s = .ok ((), s.set a (some o)) := by
  unfold save
  rw [h]

theorem free_returns {a : Addr} {s : Store} {x : Obj} (h : s.get? a = some (some x)) :
    free a s = .ok ((), s.set a none) := by
  unfold free
  rw [h]

theorem pure_returns {α : Type} (a : α) (s : Store) : (pure a : M α) s = .ok (a, s) := rfl

theorem alloc_returns (o : Obj) (s : Store) : alloc o s = .ok (s.length, s ++ [some o]) := rfl

theorem alive_set {s : Store} {i : Addr} (a : Addr) (y : Obj)
    (h : ∃ x, s.get? i = some (some x)) :
    ∃ x, (s.set a (some y)).get? i = some (some x) := by
  obtain ⟨x, hx⟩ := h
  by_cases e : a = i
  · subst e
    exact ⟨y, get?_set_self _ _ _ (lt_of_get? hx)⟩
  · exact ⟨x, by rw [get?_set_ne _ _ _ _ e]; exact hx⟩

/-- The member `updateParrentsLocally()` returns when the object and its
children are alive. -/
theorem updateParrentsLocally_returns {this : Addr} {s : Store} {o : Obj}
    (ho : s.get? this = some (some o))
    (hl : ∀ l, o.left = some l → ∃ x, s.get? l = some (some x))
    (hr : ∀ r, o.right = some r → ∃ x, s.get? r = some (some x)) :
    ∃ s1, updateParrentsLocally this s = .ok ((), s1) := by
  unfold updateParrentsLocally
  cases el : o.left with
  | none =>
    cases er : o.right with
    | none =>
      apply Exists.intro
      apply returns_bind (load_returns ho)
      dsimp only
      rw [el, er]
      rfl
    | some r =>
      obtain ⟨x, hx⟩ := hr r er
      apply Exists.intro
      apply returns_bind (load_returns ho)
      dsimp only
      rw [el, er]
      dsimp only
      apply returns_bind (pure_returns () s)
      exact returns_bind (load_returns hx) (save_returns _ hx)
  | some l =>
    obtain ⟨x, hx⟩ := hl l el
    cases er : o.right with
    | none =>
      apply Exists.intro
      apply returns_bind (load_returns ho)
      dsimp only
      rw [el, er]
      dsimp only
      apply returns_bind (load_returns hx)
      apply returns_bind (save_returns _ hx)
      rfl
    | some r =>
      obtain ⟨y, hy⟩ := alive_set l
        { pair := x.pair, height := x.height, isEmpty := x.isEmpty, left := x.left,
          right := x.right, parrent := some this } (hr r er)
      apply Exists.intro
      apply returns_bind (load_returns ho)
      dsimp only
      rw [el, er]
      dsimp only
      apply returns_bind (load_returns hx)
      apply returns_bind (save_returns _ hx)
      exact returns_bind (load_returns hy) (save_returns _ hy)

/-- Copying one child and hanging it below `this` returns when the child's
subtree can be copied. -/
theorem linkChild_returns (fuel : Nat)
    (ih : ∀ (S : Addr → Prop) rhs s c s1, Closed S s → (∀ i : Nat, S i → i < s.length) → S rhs →
      copyNew fuel rhs s = .ok (c, s1) → CopyPost fuel rhs s c s1)
    (ihr : ∀ (S : Addr → Prop) rhs s, Closed S s → (∀ i : Nat, S i → i < s.length) → S rhs →
      (objsBelow fuel s (some rhs)).isSome = true → ∃ c s1, copyNew fuel rhs s = .ok (c, s1))
    (S : Addr → Prop) (s : Store) (this : Addr) (o : Obj) (child : Option Addr)
    (hang : Obj → Addr → Obj)
    (hcl : Closed S s) (hlt : ∀ i : Nat, S i → i < s.length)
    (ho : s.get? this = some (some o)) (hch : ∀ l, child = some l → S l)
    (hwf : (objsBelow fuel s child).isSome = true) :
    ∃ s3, linkChild fuel this child hang s = .ok ((), s3) := by
  cases child with
  | none => exact ⟨s, rfl⟩
  | some l =>
    obtain ⟨c, s2, hcp⟩ := ihr S l s hcl hlt (hch l rfl) hwf
    obtain ⟨-, -, hold, -⟩ := ih S l s c s2 hcl hlt (hch l rfl) hcp
    have h2 : s2.get? this = some (some o) := by
      rw [hold this (lt_of_get? ho)]
      exact ho
    exact ⟨_, returns_bind hcp (returns_bind (load_returns h2) (save_returns _ h2))⟩

/-- The common end of the copy constructor and of `operator=` returns when
the subtrees of both children of `rhs` can be copied. -/
theorem linkCopies_returns (fuel : Nat)
    (ih : ∀ (S : Addr → Prop) rhs s c s1, Closed S s → (∀ i : Nat, S i → i < s.length) → S rhs →
      copyNew fuel rhs s = .ok (c, s1) → CopyPost fuel rhs s c s1)
    (ihr : ∀ (S : Addr → Prop) rhs s, Closed S s → (∀ i : Nat, S i → i < s.length) → S rhs →
      (objsBelow fuel s (some rhs)).isSome = true → ∃ c s1, copyNew fuel rhs s = .ok (c, s1))
    (S : Addr → Prop) (sa : Store) (this : Addr) (src b : Obj)
    (hcl : Closed S sa) (hlt : ∀ i : Nat, S i → i < sa.length) (hthis : ¬ S this)
    (hb : sa.get? this = some (some b)) (hbl : b.left = none) (hbr : b.right = none)
    (hsrc : ChildrenIn S src)
    (hwl : (objsBelow fuel sa src.left).isSome = true)
    (hwr : (objsBelow fuel sa src.right).isSome = true) :
    ∃ sf, linkCopies fuel this src sa = .ok ((), sf) := by
  have hthis_lt : this < sa.length := lt_of_get? hb
  obtain ⟨s3, hL⟩ := linkChild_returns fuel ih ihr S sa this b src.left
    (fun o c => { o with left := some c }) hcl hlt hb hsrc.left hwl
  obtain ⟨L1, L2, L3n, L3s, L4, L5⟩ :=
    linkChild_spec fuel ih S sa s3 this b src.left (fun o c => { o with left := some c })
      hcl hlt hb hsrc.left hL
  have hS3 : ∀ i, S i → s3.get? i = sa.get? i :=
    fun i hi => L2 i (hlt i hi) (fun (e : i = this) => hthis (e ▸ hi))
  have hcl3 : Closed S s3 := closed_congr hcl hS3
  have hlt3 : ∀ i : Nat, S i → i < s3.length := fun i hi => lt_of_lt_of_le (hlt i hi) L1
  have hwr3 : (objsBelow fuel s3 src.right).isSome = true := by
    rw [objsBelow_congr hcl hS3 fuel src.right hsrc.right]
    exact hwr
  obtain ⟨o3, ho3, hr3, hl3⟩ : ∃ o3, s3.get? this = some (some o3) ∧ o3.right = none ∧
      ∀ c, o3.left = some c → ∃ x, s3.get? c = some (some x) := by
    cases hl : src.left with
    | none => exact ⟨b, L3n hl, hbr, fun c e => by rw [hbl] at e; cases e⟩
    | some l =>
      refine ⟨_, L3s l hl, hbr, fun c e => ?_⟩
      injection e with e
      subst e
      exact (L5 l hl).2.2.2
  obtain ⟨s5, hR⟩ := linkChild_returns fuel ih ihr S s3 this o3 src.right
    (fun o c => { o with right := some c }) hcl3 hlt3 ho3 hsrc.right hwr3
  obtain ⟨R1, R2, R3n, R3s, R4, R5⟩ :=
    linkChild_spec fuel ih S s3 s5 this o3 src.right (fun o c => { o with right := some c })
      hcl3 hlt3 ho3 hsrc.right hR
  have hl5 : ∀ c, o3.left = some c → ∃ x, s5.get? c = some (some x) := by
    intro c e
    obtain ⟨x, hx⟩ := hl3 c e
    by_cases ec : c = this
    · subst ec
      cases hr : src.right with
      | none => exact ⟨_, R3n hr⟩
      | some r => exact ⟨_, R3s r hr⟩
    · exact ⟨x, by rw [R2 c (lt_of_get? hx) ec]; exact hx⟩
  obtain ⟨o5, ho5, hl5a, hr5a⟩ : ∃ o5, s5.get? this = some (some o5) ∧
      (∀ c, o5.left = some c → ∃ x, s5.get? c = some (some x)) ∧
      (∀ c, o5.right = some c → ∃ x, s5.get? c = some (some x)) := by
    cases hr : src.right with
    | none => exact ⟨o3, R3n hr, hl5, fun c e => by rw [hr3] at e; cases e⟩
    | some r =>
      refine ⟨_, R3s r hr, hl5, fun c e => ?_⟩
      injection e with e
      subst e
      exact (R5 r hr).2.2.2
  obtain ⟨sf, hU⟩ := updateParrentsLocally_returns ho5 hl5a hr5a
  refine ⟨sf, ?_⟩
  rw [linkCopies_eq]
  exact returns_bind hL (returns_bind hR hU)

/-- The copy constructor returns on every map whose objects are alive and no
deeper than `fuel`. -/
theorem copyNew_returns (fuel : Nat) :
    ∀ (S : Addr → Prop) rhs s, Closed S s → (∀ i : Nat, S i → i < s.length) → S rhs →
      (objsBelow fuel s (some rhs)).isSome = true → ∃ c s1, copyNew fuel rhs s = .ok (c, s1) := by
  induction fuel with
  | zero => intro S rhs s _ _ _ h; cases h
  | succ n ih =>
    intro S rhs s hcl hlt hrhs hwf
    obtain ⟨L, hL⟩ := Option.isSome_iff_exists.mp hwf
    obtain ⟨m, src, ls, rs, em, hsrc0, hl, hr, -⟩ := objsBelow_some hL
    injection em with em
    subst em
    have hsrc : ChildrenIn S src := hcl rhs src hrhs hsrc0
    have hSa : ∀ i, S i → (s ++ [some (baseOf src)]).get? i = s.get? i :=
      fun i hi => get?_append_left _ _ _ (hlt i hi)
    have hthisS : ¬ S s.length := fun hS => absurd (hlt _ hS) (lt_irrefl _)
    obtain ⟨sf, hlk⟩ := linkCopies_returns n (copyNew_spec n) ih S
      (s ++ [some (baseOf src)]) s.length src (baseOf src) (closed_congr hcl hSa)
      (fun i hi => by have h1 := hlt i hi; simp; omega) hthisS (get?_append_new _ _) rfl rfl hsrc
      (by rw [objsBelow_congr hcl hSa n src.left hsrc.left, hl]; rfl)
      (by rw [objsBelow_congr hcl hSa n src.right hsrc.right, hr]; rfl)
    refine ⟨s.length, sf, ?_⟩
    rw [copyNew_succ]
    refine returns_bind (load_returns hsrc0) ?_
    refine returns_bind (alloc_returns _ _) ?_
    exact returns_bind hlk rfl

theorem clear_succ (fuel : Nat) (this : Addr) :
    clear (fuel + 1) this = (do
      let o ← load this
      clearChild fuel o.left
      clearChild fuel o.right
      save this emptyObj) := by
  rw [clear]
  congr 1; funext o
  unfold clearChild
  cases o.left <;> cases o.right <;> simp only [bind_assoc, pure_bind]

theorem objsBelow_mono (s : Store) :
    ∀ n p L, objsBelow n s p = some L → objsBelow (n + 1) s p = some L := by
  intro n
  induction n with
  | zero =>
    intro p L h
    cases p with
    | none => exact h
    | some a => cases h
  | succ n ih =>
    intro p L h
    cases p with
    | none => exact h
    | some a =>
      obtain ⟨m, o, ls, rs, em, ho, hl, hr, eL⟩ := objsBelow_some h
      injection em with em
      subst em
      rw [objsBelow_succ_some, ho]
      dsimp only
      rw [ih _ _ hl, ih _ _ hr, eL]

/-- The objects below a pointer into a closed region lie in that region. -/
theorem objsBelow_subset {R : Addr → Prop} {s : Store} (hcl : Closed R s) :
    ∀ n p L, (∀ a, p = some a → R a) → objsBelow n s p = some L → ∀ i ∈ L, R i := by
  intro n
  induction n with
  | zero =>
    intro p L _ h
    cases p with
    | none => injection h with h; subst h; intro i hi; cases hi
    | some a => cases h
  | succ n ih =>
    intro p L hp h
    cases p with
    | none => injection h with h; subst h; intro i hi; cases hi
    | some a =>
      obtain ⟨m, o, ls, rs, em, ho, hl, hr, eL⟩ := objsBelow_some h
      injection em with em
      subst em
      subst eL
      have hc := hcl a o (hp a rfl) ho
      intro i hi
      rcases List.mem_cons.mp hi with e | hi
      · rw [e]; exact hp a rfl
      · rcases List.mem_append.mp hi with hi | hi
        · exact ih _ _ hc.left hl i hi
        · exact ih _ _ hc.right hr i hi

/-- The destructor returns on a proper tree of objects alive in the store: no
object is reached twice.  It writes to the objects of that tree only. -/
theorem clear_returns (fuel : Nat) :
    ∀ this s L, objsBelow fuel s (some this) = some L → L.Nodup →
      ∃ sc, clear fuel this s = .ok ((), sc) ∧ ∀ i, i ∉ L → sc.get? i = s.get? i := by
  induction fuel with
  | zero => intro this s L h; cases h
  | succ n ih =>
    intro this s L h hnd
    obtain ⟨m, o, ls, rs, em, ho, hl, hr, eL⟩ := objsBelow_some h
    injection em with em
    subst em
    subst eL
    obtain ⟨hthis, hnd2⟩ := List.nodup_cons.mp hnd
    obtain ⟨hndl, hndr, hdis⟩ := List.nodup_append.mp hnd2
    have child : ∀ (s0 : Store) (p : Option Addr) (K : List Addr),
        objsBelow n s0 p = some K → K.Nodup →
        ∃ s1, clearChild n p s0 = .ok ((), s1) ∧ ∀ i, i ∉ K → s1.get? i = s0.get? i := by
      intro s0 p K hK hKnd
      cases p with
      | none => exact ⟨s0, rfl, fun _ _ => rfl⟩
      | some l =>
        obtain ⟨sc, hc, hfr⟩ := ih l s0 K hK hKnd
        have hroot := clear_root n l s0 sc hc
        refine ⟨sc.set l none, returns_bind hc (free_returns hroot), fun i hi => ?_⟩
        have hne : l ≠ i := fun e => hi (e ▸ objsBelow_mem hK l rfl)
        rw [get?_set_ne _ _ _ _ hne]
        exact hfr i hi
    obtain ⟨s1, h1, f1⟩ := child s o.left ls hl hndl
    have hr1 : objsBelow n s1 o.right = some rs := by
      rw [objsBelow_congr (objsBelow_closed s n _ _ hr)
        (fun i hi => f1 i (fun hil => hdis hil hi)) n o.right (objsBelow_mem hr)]
      exact hr
    obtain ⟨s2, h2, f2⟩ := child s1 o.right rs hr1 hndr
    have hthis2 : s2.get? this = some (some o) := by
      rw [f2 this (fun hi => hthis (List.mem_append_right _ hi)),
        f1 this (fun hi => hthis (List.mem_append_left _ hi))]
      exact ho
    refine ⟨s2.set this (some emptyObj), ?_, fun i hi => ?_⟩
    · rw [clear_succ]
      exact returns_bind (load_returns ho)
        (returns_bind h1 (returns_bind h2 (save_returns _ hthis2)))
    · have hne : this ≠ i := fun e => hi (e ▸ List.mem_cons_self _ _)
      rw [get?_set_ne _ _ _ _ hne, f2 i (fun h => hi (List.mem_cons_of_mem _
        (List.mem_append_right _ h))), f1 i (fun h => hi (List.mem_cons_of_mem _
        (List.mem_append_left _ h)))]

/-- The assignment `operator=` returns when the target is a proper tree of
objects alive in the store, no deeper than `fuel`, and the objects of the
source are alive and no deeper than `fuel`. -/
theorem assign_returns (fuel : Nat) (S : Addr → Prop) (this rhs : Addr) (s : Store)
    (K : List Addr) (hcl : Closed S s) (hcl1 : Closed (fun i => ¬ S i) s)
    (hlt : ∀ i : Nat, S i → i < s.length) (hrhs : S rhs) (hthis : ¬ S this)
    (hsrc : (objsBelow fuel s (some rhs)).isSome = true)
    (hK : objsBelow fuel s (some this) = some K) (hnd : K.Nodup) :
    ∃ s1, assign fuel this rhs s = .ok ((), s1) := by
  obtain ⟨sc, hc, hfr⟩ := clear_returns fuel this s K hK hnd
  have hKS : ∀ i ∈ K, ¬ S i :=
    objsBelow_subset hcl1 fuel (some this) K
      (fun a e => by injection e with e; subst e; exact hthis) hK
  have hSc : ∀ i, S i → sc.get? i = s.get? i := fun i hi => hfr i (fun hk => hKS i hk hi)
  have hgood : Good (fun i => ¬ S i) s :=
    good_of_closed (fun i hi hS => absurd (hlt i hS) (not_lt.mpr hi)) hcl1
  obtain ⟨-, hlen, -, -⟩ := local_clear fuel this hthis s () sc hgood hc
  obtain ⟨L, hL⟩ := Option.isSome_iff_exists.mp hsrc
  obtain ⟨m, src, ls, rs, em, hsrc0, hl, hr, -⟩ := objsBelow_some hL
  subst em
  have hch : ChildrenIn S src := hcl rhs src hrhs hsrc0
  have hroot := clear_root (m + 1) this s sc hc
  have hsrc1 : sc.get? rhs = some (some src) := by rw [hSc rhs hrhs]; exact hsrc0
  have hthis_lt : this < sc.length := lt_of_get? hroot
  have hSa : ∀ i, S i → (sc.set this (some (baseOf src))).get? i = s.get? i := by
    intro i hi
    rw [get?_set_ne _ _ _ _ (fun (e : this = i) => hthis (e ▸ hi))]
    exact hSc i hi
  obtain ⟨sf, hlk⟩ := linkCopies_returns (m + 1) (copyNew_spec (m + 1))
    (copyNew_returns (m + 1)) S (sc.set this (some (baseOf src))) this src (baseOf src)
    (closed_congr hcl hSa)
    (fun i hi => by have h1 := hlt i hi; rw [List.length_set]; omega) hthis
    (get?_set_self _ _ _ hthis_lt) rfl rfl hch
    (by rw [objsBelow_congr hcl hSa (m + 1) src.left hch.left,
          objsBelow_mono s m _ _ hl]; rfl)
    (by rw [objsBelow_congr hcl hSa (m + 1) src.right hch.right,
          objsBelow_mono s m _ _ hr]; rfl)
  refine ⟨sf, ?_⟩
  rw [assign_eq]
  exact returns_bind hc (returns_bind (load_returns hsrc1) (returns_bind (load_returns hroot)
    (returns_bind (save_returns _ hroot) hlk)))

end Ptr

/-! ## The claims -/

open Tree

/-- C1 (BST order after every insert and erase) fails on the code: after
inserting 2, 1, 3, 4 into the empty map and erasing 2, the root holds key 1 and
its left child holds key 2, so the left subtree of the root holds a key that is
not less than the root's key. -/
theorem erase_breaks_bst_order :
    runOps 10 [.insert 2 20, .insert 1 10, .insert 3 30, .insert 4 40, .erase 2] null =
        some (node (node null 2 20 1 null) 1 10 2 (node null 4 40 1 null)) ∧
      ¬ BSTOrder (node (node null 2 20 1 null) 1 10 2 (node null 4 40 1 null)) := by
  decide

/-- C2: balance is preserved by every mutating operation.  For every sequence
of `insert` and `erase` calls applied to the empty map, all of which return, the
resulting tree has `|height(left) - height(right)| ≤ 1` at every node, both for
the stored heights `height_` and for the actual depths of the subtrees, an
absent child counting `0`. -/
theorem balance_preserved (fuel : Nat) (ops : List Op) (t : Tree)
    (h : runOps fuel ops null = some t) :
    Balanced getHeight t ∧ Balanced depth t := by
  have ht : AVL t := runOps_AVL fuel ops null t AVL_null h
  exact ⟨ht.2, Balanced_depth_of_AVL ht⟩

/-- Witness for C2: the calls insert 3, 1, 2, 4, 5 and erase 1. -/
theorem balance_preserved_witness :
    runOps 10 [.insert 3 30, .insert 1 10, .insert 2 20, .insert 4 40, .insert 5 50, .erase 1]
        null =
        some (node (node null 2 20 2 (node null 3 30 1 null)) 4 40 3 (node null 5 50 1 null)) ∧
      Balanced getHeight
        (node (node null 2 20 2 (node null 3 30 1 null)) 4 40 3 (node null 5 50 1 null)) ∧
      Balanced depth
        (node (node null 2 20 2 (node null 3 30 1 null)) 4 40 3 (node null 5 50 1 null)) :=
  ⟨by decide,
    balance_preserved 10
      [.insert 3 30, .insert 1 10, .insert 2 20, .insert 4 40, .insert 5 50, .erase 1]
      (node (node null 2 20 2 (node null 3 30 1 null)) 4 40 3 (node null 5 50 1 null))
      (by decide)⟩

/-- C3: lookup after insertion.  After inserting pairs with pairwise distinct
keys, in order, into the empty map, `contains(k)` is true exactly when `k` is
one of the inserted keys, and for an inserted pair `(k, v)` the call `at(k)`
returns `v`. -/
theorem lookup_after_insert (kvs : List (Key × Value)) (hd : (kvs.map Prod.fst).Nodup)
    (k : Key) :
    (contains (insertAll null kvs) k = true ↔ k ∈ kvs.map Prod.fst) ∧
      ∀ v, (k, v) ∈ kvs → at_ (insertAll null kvs) k = .ok v := by
  obtain ⟨io, ip⟩ := insertAll_spec kvs hd
  constructor
  · rw [contains_iff _ io, keys]
    exact (ip.map Prod.fst).mem_iff
  · intro v hv
    exact at_of_mem _ io k v (ip.mem_iff.mpr hv)

/-- Witness for C3: the keys 5, 3, 8 and the lookup of 3. -/
theorem lookup_after_insert_witness :
    ([(5, 50), (3, 30), (8, 80)].map Prod.fst).Nodup ∧
      ((contains (insertAll null [(5, 50), (3, 30), (8, 80)]) 3 = true ↔
          (3 : Key) ∈ [((5 : Key), (50 : Value)), (3, 30), (8, 80)].map Prod.fst) ∧
        ∀ v, ((3 : Key), v) ∈ [((5 : Key), (50 : Value)), (3, 30), (8, 80)] →
          at_ (insertAll null [(5, 50), (3, 30), (8, 80)]) 3 = .ok v) :=
  ⟨by decide, lookup_after_insert [(5, 50), (3, 30), (8, 80)] (by decide) 3⟩

/-- C4 (overwrite on re-insert) fails on the code: `insert` has no case for an
equal key, so inserting `(1, 1)` and then `(1, 2)` hangs a second object with
key 1 to the right of the first, and `at(1)` still returns 1, not 2. -/
theorem reinsert_keeps_old_value :
    contains (insert 1 1 null) 1 = true ∧
      insert 1 2 (insert 1 1 null) = node null 1 1 2 (node null 1 2 1 null) ∧
      at_ (insert 1 2 (insert 1 1 null)) 1 = .ok 1 := by
  refine ⟨by decide, by decide, rfl⟩

/-- C5 (key uniqueness on re-insert) fails on the code: inserting `(1, 1)` and
then `(1, 2)` into the empty map gives `size() == 2`, and two objects of the
tree carry the key 1. -/
theorem reinsert_adds_node :
    size (insert 1 1 null) = 1 ∧ size (insert 1 2 (insert 1 1 null)) = 2 ∧
      keys (insert 1 2 (insert 1 1 null)) = [1, 1] := by
  decide

/-- C6 (lookup after erase) fails on the code: after inserting 2, 1, 3, 4 into
the empty map, `contains(3)` is true and `at(3)` is 30; after `erase(2)`,
`contains(3)` is false although 3 was not erased, and the pair of key 2 is still
stored in the tree. -/
theorem erase_loses_other_key :
    contains (insertAll null [(2, 20), (1, 10), (3, 30), (4, 40)]) 3 = true ∧
      at_ (insertAll null [(2, 20), (1, 10), (3, 30), (4, 40)]) 3 = .ok 30 ∧
      (erase 10 2 (insertAll null [(2, 20), (1, 10), (3, 30), (4, 40)])).map
          (fun t => (contains t 3, toList t)) =
        some (false, [(2, 20), (1, 10), (4, 40)]) := by
  refine ⟨by decide, rfl, by decide⟩

/-- C7 (ascending iteration) fails on the code: on the map built by inserting
1, 2, 3, 4, 5, 6 into the empty map, stepping from `begin()` with `operator++`
until `end()` visits 1, 4, 5, 6 and skips the keys 2 and 3. -/
theorem ascending_skips_keys :
    Ptr.ascendingKeys 10 [(1, 10), (2, 20), (3, 30), (4, 40), (5, 50), (6, 60)] =
      .ok [1, 4, 5, 6] := by
  simp only [Ptr.ascendingKeys, Ptr.insertAll_up, Ptr.ascending_up6]

/-- C8 (reverse iteration) fails on the code: on the map built by inserting
6, 5, 4, 3, 2, 1 into the empty map, stepping from `end()` with `operator--`
until `begin()` visits 6, 3, 2, 1 and skips the keys 5 and 4. -/
theorem descending_skips_keys :
    Ptr.descendingKeys 10 [(6, 60), (5, 50), (4, 40), (3, 30), (2, 20), (1, 10)] =
      .ok [6, 3, 2, 1] := by
  simp only [Ptr.descendingKeys, Ptr.insertAll_down, Ptr.descending_down6]

/-- C9: ordered dump.  For the map built by inserting pairs with pairwise
distinct keys into the empty map, `printKeys` writes the inserted keys in
ascending order, each followed by one space, and `printValues` writes the
values in the order of their keys, each followed by one space; the empty map
writes nothing. -/
theorem ordered_dump (kvs : List (Key × Value)) (hd : (kvs.map Prod.fst).Nodup) :
    printKeys (insertAll null kvs) = render ((kvs.map Prod.fst).insertionSort (· ≤ ·)) ∧
      printValues (insertAll null kvs) = render ((kvs.insertionSort keyLE).map Prod.snd) ∧
      printKeys (insertAll null []) = [] ∧ printValues (insertAll null []) = [] := by
  refine ⟨?_, ?_, rfl, rfl⟩
  · rw [printKeys_eq, toList_insertAll kvs hd]
    congr 1
    exact List.map_insertionSort keyLE (fun (a b : Key) => a ≤ b) Prod.fst kvs
      (fun a _ b _ => Iff.rfl)
  · rw [printValues_eq, toList_insertAll kvs hd]

/-- Witness for C9: the pairs `(5, 50)`, `(3, 31)`, `(8, 80)`. -/
theorem ordered_dump_witness :
    ([((5 : Key), (50 : Value)), (3, 31), (8, 80)].map Prod.fst).Nodup ∧
      printKeys (insertAll null [(5, 50), (3, 31), (8, 80)]) =
        [.item 3, .space, .item 5, .space, .item 8, .space] ∧
      printValues (insertAll null [(5, 50), (3, 31), (8, 80)]) =
        [.item 31, .space, .item 50, .space, .item 80, .space] := by
  have h := ordered_dump [(5, 50), (3, 31), (8, 80)] (by decide)
  exact ⟨by decide, h.1.trans (by decide), h.2.1.trans (by decide)⟩

/-- C10 (parent consistency) fails on the code: after inserting 1, 2, 3, 4, 5, 6
into the empty map, the object with key 1 is the left child of the object with
key 2, but its `parrent_` is still the root object (key 4): the rotation at the
root re-hangs it and no `updateParrentsLocally()` runs on its new parent. -/
theorem parent_link_stale_after_root_rotation :
    Ptr.insertAll 10 0 [(1, 10), (2, 20), (3, 30), (4, 40), (5, 50), (6, 60)] Ptr.init =
        .ok Ptr.up6 ∧
      Ptr.parentsConsistent 10 Ptr.up6 0 = false ∧
      (Ptr.up6.get? 0).join.map (fun o => (o.pair, o.left)) = some (some (4, 40), some 3) ∧
      (Ptr.up6.get? 3).join.map (fun o => (o.pair, o.left)) = some (some (2, 20), some 2) ∧
      (Ptr.up6.get? 2).join.map (fun o => (o.pair, o.parrent)) = some (some (1, 10), some 0) :=
  ⟨Ptr.insertAll_up, by decide, by decide, by decide, by decide⟩

/-- C11: height correctness.  For every sequence of `insert` and `erase` calls
applied to the empty map, all of which return, every object of the resulting
tree has `height_ == 1 + max(height(left), height(right))`, an absent child
counting `0`, and the stored height of the root is the actual depth of the
tree. -/
theorem heights_correct (fuel : Nat) (ops : List Op) (t : Tree)
    (h : runOps fuel ops null = some t) :
    HeightsOk t ∧ getHeight t = depth t := by
  have ht : AVL t := runOps_AVL fuel ops null t AVL_null h
  exact ⟨ht.1, getHeight_eq_depth ht.1⟩

/-- Witness for C11: the calls insert 3, 1, 2, 4, 5 and erase 1. -/
theorem heights_correct_witness :
    runOps 10 [.insert 3 30, .insert 1 10, .insert 2 20, .insert 4 40, .insert 5 50, .erase 1]
        null =
        some (node (node null 2 20 2 (node null 3 30 1 null)) 4 40 3 (node null 5 50 1 null)) ∧
      HeightsOk
        (node (node null 2 20 2 (node null 3 30 1 null)) 4 40 3 (node null 5 50 1 null)) ∧
      getHeight
          (node (node null 2 20 2 (node null 3 30 1 null)) 4 40 3 (node null 5 50 1 null)) =
        depth (node (node null 2 20 2 (node null 3 30 1 null)) 4 40 3 (node null 5 50 1 null)) :=
  ⟨by decide,
    heights_correct 10
      [.insert 3 30, .insert 1 10, .insert 2 20, .insert 4 40, .insert 5 50, .erase 1]
      (node (node null 2 20 2 (node null 3 30 1 null)) 4 40 3 (node null 5 50 1 null))
      (by decide)⟩

/-- C12: logarithmic depth.  For the map built by inserting `n` pairs into the
empty map (`n ≥ 1` or not), the stored height `h` of the root satisfies
`Fib(h + 2) ≤ n + 1` and `2 ^ h ≤ (n + 1) ^ 2`. -/
theorem logarithmic_depth (kvs : List (Key × Value)) :
    getHeight (insertAll null kvs) = depth (insertAll null kvs) ∧
      Nat.fib (getHeight (insertAll null kvs) + 2) ≤ kvs.length + 1 ∧
      2 ^ getHeight (insertAll null kvs) ≤ (kvs.length + 1) ^ 2 := by
  have ha := insertAll_AVL kvs
  have hl : (toList (insertAll null kvs)).length = kvs.length := (perm_insertAll kvs).length_eq
  have hf := fib_le_length _ ha
  rw [hl] at hf
  refine ⟨getHeight_eq_depth ha.1, hf, ?_⟩
  exact (two_pow_le_fib_sq _).trans (Nat.pow_le_pow_left hf 2)

/-- An instance of C12: the keys 1, 2, 3, 4, 5 give a root of height 3. -/
theorem logarithmic_depth_example :
    1 ≤ [((1 : Key), (10 : Value)), (2, 20), (3, 30), (4, 40), (5, 50)].length ∧
      getHeight (insertAll null [(1, 10), (2, 20), (3, 30), (4, 40), (5, 50)]) = 3 ∧
      Nat.fib (getHeight (insertAll null [(1, 10), (2, 20), (3, 30), (4, 40), (5, 50)]) + 2) ≤
        [((1 : Key), (10 : Value)), (2, 20), (3, 30), (4, 40), (5, 50)].length + 1 ∧
      2 ^ getHeight (insertAll null [(1, 10), (2, 20), (3, 30), (4, 40), (5, 50)]) ≤
        ([((1 : Key), (10 : Value)), (2, 20), (3, 30), (4, 40), (5, 50)].length + 1) ^ 2 :=
  ⟨by decide, by decide,
    (logarithmic_depth [(1, 10), (2, 20), (3, 30), (4, 40), (5, 50)]).2⟩

/-- C13: lookup failure signalling.  On a non-empty map, `find(k)` and `at(k)`
throw `std::out_of_range` exactly when `contains(k)` is false, and when
`contains(k)` is true `find(k)` stops at an object with key `k` whose value is
the one `at(k)` returns; `contains` is a total function (it never throws), and
`find` on the empty map throws `std::out_of_range`. -/
theorem lookup_failure_signalling (t : Tree) (ht : t.isNull = false) (k : Key) :
    (find t k = .error .outOfRange ↔ contains t k = false) ∧
      (at_ t k = .error .outOfRange ↔ contains t k = false) ∧
      (contains t k = true →
        ∃ l v h r, find t k = .ok (node l k v h r) ∧ at_ t k = .ok v) ∧
      find null k = .error .outOfRange :=
  ⟨find_error_iff t k, at_error_iff t k ht, find_of_contains t k, rfl⟩

/-- Witness for C13: the map with keys 3, 5, 8 and the absent key 4. -/
theorem lookup_failure_signalling_witness :
    (node (node null 3 30 1 null) 5 50 2 (node null 8 80 1 null)).isNull = false ∧
      contains (node (node null 3 30 1 null) 5 50 2 (node null 8 80 1 null)) 4 = false ∧
      find (node (node null 3 30 1 null) 5 50 2 (node null 8 80 1 null)) 4 =
        .error .outOfRange ∧
      at_ (node (node null 3 30 1 null) 5 50 2 (node null 8 80 1 null)) 4 =
        .error .outOfRange :=
  have h := lookup_failure_signalling
    (node (node null 3 30 1 null) 5 50 2 (node null 8 80 1 null)) rfl 4
  ⟨rfl, by decide, h.1.mpr (by decide), h.2.1.mpr (by decide)⟩

/-- C14 (`at` on an empty map throws) fails on the code: `at` has no test of
`isEmpty_` and reads `pair_->first` with `pair_ == nullptr`, on the
default-constructed map as well as on a map emptied by `clear()` or by
`erase`; `find` on the same maps throws `std::out_of_range`. -/
theorem at_on_empty_map_dereferences_null :
    at_ null 5 = .error .nullDeref ∧
      at_ (clear (insert 5 50 null)) 5 = .error .nullDeref ∧
      (erase 10 5 (insert 5 50 null)).map (fun t => at_ t 5) = some (.error .nullDeref) ∧
      find null 5 = .error .outOfRange := by
  decide

/-- C15: auto-vivifying index.  On a map in BST order, `m[k]` returns the value
`at(k)` and leaves the map as it is when `contains(k)` is true; otherwise it
returns the default value `0` and leaves a map in which `contains(k)` is true,
`at(k)` is `0`, and `at` returns for every other key what it returned
before. -/
theorem index_auto_vivifies (t : Tree) (hb : BSTOrder t) (k : Key) :
    (contains t k = true → ∃ v, at_ t k = .ok v ∧ index k t = .ok (v, t)) ∧
      (contains t k = false →
        ∃ t1, index k t = .ok (0, t1) ∧ contains t1 k = true ∧ at_ t1 k = .ok 0 ∧
          ∀ k1 v1, at_ t k1 = .ok v1 → at_ t1 k1 = .ok v1) := by
  have ho : Ordered t := (Ordered_iff_BSTOrder t).mpr hb
  refine ⟨index_of_contains t k, fun hc => ?_⟩
  obtain ⟨h1, h2, h3, h4⟩ := index_of_not_contains t k ho hc
  exact ⟨_, h1, h2, h3, fun k1 v1 ha => h4 k1 v1 (mem_of_at t k1 v1 ha)⟩

/-- Witness for C15: the map with keys 3, 5, 8 and the absent key 4. -/
theorem index_auto_vivifies_witness :
    BSTOrder (node (node null 3 30 1 null) 5 50 2 (node null 8 80 1 null)) ∧
      contains (node (node null 3 30 1 null) 5 50 2 (node null 8 80 1 null)) 4 = false ∧
      ∃ t1, index 4 (node (node null 3 30 1 null) 5 50 2 (node null 8 80 1 null)) =
          .ok (0, t1) ∧ contains t1 4 = true ∧ at_ t1 4 = .ok 0 ∧
        ∀ k1 v1, at_ (node (node null 3 30 1 null) 5 50 2 (node null 8 80 1 null)) k1 = .ok v1 →
          at_ t1 k1 = .ok v1 :=
  ⟨by decide, by decide,
    (index_auto_vivifies (node (node null 3 30 1 null) 5 50 2 (node null 8 80 1 null))
      (by decide) 4).2 (by decide)⟩

/-- C16: erasing an absent key is a no-op.  For every map built by inserting
pairs into the empty map (the empty map itself included, and with no condition
on the keys) and every key `k` with `contains(k)` false, `erase(k)` returns
(with a bound on the recursion depth above the depth of the tree) and leaves
the tree as it is: same shape, same stored height in every node, same pairs in
the same order. -/
theorem erase_absent_key_noop (kvs : List (Key × Value)) (k : Key)
    (hc : contains (insertAll null kvs) k = false) (fuel : Nat)
    (hf : depth (insertAll null kvs) < fuel) :
    erase fuel k (insertAll null kvs) = some (insertAll null kvs) :=
  erase_absent _ (insertAll_AVL kvs) k hc fuel hf

/-- Witness for C16: the keys 5, 3, 8 and the absent key 4, and the empty map
with the same key. -/
theorem erase_absent_key_noop_witness :
    contains (insertAll null [(5, 50), (3, 30), (8, 80)]) 4 = false ∧
      depth (insertAll null [(5, 50), (3, 30), (8, 80)]) < 3 ∧
      insertAll null [(5, 50), (3, 30), (8, 80)] =
        node (node null 3 30 1 null) 5 50 2 (node null 8 80 1 null) ∧
      erase 3 4 (insertAll null [(5, 50), (3, 30), (8, 80)]) =
        some (insertAll null [(5, 50), (3, 30), (8, 80)]) ∧
      contains (insertAll null []) 4 = false ∧ depth (insertAll null []) < 1 ∧
      erase 1 4 (insertAll null []) = some (insertAll null []) :=
  ⟨by decide, by decide, by decide,
    erase_absent_key_noop [(5, 50), (3, 30), (8, 80)] 4 (by decide) 3 (by decide),
    by decide, by decide, erase_absent_key_noop [] 4 (by decide) 1 (by decide)⟩

/-- C17: two-child deletion.  Take the map built by inserting pairs with
pairwise distinct keys into the empty map, with its objects at pairwise
distinct addresses, and a key `k` that `find` locates in an object, at address
`a`, with a left and a right child.  Then `erase(k)` returns (with a bound on
the recursion depth of at least twice the depth of the tree plus one), leaves
exactly one object less, and the object at address `a` then holds a pair `p`
which is the in-order predecessor of `k` in the map before the call: `p` is a
pair of the former left subtree of the object and no pair of that subtree has
a greater key, the key of `p` is below `k` and no key of the map below `k` is
greater, and `p` stands right before the pair of `k` in the ordered sequence
of the map.  This `p` is the pair of the object `getMaxNode()` returns on the
left child. -/
theorem two_child_erase (kvs : List (Key × Value)) (hd : (kvs.map Prod.fst).Nodup)
    (x : OTree) (hx : x.strip = insertAll null kvs) (hn : x.addrs.Nodup)
    (k : Key) (a : Nat) (l r : OTree) (v : Value) (h : Nat)
    (hf : OTree.find x k = .ok (OTree.node a l k v h r))
    (hl : l.strip.isNull = false) (hr : r.strip.isNull = false)
    (fuel : Nat) (hfuel : 2 * depth (insertAll null kvs) + 1 ≤ fuel) :
    ∃ x1 p, OTree.erase fuel k x = some x1 ∧
      erase fuel k (insertAll null kvs) = some x1.strip ∧
      (OTree.objs x1).length + 1 = (OTree.objs x).length ∧
      x1.addrs.Nodup ∧
      pair? (getMaxNode l.strip) = some p ∧ (a, p) ∈ OTree.objs x1 ∧
      p ∈ toList l.strip ∧ (∀ q ∈ toList l.strip, q.1 ≤ p.1) ∧
      p.1 < k ∧ (∀ q ∈ toList (insertAll null kvs), q.1 < k → q.1 ≤ p.1) ∧
      ∃ pre post, toList (insertAll null kvs) = pre ++ p :: (k, v) :: post := by
  obtain ⟨ho, -⟩ := insertAll_spec kvs hd
  have ha := insertAll_AVL kvs
  rw [← hx] at ho ha hfuel
  obtain ⟨t1, ht1⟩ := rawDelete_returns x.strip ho k fuel hfuel
  have hs := OTree.strip_rawDelete fuel k x
  rw [ht1, Option.map_eq_some'] at hs
  obtain ⟨x1, hx1, hx2⟩ := hs
  have ha1 : AVL x1.strip := (OTree.AVL_rawDelete ha hx1).1
  have he : OTree.erase fuel k x = some x1 := by
    rw [OTree.erase, hx1, Option.map_some', OTree.updateHeight_of_AVL_addr ha1]
  obtain ⟨p, hp1, hp2⟩ := OTree.rawDelete_two_children fuel k x x1 a l r v h ho ha hf hl hr hx1
  have hk : k ∈ keys x.strip := by
    rw [← contains_iff _ ho]
    have h1 := OTree.strip_find x k
    rw [hf] at h1
    by_contra hcon
    have h2 := (find_error_iff x.strip k).mpr (by simpa using hcon)
    rw [h2] at h1
    exact absurd h1 (by simp [Except.map])
  have hlen := rawDelete_length fuel k x.strip t1 ho hk ht1
  rw [← hx2, OTree.toList_strip, OTree.toList_strip, List.length_map, List.length_map] at hlen
  have hlast : (toList l.strip).getLast? = some p := by rw [← getMaxNode_getLast, hp1]
  obtain ⟨ini, hini⟩ := List.getLast?_eq_some_iff.mp hlast
  obtain ⟨pre, post, hdec⟩ := OTree.find_toList x k a l r v h hf
  have hdec1 : toList x.strip = (pre ++ ini) ++ p :: (k, v) :: (toList r.strip ++ post) := by
    rw [hdec, hini]
    simp
  have hord : (toList x.strip).Pairwise (fun a b => a.1 < b.1) := ho
  rw [hdec1] at hord
  obtain ⟨h1, h2, h3⟩ := predecessor_of_pairwise _ _ _ _ hord
  refine ⟨x1, p, he, ?_, hlen, OTree.nodup_of_subperm (OTree.addrs_rawDelete fuel k x x1 hx1) hn,
    hp1, hp2, ?_, ?_, h1, ?_, ?_⟩
  · rw [← hx, ← OTree.strip_erase, he]
    rfl
  · rw [hini]
    exact List.mem_append_right _ (List.mem_singleton_self _)
  · intro q hq
    rw [hini, List.mem_append, List.mem_singleton] at hq
    rcases hq with hq | hq
    · exact le_of_lt (h2 q (List.mem_append_right _ hq))
    · rw [hq]
  · rw [← hx, hdec1]
    exact h3
  · exact ⟨pre ++ ini, toList r.strip ++ post, by rw [← hx, hdec1]⟩

/-- Witness for C17: the keys 5, 3, 8, 1, 4, which give the map 5(3(1,4),8),
with the root at address 0 and a left subtree of three objects; `erase(5)`
leaves the pair `(4, 40)`, the greatest of the left subtree, in the object at
address 0, and deletes the object at address 4 that held it. -/
theorem two_child_erase_witness :
    ([((5 : Key), (50 : Value)), (3, 30), (8, 80), (1, 10), (4, 40)].map Prod.fst).Nodup ∧
      (OTree.node 0 (OTree.node 1 (OTree.node 3 .null 1 10 1 .null) 3 30 2
          (OTree.node 4 .null 4 40 1 .null)) 5 50 3 (OTree.node 2 .null 8 80 1 .null)).strip =
        insertAll null [(5, 50), (3, 30), (8, 80), (1, 10), (4, 40)] ∧
      OTree.erase 7 5
          (OTree.node 0 (OTree.node 1 (OTree.node 3 .null 1 10 1 .null) 3 30 2
            (OTree.node 4 .null 4 40 1 .null)) 5 50 3 (OTree.node 2 .null 8 80 1 .null)) =
        some (OTree.node 0 (OTree.node 1 (OTree.node 3 .null 1 10 1 .null) 3 30 2 .null) 4 40 3
          (OTree.node 2 .null 8 80 1 .null)) ∧
      ∃ x1 p, OTree.erase 7 5
          (OTree.node 0 (OTree.node 1 (OTree.node 3 .null 1 10 1 .null) 3 30 2
            (OTree.node 4 .null 4 40 1 .null)) 5 50 3 (OTree.node 2 .null 8 80 1 .null)) =
          some x1 ∧
        erase 7 5 (insertAll null [(5, 50), (3, 30), (8, 80), (1, 10), (4, 40)]) =
          some x1.strip ∧
        (OTree.objs x1).length + 1 =
          (OTree.objs (OTree.node 0 (OTree.node 1 (OTree.node 3 .null 1 10 1 .null) 3 30 2
            (OTree.node 4 .null 4 40 1 .null)) 5 50 3 (OTree.node 2 .null 8 80 1 .null))).length ∧
        x1.addrs.Nodup ∧
        pair? (getMaxNode (OTree.node 1 (OTree.node 3 .null 1 10 1 .null) 3 30 2
          (OTree.node 4 .null 4 40 1 .null)).strip) = some p ∧
        (0, p) ∈ OTree.objs x1 ∧
        p ∈ toList (OTree.node 1 (OTree.node 3 .null 1 10 1 .null) 3 30 2
          (OTree.node 4 .null 4 40 1 .null)).strip ∧
        (∀ q ∈ toList (OTree.node 1 (OTree.node 3 .null 1 10 1 .null) 3 30 2
          (OTree.node 4 .null 4 40 1 .null)).strip, q.1 ≤ p.1) ∧
        p.1 < 5 ∧
        (∀ q ∈ toList (insertAll null [(5, 50), (3, 30), (8, 80), (1, 10), (4, 40)]),
          q.1 < 5 → q.1 ≤ p.1) ∧
        ∃ pre post, toList (insertAll null [(5, 50), (3, 30), (8, 80), (1, 10), (4, 40)]) =
          pre ++ p :: (5, 50) :: post :=
  ⟨by decide, by decide, by decide,
    two_child_erase [(5, 50), (3, 30), (8, 80), (1, 10), (4, 40)] (by decide)
      (OTree.node 0 (OTree.node 1 (OTree.node 3 .null 1 10 1 .null) 3 30 2
        (OTree.node 4 .null 4 40 1 .null)) 5 50 3 (OTree.node 2 .null 8 80 1 .null))
      (by decide) (by decide) 5 0
      (OTree.node 1 (OTree.node 3 .null 1 10 1 .null) 3 30 2 (OTree.node 4 .null 4 40 1 .null))
      (OTree.node 2 .null 8 80 1 .null) 50 3 (by decide) (by decide) (by decide) 7 (by decide)⟩

/-- C18 (`empty()` iff `size() == 0`) fails on the code: `size()` has no test of
`isEmpty_` and counts the receiver itself, so on the default-constructed map,
and on a map emptied by `clear()` or `erase`, `empty()` is true and `size()` is
1. -/
theorem size_of_empty_map_is_one :
    empty null = true ∧ size null = 1 ∧
      empty (clear (insert 5 50 null)) = true ∧ size (clear (insert 5 50 null)) = 1 ∧
      (erase 10 5 (insert 5 50 null)).map (fun t => (empty t, size t)) = some (true, 1) := by
  decide

/-- C19: for every `n ≥ 1` and every sequence of `n` pairs inserted into the
empty map, `size()` returns `n`. -/
theorem size_after_inserts (kvs : List (Key × Value)) (hn : 1 ≤ kvs.length) :
    size (insertAll null kvs) = kvs.length := by
  rw [size_eq_length _ (insertAll_not_null kvs hn)]
  exact (perm_insertAll kvs).length_eq

/-- Witness for C19: the keys 5, 3, 8, 1, 4, 7, 9. -/
theorem size_after_inserts_witness :
    1 ≤ [((5 : Key), (50 : Value)), (3, 30), (8, 80), (1, 10), (4, 40), (7, 70), (9, 90)].length ∧
      size (insertAll null [(5, 50), (3, 30), (8, 80), (1, 10), (4, 40), (7, 70), (9, 90)]) =
        7 :=
  ⟨by decide,
    size_after_inserts [(5, 50), (3, 30), (8, 80), (1, 10), (4, 40), (7, 70), (9, 90)]
      (by decide)⟩

/-- C20 (size after erasing `k` of `n` keys is `n - k`) fails on the code: after
inserting 2, 1, 3, 4 and erasing 2 and then 3, `size()` is 3, not 2: `erase(2)`
drops the pair of key 3 and keeps that of key 2, so `erase(3)` finds nothing to
remove. -/
theorem size_after_two_erases :
    (runOps 10 [.insert 2 20, .insert 1 10, .insert 3 30, .insert 4 40, .erase 2] null).map
        (fun t => (size t, toList t)) = some (3, [(2, 20), (1, 10), (4, 40)]) ∧
      (runOps 10 [.insert 2 20, .insert 1 10, .insert 3 30, .insert 4 40, .erase 2, .erase 3]
        null).map (fun t => (size t, toList t)) = some (3, [(2, 20), (1, 10), (4, 40)]) := by
  decide

/-- C21 (swap exchanges contents) fails on the code: `swap` copies its argument
into `temp`, overwrites `temp` with `*this` and assigns `temp` back to `*this`;
nothing is written to the argument.  With `a` holding `(1, 10), (2, 20)` and
`b` holding `(7, 70)`, after `a.swap(b)` both maps hold what they held before
the call. -/
theorem swap_leaves_both_maps :
    Ptr.sequencesAroundSwap 10 [(1, 10), (2, 20)] [(7, 70)] =
      .ok (([(1, 10), (2, 20)], [(7, 70)]), ([(1, 10), (2, 20)], [(7, 70)])) := by
  decide!

/-- C22: copy equality and independence.  Let `region` hold the addresses of
the objects of a map `s` (root `src`), no child pointer of the store leading
into or out of it, and let `dst` be an object outside of it.  The copy
constructor returns when the objects below `src` are alive and no deeper than
`fuel`, and `operator=` returns when moreover the objects below `dst` form a
proper tree.  When `c` is produced from `s` by the copy constructor, or `c` is
`dst` after `dst = s`, then the ownership tree below `c` (pairs in order, shape
and heights) is that below `src`, the root of `c` has the pair, height and flag
of the root of `s` and no parent, the parent links below `c` are consistent at
every node, every object of `s` is as it was, and after any sequence of
`insert` and `erase` calls on `c` that return every object of `s` is still as
it was, so its ordered key/value sequence is unchanged. -/
theorem copy_equal_and_independent (fuel fuel1 n : Nat) (s : Ptr.Store)
    (region : List Ptr.Addr) (src dst : Ptr.Addr)
    (hsep : Ptr.separated region s = true) (hsrc : src ∈ region) (hdst : dst ∉ region) :
    ((Ptr.objsBelow fuel s (some src)).isSome = true →
        ∃ c s1, Ptr.copyNew fuel src s = .ok (c, s1)) ∧
      (∀ K, (Ptr.objsBelow fuel s (some src)).isSome = true →
        Ptr.objsBelow fuel s (some dst) = some K → K.Nodup →
        ∃ s1, Ptr.assign fuel dst src s = .ok ((), s1)) ∧
      ∀ c s1, (Ptr.copyNew fuel src s = .ok (c, s1) ∨
          (c = dst ∧ Ptr.assign fuel dst src s = .ok ((), s1))) →
        Ptr.toTree n s1 (some c) = Ptr.toTree n s (some src) ∧
        (∃ o oc, s.get? src = some (some o) ∧ s1.get? c = some (some oc) ∧
          oc.pair = o.pair ∧ oc.height = o.height ∧ oc.isEmpty = o.isEmpty ∧
          oc.parrent = none) ∧
        Ptr.parentsConsistent (fuel + 1) s1 c = true ∧
        (∀ i ∈ region, s1.get? i = s.get? i) ∧
        Ptr.toTree n s1 (some src) = Ptr.toTree n s (some src) ∧
        ∀ ops s2, Ptr.applyOps fuel1 c ops s1 = .ok ((), s2) →
          (∀ i ∈ region, s2.get? i = s.get? i) ∧
            Ptr.toTree n s2 (some src) = Ptr.toTree n s (some src) := by
  obtain ⟨hlt, hclS, hclN⟩ := Ptr.separated_spec hsep
  have hgood : Ptr.Good (fun i => ¬ i ∈ region) s :=
    Ptr.good_of_closed (fun i hi hS => absurd (hlt i hS) (not_lt.mpr hi)) hclN
  refine ⟨fun hwf => Ptr.copyNew_returns fuel (fun i => i ∈ region) src s hclS hlt hsrc hwf,
    fun K hwf hK hnd => Ptr.assign_returns fuel (fun i => i ∈ region) dst src s K hclS hclN hlt
      hsrc hdst hwf hK hnd, ?_⟩
  intro c s1 hcopy
  have main : (∀ m, Ptr.toTree m s1 (some c) = Ptr.toTree m s (some src)) ∧
      (∃ o oc, s.get? src = some (some o) ∧ s1.get? c = some (some oc) ∧ oc.pair = o.pair ∧
        oc.height = o.height ∧ oc.isEmpty = o.isEmpty ∧ oc.parrent = none) ∧
      Ptr.parentsConsistent (fuel + 1) s1 c = true ∧
      Ptr.Good (fun i => ¬ i ∈ region) s1 ∧
      (∀ i, ¬ ¬ i ∈ region → s1.get? i = s.get? i) ∧ ¬ c ∈ region := by
    rcases hcopy with h | ⟨rfl, h⟩
    · obtain ⟨-, -, -, -, ht, hpc, hroot⟩ :=
        Ptr.copyNew_spec fuel (fun i => i ∈ region) src s c s1 hclS hlt hsrc h
      obtain ⟨g1, -, f1, hc⟩ := Ptr.local_copyNew fuel src s c s1 hgood h
      exact ⟨ht, hroot, Ptr.parentsConsistent_mono s1 fuel c hpc, g1, f1, hc⟩
    · obtain ⟨ht, hpc, hroot⟩ :=
        Ptr.assign_spec fuel (fun i => i ∈ region) c src s s1 hclS hclN hlt hsrc hdst h
      obtain ⟨g1, -, f1, -⟩ := Ptr.local_assign fuel src hdst s () s1 hgood h
      exact ⟨ht, hroot, hpc, g1, f1, hdst⟩
  obtain ⟨ht, hroot, hpc, g1, f1, hc⟩ := main
  have frame1 : ∀ i ∈ region, s1.get? i = s.get? i := fun i hi => f1 i (fun hn => hn hi)
  refine ⟨ht n, hroot, hpc, frame1, ?_, ?_⟩
  · exact Ptr.toTree_congr hclS (fun i hi => Ptr.coreAt_of_eq (frame1 i hi)) n _
      (fun a e => by injection e with e; subst e; exact hsrc)
  · intro ops s2 hops
    obtain ⟨-, -, f2, -⟩ := Ptr.local_applyOps fuel1 hc ops s1 () s2 g1 hops
    have frame2 : ∀ i ∈ region, s2.get? i = s.get? i :=
      fun i hi => (f2 i (fun hn => hn hi)).trans (frame1 i hi)
    exact ⟨frame2, Ptr.toTree_congr hclS (fun i hi => Ptr.coreAt_of_eq (frame2 i hi)) n _
      (fun a e => by injection e with e; subst e; exact hsrc)⟩

/-- Witness for C22: the map with the keys 1 and 2 at address `0`, copied by the
copy constructor (to address `3`) and assigned to the empty map at address
`2`; and the map built by inserting 1 to 6, whose own parent links are not
consistent, with its copy, whose parent links are. -/
theorem copy_equal_and_independent_witness :
    Ptr.separated [0, 1] Ptr.twoAndEmpty = true ∧ (0 : Ptr.Addr) ∈ [0, 1] ∧
      (2 : Ptr.Addr) ∉ [0, 1] ∧
      Ptr.copyNew 5 0 Ptr.twoAndEmpty = .ok (3, Ptr.twoAndCopy) ∧
      Ptr.assign 5 2 0 Ptr.twoAndEmpty = .ok ((), Ptr.twoAndAssigned) ∧
      Ptr.toTree 5 Ptr.twoAndCopy (some 3) = Ptr.toTree 5 Ptr.twoAndEmpty (some 0) ∧
      Ptr.parentsConsistent 6 Ptr.twoAndCopy 3 = true ∧
      Ptr.toTree 5 Ptr.twoAndAssigned (some 2) = Ptr.toTree 5 Ptr.twoAndEmpty (some 0) ∧
      (∀ ops s2, Ptr.applyOps 10 3 ops Ptr.twoAndCopy = .ok ((), s2) →
        (∀ i ∈ [0, 1], s2.get? i = Ptr.twoAndEmpty.get? i) ∧
          Ptr.toTree 5 s2 (some 0) = Ptr.toTree 5 Ptr.twoAndEmpty (some 0)) ∧
      (∀ ops s2, Ptr.applyOps 10 2 ops Ptr.twoAndAssigned = .ok ((), s2) →
        (∀ i ∈ [0, 1], s2.get? i = Ptr.twoAndEmpty.get? i) ∧
          Ptr.toTree 5 s2 (some 0) = Ptr.toTree 5 Ptr.twoAndEmpty (some 0)) ∧
      Ptr.separated [0, 2, 3, 4, 5, 6] Ptr.up6 = true ∧
      Ptr.parentsConsistent 10 Ptr.up6 0 = false ∧
      ∃ c s1, Ptr.copyNew 10 0 Ptr.up6 = .ok (c, s1) ∧
        Ptr.toTree 10 s1 (some c) = Ptr.toTree 10 Ptr.up6 (some 0) ∧
        Ptr.parentsConsistent 11 s1 c = true :=
  have h := copy_equal_and_independent 5 10 5 Ptr.twoAndEmpty [0, 1] 0 2
    (by decide) (by decide) (by decide)
  have hc := h.2.2 3 Ptr.twoAndCopy (Or.inl (by decide!))
  have ha := h.2.2 2 Ptr.twoAndAssigned (Or.inr ⟨rfl, by decide!⟩)
  have g := copy_equal_and_independent 10 10 10 Ptr.up6 [0, 2, 3, 4, 5, 6] 0 1
    (by decide!) (by decide) (by decide)
  ⟨by decide, by decide, by decide, by decide!, by decide!, hc.1, hc.2.2.1, ha.1,
    hc.2.2.2.2.2, ha.2.2.2.2.2, by decide!, by decide!,
    match g.1 (by decide!) with
    | ⟨c, s1, hcp⟩ =>
        ⟨c, s1, hcp, (g.2.2 c s1 (Or.inl hcp)).1, (g.2.2 c s1 (Or.inl hcp)).2.2.1⟩⟩

/-- C23: end-iterator errors.  For every map and every store, the iterator
returned by `end()` has `cur_ == nullptr`, and `end()` leaves the store as it
is; `operator*`, `operator->` and `operator++` applied to it throw
`std::out_of_range`, with the iterator and the store as they were before the
call. -/
theorem end_iterator_errors (fuel fuel1 : Nat) (this : Ptr.Addr) (s s1 : Ptr.Store)
    (it : Ptr.Iterator) (h : Ptr.end_ fuel this s = .ok (it, s1)) :
    s1 = s ∧ it.cur = none ∧
      it.star s = .threw it s ∧ it.arrow s = .threw it s ∧
      it.increment fuel1 s = .threw it s ∧
      it.key s = .error .outOfRange ∧ it.next fuel1 s = .error .outOfRange := by
  rw [Ptr.end_, Ptr.bind_ok] at h
  obtain ⟨m, s2, hm, h⟩ := h
  have e := Ptr.getMaxNode_store fuel this m s s2 hm
  obtain ⟨rfl, rfl⟩ := (Ptr.pure_ok _ _ _ _).mp h
  exact ⟨e, rfl, rfl, rfl, rfl, rfl, rfl⟩

/-- Witness for C23: the map holding the keys 1 to 6. -/
theorem end_iterator_errors_witness :
    Ptr.end_ 10 0 Ptr.up6 = .ok ({ cur := none, max := some 6 }, Ptr.up6) ∧
      Ptr.Iterator.star { cur := none, max := some 6 } Ptr.up6 =
        .threw { cur := none, max := some 6 } Ptr.up6 ∧
      Ptr.Iterator.increment 10 { cur := none, max := some 6 } Ptr.up6 =
        .threw { cur := none, max := some 6 } Ptr.up6 :=
  ⟨by decide!,
    (end_iterator_errors 10 10 0 Ptr.up6 Ptr.up6 { cur := none, max := some 6 }
      (by decide!)).2.2.1,
    (end_iterator_errors 10 10 0 Ptr.up6 Ptr.up6 { cur := none, max := some 6 }
      (by decide!)).2.2.2.2.1⟩

/-- C24: monotonic insertion is rebalanced.  Inserting the keys 1, 2, 3, 4, 5 in
that order, with any values, into the empty map gives the tree with root 2,
left child 1 and right subtree 4 over 3 and 5; the stored height of the root
and the actual depth are 3, which is `⌈log2 6⌉`, and not 5. -/
theorem monotonic_insertion_rebalanced (v1 v2 v3 v4 v5 : Value) :
    insertAll null [(1, v1), (2, v2), (3, v3), (4, v4), (5, v5)] =
        node (node null 1 v1 1 null) 2 v2 3
          (node (node null 3 v3 1 null) 4 v4 2 (node null 5 v5 1 null)) ∧
      getHeight (insertAll null [(1, v1), (2, v2), (3, v3), (4, v4), (5, v5)]) = 3 ∧
      depth (insertAll null [(1, v1), (2, v2), (3, v3), (4, v4), (5, v5)]) = 3 ∧
      Nat.clog 2 6 = 3 ∧
      getHeight (insertAll null [(1, v1), (2, v2), (3, v3), (4, v4), (5, v5)]) ≠ 5 := by
  have h : insertAll null [(1, v1), (2, v2), (3, v3), (4, v4), (5, v5)] =
        node (node null 1 v1 1 null) 2 v2 3
          (node (node null 3 v3 1 null) 4 v4 2 (node null 5 v5 1 null)) := by
    rfl
  rw [h]
  refine ⟨rfl, rfl, rfl, by decide!, ?_⟩
  show (3 : Nat) ≠ 5
  decide

/-- C25: rotations preserve order and content.  For an object with a non-empty
left child, `rotateRR` leaves the in-order sequence of pairs as it is (so the
sequence is sorted after the call exactly when it was before), and the two
objects touched end with `height_ == 1 + max` of the stored heights of their
children, so that all stored heights are right when those of the three
re-hung subtrees `a`, `b`, `c` are; the same holds for `rotateLL` on an object
with a non-empty right child. -/
theorem rotations_preserve_order_and_content (a b c : Tree) (k1 k2 : Key) (v1 v2 : Value)
    (h1 h2 : Nat) (ha : HeightsOk a) (hb : HeightsOk b) (hc : HeightsOk c) :
    (toList (rotateRR (node (node a k1 v1 h1 b) k2 v2 h2 c)) =
          toList (node (node a k1 v1 h1 b) k2 v2 h2 c) ∧
        rotateRR (node (node a k1 v1 h1 b) k2 v2 h2 c) =
          node a k1 v1 (max (getHeight a) (max (getHeight b) (getHeight c) + 1) + 1)
            (node b k2 v2 (max (getHeight b) (getHeight c) + 1) c) ∧
        HeightsOk (rotateRR (node (node a k1 v1 h1 b) k2 v2 h2 c)) ∧
        (Ordered (rotateRR (node (node a k1 v1 h1 b) k2 v2 h2 c)) ↔
          Ordered (node (node a k1 v1 h1 b) k2 v2 h2 c))) ∧
      (toList (rotateLL (node a k1 v1 h1 (node b k2 v2 h2 c))) =
          toList (node a k1 v1 h1 (node b k2 v2 h2 c)) ∧
        rotateLL (node a k1 v1 h1 (node b k2 v2 h2 c)) =
          node (node a k1 v1 (max (getHeight a) (getHeight b) + 1) b) k2 v2
            (max (max (getHeight a) (getHeight b) + 1) (getHeight c) + 1) c ∧
        HeightsOk (rotateLL (node a k1 v1 h1 (node b k2 v2 h2 c))) ∧
        (Ordered (rotateLL (node a k1 v1 h1 (node b k2 v2 h2 c))) ↔
          Ordered (node a k1 v1 h1 (node b k2 v2 h2 c)))) := by
  refine ⟨⟨toList_rotateRR _, rfl, ?_, ?_⟩, ⟨toList_rotateLL _, rfl, ?_, ?_⟩⟩
  · exact ⟨rfl, ha, rfl, hb, hc⟩
  · simp only [Ordered, toList_rotateRR]
  · exact ⟨rfl, ⟨rfl, ha, hb⟩, hc⟩
  · simp only [Ordered, toList_rotateLL]

/-- Witness for C25: the subtrees `a` holding key 1, `b` empty and `c` holding
key 5, under the objects with the keys 2 and 3. -/
theorem rotations_preserve_order_and_content_witness :
    HeightsOk (node null 1 10 1 null) ∧ HeightsOk null ∧ HeightsOk (node null 5 50 1 null) ∧
      toList (rotateRR
          (node (node (node null 1 10 1 null) 2 20 2 null) 3 30 3 (node null 5 50 1 null))) =
        [(1, 10), (2, 20), (3, 30), (5, 50)] ∧
      rotateLL (node (node null 1 10 1 null) 2 20 2 (node null 3 30 3 (node null 5 50 1 null))) =
        node (node (node null 1 10 1 null) 2 20 2 null) 3 30 3 (node null 5 50 1 null) :=
  ⟨⟨rfl, trivial, trivial⟩, trivial, ⟨rfl, trivial, trivial⟩,
    (rotations_preserve_order_and_content (node null 1 10 1 null) null (node null 5 50 1 null)
      2 3 20 30 2 3 ⟨rfl, trivial, trivial⟩ trivial ⟨rfl, trivial, trivial⟩).1.1,
    (rotations_preserve_order_and_content (node null 1 10 1 null) null (node null 5 50 1 null)
      2 3 20 30 2 3 ⟨rfl, trivial, trivial⟩ trivial ⟨rfl, trivial, trivial⟩).2.2.1⟩

/-- C26 (cached maximum of a found iterator) fails on the code: `Iterator(Tree*)`
climbs to the root only when the object is not a right child; for a right
child it takes `max_` from the subtree of that object.  On the map built by
inserting 4, 2, 6, 1, 3 (no rotation, all parent links consistent) `find(3)`
returns an iterator with `max_` at the object holding 3; advancing it to
`end()` and applying `operator--` once gives key 3, while the greatest key of
the map is 6, held by the object that `getMaxNode()` of the root returns. -/
theorem found_iterator_caches_subtree_maximum :
    Ptr.insertAll 10 0 [(4, 40), (2, 20), (6, 60), (1, 10), (3, 30)] Ptr.init =
        .ok Ptr.plain5 ∧
      Ptr.parentsConsistent 10 Ptr.plain5 0 = true ∧
      Ptr.find 10 0 3 Ptr.plain5 = .ok ({ cur := some 5, max := some 5 }, Ptr.plain5) ∧
      Ptr.getMaxNode 10 0 Ptr.plain5 = .ok (3, Ptr.plain5) ∧
      Ptr.advanceToEnd 10 0 { cur := some 5, max := some 5 } Ptr.plain5 =
        .ok ({ cur := none, max := some 5 }, Ptr.plain5) ∧
      Ptr.Iterator.prev 10 { cur := none, max := some 5 } Ptr.plain5 =
        .ok ({ cur := some 5, max := some 5 }, Ptr.plain5) ∧
      Ptr.Iterator.key { cur := some 5, max := some 5 } Ptr.plain5 = .ok (3, Ptr.plain5) ∧
      Ptr.Iterator.key { cur := some 3, max := some 3 } Ptr.plain5 = .ok (6, Ptr.plain5) ∧
      keys (Ptr.toTree 10 Ptr.plain5 (some 0)) = [1, 2, 3, 4, 6] := by
  decide!

/-- C27 (empty range) fails on the code: on the empty map `begin()` converts
`getMinNode()`, which is the root object itself, so its `cur_` is not null and
`begin() == end()` is false; the loop from `begin()` to `end()` then
dereferences the null `pair_` of the empty object.  The members `cbegin()` and
`cend()`, where `cbegin()` tests `isEmpty_`, compare equal on the same map. -/
theorem begin_differs_from_end_on_empty_map :
    Ptr.empty 0 Ptr.init = .ok (true, Ptr.init) ∧
      Ptr.begin_ 10 0 Ptr.init = .ok ({ cur := some 0, max := some 0 }, Ptr.init) ∧
      Ptr.end_ 10 0 Ptr.init = .ok ({ cur := none, max := some 0 }, Ptr.init) ∧
      Ptr.Iterator.eq { cur := some 0, max := some 0 } { cur := none, max := some 0 } = false ∧
      Ptr.Iterator.star { cur := some 0, max := some 0 } Ptr.init = .failed .badAccess ∧
      Ptr.ascending 10 0 Ptr.init = .error .badAccess ∧
      Ptr.cbegin_ 10 0 Ptr.init = .ok ({ cur := none, max := none }, Ptr.init) ∧
      Ptr.cend_ 10 0 Ptr.init = .ok ({ cur := none, max := some 0 }, Ptr.init) ∧
      Ptr.Iterator.eq { cur := none, max := none } { cur := none, max := some 0 } = true := by
  decide!

/-- C28 (erase terminates) fails on the code: after inserting the key 0 three
times the root holds key 0 and has two children, the left one holding key 0
as well.  The call `erase(0)` reaches the two-children case of `rawDeleteSelf`,
which calls `rawDelete` with the key of the greatest object of the left
subtree on the same, unchanged object; that key is again the key of the
object, so the recursion never ends: no bound on the depth of the call stack
lets `erase(0)` return. -/
theorem erase_never_returns_with_equal_keys (fuel : Nat) :
    insertAll null [(0, 1), (0, 2), (0, 3)] =
        node (node null 0 1 1 null) 0 2 2 (node null 0 3 1 null) ∧
      erase fuel 0 (insertAll null [(0, 1), (0, 2), (0, 3)]) = none := by
  have h : insertAll null [(0, 1), (0, 2), (0, 3)] =
      node (node null 0 1 1 null) 0 2 2 (node null 0 3 1 null) := by decide
  refine ⟨h, ?_⟩
  rw [h]
  have hr : ∀ n, rawDelete n 0 (node (node null 0 1 1 null) 0 2 2 (node null 0 3 1 null)) =
      none := by
    intro n
    induction n with
    | zero => rfl
    | succ n ih =>
      simp only [rawDelete, rawDeleteSelf, getMaxNode, pair?, ih]
      rfl
  rw [erase, hr]
  rfl

end miheev
